import Mathlib

/-!
# forjj: deployment validation, defaulting and flow application

A shallow embedding of `forjfile/forge.go`, `forjfile/forj_settings.go` and
`flow/flow_define.go`.

Conventions of the embedding

* A Go `map[string]V` is a `GoMap V`: `none` is the nil map, `some l` a map whose
  entries are the pairs of `l`.  The order of `l` is the order in which one `range`
  over the map visits the entries; Go leaves that order unspecified, so statements
  are made for every list.
* Pointers stored in maps (`*DeploymentStruct`, `*RepoStruct`) are non-nil, except in
  `RawForgeYaml`, the tree as the decoder leaves it, whose deployment pointers may be
  nil.  Where the code panics the model has no result (`none`).
* A Go `error` is an `Option String`: `none` is `nil`, `some msg` an error whose
  text is `msg`.
* `gotrace` calls only write diagnostics and are left out.
* Methods and types of the package that the three files use without defining them
  are collected in `Collaborators`, `FileAccess` and the function fields of the
  flow structures, and every statement holds for all of them.
-/

namespace Forjj

/-! ## Go maps -/

/-- A Go map with string keys: `none` is the nil map. -/
abbrev GoMap (V : Type) := Option (List (String × V))

/-- The entries visited by `range m`. -/
def GoMap.entries {V : Type} (m : GoMap V) : List (String × V) :=
  m.getD []

/-- Go `len(m)`. -/
def GoMap.len {V : Type} (m : GoMap V) : Nat :=
  m.entries.length

/-- Lookup in an entry list: the value stored under `k`, if any. -/
def lookupKey {V : Type} (k : String) : List (String × V) → Option V
  | [] => none
  | (k', v) :: rest => if k' = k then some v else lookupKey k rest

/-- Go `v, found := m[k]` (a nil map has no key). -/
def GoMap.get? {V : Type} (m : GoMap V) (k : String) : Option V :=
  lookupKey k m.entries

/-- Go `m[k] = v` on the entries of a non-nil map: replace the entry or add one. -/
def setKey {V : Type} (k : String) (v : V) : List (String × V) → List (String × V)
  | [] => [(k, v)]
  | (k', v') :: rest => if k' = k then (k, v) :: rest else (k', v') :: setKey k v rest

/-! ## Data model (`forjfile`) -/

def DevDeployType : String := "DEV"

def testDeployType : String := "TEST"

def ProDeployType : String := "PRO"

/-- `DefaultSettingsStruct` of forj_settings.go. `forge` tells whether the back-pointer
to the owning `ForgeYaml` is set. -/
structure DefaultSettingsStruct where
  forge : Bool
  UpstreamInstance : String
  Flow : String
  More : GoMap String
  deriving DecidableEq

/-- `ForjSettingsStruct` of forj_settings.go, with the inlined `ForjSettingsStructTmpl`. -/
structure ForjSettingsStruct where
  is_template : Bool
  forge : Bool
  Organization : String
  Default : DefaultSettingsStruct
  More : GoMap String
  deriving DecidableEq

/-- The fields of `RepoStruct` that forge.go reads: the internal name, the flow name
(`Flow.Name`), the declared application bindings `Apps` (role to application name), the
resolved bindings `apps` (role to the name of the resolved application) and `More`. -/
structure RepoStruct where
  name : String
  Flow : String
  Apps : GoMap String
  apps : GoMap String
  More : GoMap String
  deriving DecidableEq

/-- The fields of `AppStruct` that forge.go reads. -/
structure AppStruct where
  name : String
  Type_ : String
  More : GoMap String
  deriving DecidableEq

/-- A user: a key/value bag. -/
structure UserStruct where
  More : GoMap String
  deriving DecidableEq

/-- A group: a key/value bag. -/
structure GroupStruct where
  More : GoMap String
  deriving DecidableEq

/-- `ForjValues`: the key/value bag of one instance of an object kind unknown to the
static schema. -/
structure ForjValues where
  More : GoMap String
  deriving DecidableEq

/-- The instances of one object kind of the extension map (`map[string]ForjValues`). -/
structure ForjInstances where
  instances : GoMap ForjValues
  deriving DecidableEq

/-- `DeployForgeYaml`: the fields forge.go reads. -/
structure DeployForgeYaml where
  ForjSettings : ForjSettingsStruct
  Infra : Option RepoStruct
  Repos : GoMap RepoStruct
  Apps : GoMap AppStruct
  Users : GoMap UserStruct
  Groups : GoMap GroupStruct
  More : GoMap ForjInstances
  deriving DecidableEq

/-- `DeploymentStruct`: internal name, description, type tag and the lazily loaded
overlay. `Type_` is the Go field `Type`. -/
structure DeploymentStruct where
  name : String
  Desc : String
  Type_ : String
  Details : Option DeployForgeYaml
  deriving DecidableEq

/-- `ForgeYaml` of forge.go. -/
structure ForgeYaml where
  updated : Bool
  Deployments : GoMap DeploymentStruct
  ForjCore : DeployForgeYaml
  deriving DecidableEq

/-- `ForgeYaml` with its `Deployments` map as Go holds it, a map of pointers: the pointer
of a deployment that the Forjfile gives without value is nil (`none`). `ForgeYaml` above
is the tree in which none of these pointers is nil. -/
structure RawForgeYaml where
  updated : Bool
  Deployments : GoMap (Option DeploymentStruct)
  ForjCore : DeployForgeYaml
  deriving DecidableEq

/-- `Forge` of forge.go; `yaml` is the tree behind the (non-nil) `yaml` pointer. -/
structure Forge where
  file_loaded : String
  deployFileLoaded : String
  deployTo : String
  tmplfile_loaded : String
  updated_msg : String
  infra_path : String
  file_name : String
  yaml : ForgeYaml
  inMem : Option DeployForgeYaml
  deriving DecidableEq

/-- Methods of the package that forge.go calls and that are defined in other files.
`getDevDeploy` reads the default dev-deploy name from the default settings;
`SetInternalRelApp r role app` resolves one application binding of `r` and gives the
repository afterwards and the error; `RepoGetString` is `RepoStruct.GetString`;
`initDefaults` is `DeployForgeYaml.initDefaults`, acting on its receiver;
`NewDeployForgeYaml` is the empty tree of that name; `coreMergeFrom` is
`DeployForgeYaml.mergeFrom`, acting on its receiver; `coreInit` is `DeployForgeYaml.Init`,
which receives the owning tree; `coreGet` is `DeployForgeYaml.Get`. -/
structure Collaborators where
  getDevDeploy : DefaultSettingsStruct → String
  SetInternalRelApp : RepoStruct → String → String → RepoStruct × Option String
  RepoGetString : RepoStruct → String → String
  initDefaults : DeployForgeYaml → DeployForgeYaml
  NewDeployForgeYaml : DeployForgeYaml
  coreMergeFrom : DeployForgeYaml → Option DeployForgeYaml → DeployForgeYaml × Option String
  coreInit : ForgeYaml → ForgeYaml × Bool
  coreGet : DeployForgeYaml → String → String → String → String × Bool

/-- What `os.Stat` tells about a file. -/
structure FileInfo where
  IsRegular : Bool
  IsDir : Bool
  deriving DecidableEq

/-- The file system and the YAML decoder as Load sees them: `utils.Abs`, `os.Stat`,
`ioutil.ReadFile`, `path.Join`, `yaml.Unmarshal` into the tree of a `Forge` (the tree
afterwards and the error) and into a fresh `DeployForgeYaml`. -/
structure FileAccess where
  Abs : String → String × Option String
  Stat : String → Except String FileInfo
  ReadFile : String → String × Option String
  Join : List String → String
  UnmarshalForge : String → ForgeYaml → RawForgeYaml × Option String
  UnmarshalDeploy : String → DeployForgeYaml × Option String

/-! ## Settings (`forj_settings.go`) -/

/-- `DefaultSettingsStruct.Get`: value and found flag. -/
def DefaultSettingsStruct.Get (s : DefaultSettingsStruct) (key : String) : String × Bool :=
  if key = "upstream-instance" then (s.UpstreamInstance, s.UpstreamInstance != "")
  else if key = "flow" then (s.Flow, s.Flow != "")
  else
    match s.More.get? key with
    | some v => (v, true)
    | none => ("", false)

/-- `DefaultSettingsStruct.Set`: the settings afterwards, and whether `dirty()` was
called on the back-pointer. -/
def DefaultSettingsStruct.Set (s : DefaultSettingsStruct) (key value : String) :
    DefaultSettingsStruct × Bool :=
  if key = "upstream-instance" then ({ s with UpstreamInstance := value }, true)
  else if key = "flow" then ({ s with Flow := value }, true)
  else
    match s.More.get? key with
    | some v =>
      if v ≠ value then ({ s with More := some (setKey key value s.More.entries) }, true)
      else (s, false)
    | none => (s, false)

/-- `ForjSettingsStruct.Get`. -/
def ForjSettingsStruct.Get (s : ForjSettingsStruct) (inst key : String) : String × Bool :=
  if inst = "default" then s.Default.Get key
  else if key = "organization" then (s.Organization, s.Organization != "")
  else
    match s.More.get? key with
    | some v => (v, true)
    | none => ("", false)

/-- `ForjSettingsStruct.Set`: the settings afterwards, and whether `dirty()` was called
on a back-pointer. -/
def ForjSettingsStruct.Set (s : ForjSettingsStruct) (inst key value : String) :
    ForjSettingsStruct × Bool :=
  if inst = "default" then
    let r := s.Default.Set key value
    ({ s with Default := r.1 }, r.2)
  else if key = "organization" then ({ s with Organization := value }, true)
  else
    match s.More.get? key with
    | some v =>
      if v ≠ value then ({ s with More := some (setKey key value s.More.entries) }, true)
      else (s, false)
    | none => (s, false)

/-- `ForgeYaml.dirty` on the tree reached through a settings back-pointer: `called` tells
whether the call was made, `ptr` whether the back-pointer is non-nil. -/
def ForgeYaml.dirty (f : ForgeYaml) (called ptr : Bool) : ForgeYaml :=
  if called && ptr then { f with updated := true } else f

/-! ## Defaulting (`forge.go`) -/

/-- Loop of `ForgeYaml.defineDefaults` over the deployments still to visit. -/
def defineDefaultsLoop (X : Collaborators) : List (String × DeploymentStruct) → ForgeYaml → ForgeYaml
  | [], f => f
  | (name, deploy) :: rest, f =>
    if deploy.Type_ = DevDeployType ∧ X.getDevDeploy f.ForjCore.ForjSettings.Default = "" then
      let r := f.ForjCore.ForjSettings.Default.Set "dev-deploy" name
      let f1 : ForgeYaml :=
        { f with ForjCore := { f.ForjCore with
            ForjSettings := { f.ForjCore.ForjSettings with Default := r.1 } } }
      defineDefaultsLoop X rest (f1.dirty r.2 r.1.forge)
    else defineDefaultsLoop X rest f

/-- `ForgeYaml.defineDefaults`; `warn` only selects the diagnostic channel. -/
def ForgeYaml.defineDefaults (X : Collaborators) (_warn : Bool) (f : ForgeYaml) : ForgeYaml :=
  defineDefaultsLoop X f.Deployments.entries f

/-- `ForgeYaml.set_defaults`. -/
def ForgeYaml.set_defaults (X : Collaborators) (f : ForgeYaml) : ForgeYaml :=
  let f1 : ForgeYaml := { f with ForjCore := X.initDefaults f.ForjCore }
  if f1.Deployments.len = 0 then
    let data : DeploymentStruct :=
      { name := "production", Desc := "Production environment", Type_ := ProDeployType,
        Details := none }
    { f1 with Deployments := some [(data.name, data)] }
  else
    { f1 with Deployments :=
        f1.Deployments.map (fun l => l.map (fun e => (e.1, { e.2 with name := e.1 }))) }

/-- A tree as Go holds it: every deployment pointer is set. -/
def ForgeYaml.raw (f : ForgeYaml) : RawForgeYaml :=
  { updated := f.updated,
    Deployments := f.Deployments.map (fun l => l.map (fun e => (e.1, some e.2))),
    ForjCore := f.ForjCore }

/-- The entries behind the pointers of a map, when none of them is nil. -/
def derefEntries :
    List (String × Option DeploymentStruct) → Option (List (String × DeploymentStruct))
  | [] => some []
  | (_, none) :: _ => none
  | (name, some deploy) :: rest => (derefEntries rest).map (fun l => (name, deploy) :: l)

/-- The tree behind a tree of pointers, when no deployment pointer is nil. -/
def RawForgeYaml.deref (f : RawForgeYaml) : Option ForgeYaml :=
  match f.Deployments with
  | none => some { updated := f.updated, Deployments := none, ForjCore := f.ForjCore }
  | some l =>
    (derefEntries l).map (fun l1 =>
      { updated := f.updated, Deployments := some l1, ForjCore := f.ForjCore })

/-- The second loop of `set_defaults` over the deployments still to visit:
`deploy.name = name` panics on a nil `deploy`, and the loop then has no result
(`none`). -/
def setNamesLoop :
    List (String × Option DeploymentStruct) → Option (List (String × DeploymentStruct))
  | [] => some []
  | (_, none) :: _ => none
  | (name, some deploy) :: rest =>
    (setNamesLoop rest).map (fun l => (name, { deploy with name := name }) :: l)

/-- `ForgeYaml.set_defaults` on a tree whose deployment pointers may be nil: the tree
afterwards, in which no pointer is nil, or `none` when the code panics on a nil
deployment (forge.go:738). -/
def RawForgeYaml.set_defaults (X : Collaborators) (f : RawForgeYaml) : Option ForgeYaml :=
  let core := X.initDefaults f.ForjCore
  if f.Deployments.len = 0 then
    let data : DeploymentStruct :=
      { name := "production", Desc := "Production environment", Type_ := ProDeployType,
        Details := none }
    some { updated := f.updated, Deployments := some [(data.name, data)], ForjCore := core }
  else
    (setNamesLoop f.Deployments.entries).map (fun l =>
      { updated := f.updated, Deployments := some l, ForjCore := core })

/-! ## Validation (`forge.go`) -/

/-- Inner loop of `Forge.Validate` over the application bindings of one repository still
to visit: the repository afterwards and the error returned, if any. -/
def validateRepoApps (X : Collaborators) :
    RepoStruct → List (String × String) → RepoStruct × Option String
  | repo, [] => (repo, none)
  | repo, (relAppName, appName) :: rest =>
    match X.SetInternalRelApp repo relAppName appName with
    | (repo1, some err) =>
      (repo1, some ("Repo '" ++ X.RepoGetString repo1 "name" ++
        "' has an invalid Application reference '" ++ relAppName ++ ": " ++ appName ++ "'. "
        ++ err))
    | (repo1, none) => validateRepoApps X repo1 rest

/-- First loop of `Forge.Validate` over the repositories still to visit: the entries
afterwards and the error returned, if any. -/
def validateRepos (X : Collaborators) :
    List (String × RepoStruct) → List (String × RepoStruct) × Option String
  | [] => ([], none)
  | (k, repo) :: rest =>
    match repo.Apps with
    | none =>
      let r := validateRepos X rest
      ((k, repo) :: r.1, r.2)
    | some bindings =>
      match validateRepoApps X repo bindings with
      | (repo1, some e) => ((k, repo1) :: rest, some e)
      | (repo1, none) =>
        let r := validateRepos X rest
        ((k, repo1) :: r.1, r.2)

/-- Second loop of `Forge.Validate` over the deployments still to visit, with the current
`pro` and `devDefaultFound`: the error returned from inside the loop, or the final
`devDefaultFound`. -/
def validateDeployments (devDefault : String) :
    List (String × DeploymentStruct) → Bool → Bool → Except String Bool
  | [], _, devDefaultFound => .ok devDefaultFound
  | (name, deploy) :: rest, pro, devDefaultFound =>
    if deploy.Type_ = "" then
      .error ("Deployment declaration error in '" ++ name ++
        "'. Missing type. Provide at least `Type: (PRO|TEST|DEV)`")
    else if deploy.Type_ = ProDeployType ∧ pro = true then
      .error ("Deployment declaration error in '" ++ name ++
        "'. You cannot have more than 1 deployment of type 'PRO'. Please fix it")
    else
      validateDeployments devDefault rest
        (pro || decide (deploy.Type_ = ProDeployType))
        (devDefaultFound || decide (deploy.Type_ = DevDeployType ∧ devDefault = deploy.name))

/-- `Forge.Validate`: the forge afterwards and the error returned. -/
def Forge.Validate (X : Collaborators) (f : Forge) : Forge × Option String :=
  let r := validateRepos X f.yaml.ForjCore.Repos.entries
  let f1 : Forge :=
    { f with yaml := { f.yaml with ForjCore := { f.yaml.ForjCore with
        Repos := f.yaml.ForjCore.Repos.map (fun _ => r.1) } } }
  match r.2 with
  | some e => (f1, some e)
  | none =>
    let devDefault := X.getDevDeploy f1.yaml.ForjCore.ForjSettings.Default
    match validateDeployments devDefault f1.yaml.Deployments.entries false false with
    | .error e => (f1, some e)
    | .ok devDefaultFound =>
      if devDefault ≠ "" ∧ devDefaultFound = false then
        (f1, some ("Deployment declaration error in '" ++ "forj-settings/default/dev-deploy" ++
          "'. '" ++ devDefault ++ "' is not a valid default DEV deployment name. Please fix it"))
      else (f1, none)

/-! ## Merging and loading (`forge.go`) -/

/-- `Forge.GetADeployment`: the deployment stored under `deploy`, if any (`found`). -/
def Forge.GetADeployment (f : Forge) (deploy : String) : Option DeploymentStruct :=
  f.yaml.Deployments.get? deploy

/-- `Forge.GetDeployment`. -/
def Forge.GetDeployment (f : Forge) : String := f.deployTo

/-- `Forge.SetDeployment`. -/
def Forge.SetDeployment (f : Forge) (deployTo : String) : Forge :=
  { f with deployTo := deployTo }

/-- `Forge.Forjfile_name`. -/
def Forge.Forjfile_name (f : Forge) : String := f.file_name

/-- A `*Forge` as an exported method receives it: the nil pointer, a forge whose `yaml`
pointer is nil (a forge that was only allocated, as `new(Forge)` gives it; the field
`yaml` of `f` stands for nothing then and is not read), or a forge with its tree. -/
inductive ForgePtr where
  | nil : ForgePtr
  | bare (f : Forge) : ForgePtr
  | tree (f : Forge) : ForgePtr
  deriving DecidableEq

/-- What `MergeFromDeployment` returns, with the number of calls of `mergeFrom` it made
(a record kept for the statements). -/
structure MergeResult where
  result : Option DeployForgeYaml
  err : Option String
  merges : Nat
  deriving DecidableEq

/-- `Forge.MergeFromDeployment`. The result is `none` when the code panics: a forge
without tree passes the test `f == nil`, and `GetADeployment` then reads
`f.yaml.Deployments` through the nil `yaml` (forge.go:795). -/
def Forge.MergeFromDeployment (X : Collaborators) (f : ForgePtr) (deployTo : String) :
    Option MergeResult :=
  match f with
  | .nil => some { result := none, err := some "Forge is nil", merges := 0 }
  | .bare _ => none
  | .tree f =>
    match f.GetADeployment deployTo with
    | none =>
      some { result := none, err := some ("Unable to find deployment '" ++ deployTo ++ "'"),
             merges := 0 }
    | some deploy =>
      match X.coreMergeFrom X.NewDeployForgeYaml (some f.yaml.ForjCore) with
      | (_, some err) =>
        some { result := none, err := some ("Unable to load the master forjfile. " ++ err),
               merges := 1 }
      | (r1, none) =>
        match X.coreMergeFrom r1 deploy.Details with
        | (_, some err) =>
          some { result := none,
                 err := some ("Unable to merge the Deployment forjfile to master one. " ++ err),
                 merges := 2 }
        | (r2, none) =>
          some { result := some (X.initDefaults r2), err := none, merges := 2 }

/-- The tree that `new(ForgeYaml)` allocates. -/
def zeroForgeYaml : ForgeYaml :=
  { updated := false, Deployments := none,
    ForjCore :=
      { ForjSettings :=
          { is_template := false, forge := false, Organization := "",
            Default := { forge := false, UpstreamInstance := "", Flow := "", More := none },
            More := none },
        Infra := none, Repos := none, Apps := none, Users := none, Groups := none,
        More := none } }

/-- `Forge.Init` on a non-nil forge: the forge afterwards and the value returned. -/
def Forge.Init (X : Collaborators) (f : Forge) : Forge × Bool :=
  let y : ForgeYaml :=
    match f.yaml.Deployments with
    | none => { f.yaml with Deployments := some [] }
    | some _ => f.yaml
  let r := X.coreInit y
  ({ f with yaml := r.1 }, r.2)

/-- `Forge.Get` on a non-nil forge: the forge afterwards, the string of the value and the
found flag. -/
def Forge.Get (X : Collaborators) (f : Forge) (object inst key : String) :
    Forge × String × Bool :=
  match f.Init X with
  | (f1, false) => (f1, "", false)
  | (f1, true) =>
    let r := X.coreGet f1.yaml.ForjCore object inst key
    (f1, r.1, r.2)

/-- `loadFile`: the absolute file name, the data read and the error. -/
def loadFile (io : FileAccess) (aPath : String) : String × String × Option String :=
  match io.Abs aPath with
  | (file, some err) => (file, "", some err)
  | (file, none) =>
    match io.Stat file with
    | .error e => (file, "", some e)
    | .ok fi =>
      if fi.IsRegular = false then (file, "", some (file ++ " must be a regular file."))
      else
        match io.ReadFile file with
        | (_, some e) => (file, "", some e)
        | (fd, none) => (file, fd, none)

/-- First part of `Forge.Load` (up to the decoding of the master Forjfile), on a forge
with its tree. Either Load returns here, with the forge it leaves and the error, or the
Forjfile is decoded: the forge and the tree that the decoder leaves, which Load then
hands to `set_defaults`. After a failed decoding the forge is given when the tree left
holds no nil deployment pointer. -/
def Forge.readMaster (X : Collaborators) (io : FileAccess) (f : Forge) :
    Except (Option Forge × String) (Forge × RawForgeYaml) :=
  match f.Init X with
  | (f0, false) => .error (some f0, "Forge is nil.")
  | (f0, true) =>
    let statErr : Option String :=
      if f0.infra_path ≠ "" then
        match io.Stat f0.infra_path with
        | .error e => some e
        | .ok _ => none
      else none
    match statErr with
    | some e => .error (some f0, e)
    | none =>
      let aPath := io.Join [f0.infra_path, f0.Forjfile_name]
      match loadFile io aPath with
      | (_, _, some e) => .error (some f0, e)
      | (file, yaml_data, none) =>
        let f1 : Forge := { f0 with file_loaded := aPath }
        match io.UnmarshalForge yaml_data f1.yaml with
        | (y, some e) =>
          .error (y.deref.map (fun y1 => { f1 with yaml := y1 }),
            "Unable to load " ++ file ++ ". " ++ e)
        | (y, none) => .ok (f1, y)

/-- Last part of `Forge.Load`, from the choice of the deployment on: the forge
afterwards, `loaded` and the error. -/
def Forge.loadDeployment (X : Collaborators) (io : FileAccess) (f : Forge) (deployTo : String) :
    Forge × Bool × Option String :=
  let r : Forge × String :=
    if deployTo = "" then
      match f.Get X "settings" "default" "dev-deploy" with
      | (f1, v, true) => (f1, v)
      | (f1, _, false) => (f1, deployTo)
    else (f, deployTo)
  let f := r.1
  let deployTo := r.2
  if deployTo = "" then (f, true, none)
  else
    match f.yaml.Deployments.get? deployTo with
    | none => (f, true, some ("Deployment '" ++ deployTo ++ "' not defined"))
    | some deploy =>
      let f2 := f.SetDeployment deployTo
      let aPath := io.Join [f2.infra_path, "deployments", deployTo, f2.Forjfile_name]
      match loadFile io aPath with
      | (_, _, some e) => (f2, false, some e)
      | (file, yaml_data, none) =>
        let f3 : Forge := { f2 with deployFileLoaded := aPath }
        match io.UnmarshalDeploy yaml_data with
        | (_, some e) =>
          (f3, false, some ("Unable to load deployment file '" ++ file ++ "'. " ++ e))
        | (deployData, none) =>
          let deploy1 : DeploymentStruct := { deploy with Details := some deployData }
          let y : ForgeYaml :=
            { f3.yaml with Deployments := Option.map (setKey deployTo deploy1) f3.yaml.Deployments }
          ({ f3 with yaml := y.set_defaults X }, true, none)

/-- `Forge.Load` on a forge with its tree. The result is the forge afterwards, `loaded`
and the error, or `none` when `set_defaults` panics on a nil deployment. -/
def Forge.loadTree (X : Collaborators) (io : FileAccess) (f : Forge) (deployTo : String) :
    Option (Option Forge × Bool × Option String) :=
  match f.readMaster X io with
  | .error (g, e) => some (g, false, some e)
  | .ok (f1, raw) =>
    match raw.set_defaults X with
    | none => none
    | some y =>
      let f2 : Forge := { f1 with yaml := y.defineDefaults X true }
      let r := f2.loadDeployment X io deployTo
      some (some r.1, r.2.1, r.2.2)

/-- `Forge.Load`. `Init` gives a tree (`new(ForgeYaml)`) to a forge that has none. The
result is the forge afterwards, `loaded` and the error, or `none` when the code
panics. -/
def Forge.Load (X : Collaborators) (io : FileAccess) (f : ForgePtr) (deployTo : String) :
    Option (Option Forge × Bool × Option String) :=
  match f with
  | .nil => some (none, false, some "Forge is nil.")
  | .bare f => Forge.loadTree X io { f with yaml := zeroForgeYaml } deployTo
  | .tree f => Forge.loadTree X io f deployTo
/-! ## Flows (`flow/flow_define.go`)

The flow engine works on the `Forge` it receives by pointer; `σ` is the type of everything
reachable from it (the configuration tree together with the target repository, which is a
part of it), `R` identifies the target repository and `V` is the type of the values of the
task lists.  The types `FlowTaskDef`, `FlowTaskIf`, `FlowTaskList`, `FlowTaskSet` and the
template data are declared in files that are not part of the sources at hand: they are
modelled by the fields `apply` reads, and the methods it calls on them are function
fields, each free to read and to change the state. -/

/-- The template data handed to the `set` action (`tmpl_data`): the target and the
`List` map of the current combination. -/
structure FlowTaskModel (R V : Type) where
  Repo : Option R
  List_ : GoMap V

/-- One predicate of a task: `IfEvaluate(repo, Forjfile)` gives the Go pair
(value, error) and the state afterwards. -/
structure FlowTaskIf (σ R : Type) where
  IfEvaluate : Option R → σ → (Bool × Option String) × σ

/-- The `set` action of a task: `apply(tmpl_data, Forjfile)` gives the error and the
state afterwards. -/
structure FlowTaskSet (σ R V : Type) where
  apply : FlowTaskModel R V → σ → Option String × σ

/-- One list parameter of a task: its name and `Get(repo, Forjfile)`. -/
structure FlowTaskList (σ R V : Type) where
  Name : String
  Get : Option R → σ → List V × σ

/-- A flow task. `If` and `List_` (the Go field `List`) are slices, `none` being nil. -/
structure FlowTaskDef (σ R V : Type) where
  Description : String
  If : Option (List (FlowTaskIf σ R))
  List_ : Option (List (FlowTaskList σ R V))
  Set : FlowTaskSet σ R V

/-- `FlowDefine`: the fields `apply` reads (`Define` is not used by it). -/
structure FlowDefine (σ R V : Type) where
  Name : String
  Title : String
  OnRepo : GoMap (FlowTaskDef σ R V)
  OnForj : GoMap (FlowTaskDef σ R V)

/-- Loop of `if_section` over the predicates still to evaluate. -/
def ifLoop {σ R : Type} : List (FlowTaskIf σ R) → Option R → σ → (Bool × Option String) × σ
  | [], _, s => ((true, none), s)
  | ftif :: rest, repo, s =>
    match ftif.IfEvaluate repo s with
    | ((_, some err), s1) => ((false, some err), s1)
    | ((v, none), s1) => if v = false then ((false, none), s1) else ifLoop rest repo s1

/-- `FlowTaskDef.if_section`: the Go pair (task_to_set, error) and the state afterwards. -/
def FlowTaskDef.if_section {σ R V : Type} (ftd : FlowTaskDef σ R V) (repo : Option R) (s : σ) :
    (Bool × Option String) × σ :=
  match ftd.If with
  | none => ((true, none), s)
  | some ifs => ifLoop ifs repo s

/-- Modelled from the spec: `utils.MLoop`, the mixed-radix counter of the list expander
(spec 4.4), which is not part of the sources at hand. `max` holds the list lengths,
`cur` the current index of every list, `eol` tells that no combination is left. -/
structure MLoop where
  max : List Nat
  cur : List Nat
  eol : Bool
  deriving DecidableEq

/-- Modelled from the spec: `utils.NewMLoop`. All indexes start at 0, and a zero-length
list at any position leaves no combination at all. -/
def NewMLoop (max : List Nat) : MLoop :=
  { max := max, cur := max.map (fun _ => 0), eol := max.any (fun m => m == 0) }

/-- Modelled from the spec: one step of the odometer on the indexes `cur` under the
lengths `max`. The rightmost index increments first; an index that reaches its length
goes back to 0 and carries into the index on its left. The result is the new indexes
and whether the carry left the leftmost index. -/
def incrDigits : List Nat → List Nat → List Nat × Bool
  | c :: cs, m :: ms =>
    let r := incrDigits cs ms
    if r.2 then (if c + 1 < m then ((c + 1) :: r.1, false) else (0 :: r.1, true))
    else (c :: r.1, false)
  | _, _ => ([], true)

/-- Modelled from the spec: `MLoop.Eol`, no combination is left. -/
def MLoop.Eol (l : MLoop) : Bool := l.eol

/-- Modelled from the spec: `MLoop.Cur`, the current index of every list. -/
def MLoop.Cur (l : MLoop) : List Nat := l.cur

/-- Modelled from the spec: `MLoop.Increment`, advance to the next combination; the
overflow of the leftmost index ends the iteration. -/
def MLoop.Increment (l : MLoop) : MLoop :=
  let r := incrDigits l.cur l.max
  { l with cur := r.1, eol := l.eol || r.2 }

/-- A recorded call of a task's `set` action: the key of the task in the task map, the
`List` map of the template data at the call, and the error the action returned. -/
structure SetCall (V : Type) where
  task : String
  List_ : GoMap V
  err : Option String

/-- The state of `apply` between two tasks: the forge, `bInError`, and the calls of `set`
actions made so far (a record kept for the statements, not a variable of the code). -/
structure ApplyState (σ V : Type) where
  forj : σ
  bInError : Bool
  calls : List (SetCall V)

/-- The loop `for index, taskList := range flowTask.List` that loads the lists: every
list specification is resolved once, in declared order; the result pairs each name with
its list. (The resolved list is taken to be stored in the specification that
`flowTask.List[index]` reads back later.) -/
def loadLists {σ R V : Type} :
    List (FlowTaskList σ R V) → Option R → σ → List (String × List V) × σ
  | [], _, s => ([], s)
  | taskList :: rest, repo, s =>
    let r := taskList.Get repo s
    let r2 := loadLists rest repo r.2
    ((taskList.Name, r.1) :: r2.1, r2.2)

/-- The loop `for index, pos := range looplist.Cur()`: bind the name of every list to
its element at the current index. (An index out of range, where Go panics, binds
nothing; `Cur` never yields one.) -/
def bindCur {V : Type} : List (String × List V) → List Nat → List (String × V) →
    List (String × V)
  | (name, list) :: named, pos :: cur, m =>
    match list.get? pos with
    | some v => bindCur named cur (setKey name v m)
    | none => bindCur named cur m
  | _, _, m => m

/-- The loop `for !looplist.Eol()` of `apply` for the task of key `key`. `fuel` bounds
the number of iterations; `applyTask` passes the number of combinations. -/
def applyCombos {σ R V : Type} (key : String) (flowTask : FlowTaskDef σ R V)
    (named : List (String × List V)) (repo : Option R) :
    Nat → MLoop → List (String × V) → ApplyState σ V → ApplyState σ V
  | 0, _, _, st => st
  | fuel + 1, looplist, tmplList, st =>
    if looplist.Eol = true then st
    else
      let tmplList1 := bindCur named looplist.Cur tmplList
      let r := flowTask.Set.apply { Repo := repo, List_ := some tmplList1 } st.forj
      applyCombos key flowTask named repo fuel looplist.Increment tmplList1
        { forj := r.2, bInError := st.bInError,
          calls := st.calls ++ [{ task := key, List_ := some tmplList1, err := r.1 }] }

/-- The body of the loop over the tasks of `apply`, for the task `flowTask` stored under
`key`. The trace calls are left out, with the `repo.GetString("name")` that the one
after a successful action evaluates. -/
def applyTask {σ R V : Type} (key : String) (flowTask : FlowTaskDef σ R V) (repo : Option R)
    (st : ApplyState σ V) : ApplyState σ V :=
  match flowTask.if_section repo st.forj with
  | ((_, some _), s1) => { forj := s1, bInError := true, calls := st.calls }
  | ((task_to_set, none), s1) =>
    if task_to_set = false then { forj := s1, bInError := st.bInError, calls := st.calls }
    else
      match flowTask.List_ with
      | none =>
        let r := flowTask.Set.apply { Repo := repo, List_ := none } s1
        { forj := r.2, bInError := st.bInError,
          calls := st.calls ++ [{ task := key, List_ := none, err := r.1 }] }
      | some lists =>
        let loaded := loadLists lists repo s1
        let max := loaded.1.map (fun e => e.2.length)
        applyCombos key flowTask loaded.1 repo max.prod (NewMLoop max) []
          { forj := loaded.2, bInError := st.bInError, calls := st.calls }

/-- The loop `for _, flowTask := range tasks` of `apply`. -/
def applyTasks {σ R V : Type} (tasks : List (String × FlowTaskDef σ R V)) (repo : Option R)
    (st : ApplyState σ V) : ApplyState σ V :=
  tasks.foldl (fun acc e => applyTask e.1 e.2 repo acc) st

/-- The task set `apply` walks: `OnForj` for the document (`repo == nil`), `OnRepo` for
a repository. -/
def FlowDefine.tasks {σ R V : Type} (fd : FlowDefine σ R V) (repo : Option R) :
    List (String × FlowTaskDef σ R V) :=
  match repo with
  | none => fd.OnForj.entries
  | some _ => fd.OnRepo.entries

/-- The state in which `apply` starts its loop. -/
def ApplyState.start {σ V : Type} (Forjfile : σ) : ApplyState σ V :=
  { forj := Forjfile, bInError := false, calls := [] }

/-- `FlowDefine.apply`: the state at the end of the loop and the error returned. -/
def FlowDefine.apply {σ R V : Type} (fd : FlowDefine σ R V) (repo : Option R) (Forjfile : σ) :
    ApplyState σ V × Option String :=
  let st := applyTasks (fd.tasks repo) repo (ApplyState.start Forjfile)
  if st.bInError = true then
    (st, some ("Failed to apply '" ++ fd.Name ++ "'. Errors detected."))
  else (st, none)

/-! ### The same flow with its failures silenced

Used to state that failures do not change what `apply` goes on to do. -/

/-- The predicate that behaves as `c` but answers `false` where `c` returns an error. -/
def FlowTaskIf.silent {σ R : Type} (c : FlowTaskIf σ R) : FlowTaskIf σ R where
  IfEvaluate := fun repo s =>
    match c.IfEvaluate repo s with
    | ((_, some _), s1) => ((false, none), s1)
    | ((v, none), s1) => ((v, none), s1)

/-- The action that behaves as `a` but always reports success. -/
def FlowTaskSet.silent {σ R V : Type} (a : FlowTaskSet σ R V) : FlowTaskSet σ R V where
  apply := fun m s => (none, (a.apply m s).2)

/-- The task with silenced predicates and action. -/
def FlowTaskDef.silent {σ R V : Type} (t : FlowTaskDef σ R V) : FlowTaskDef σ R V :=
  { t with If := t.If.map (fun l => l.map FlowTaskIf.silent), Set := t.Set.silent }

/-- A call without the error it returned: which task, with which bindings. -/
def SetCall.invocation {V : Type} (c : SetCall V) : String × GoMap V := (c.task, c.List_)

/-- The record `st` continued by what a run `r`, started from a fresh record, did. -/
def ApplyState.after {σ V : Type} (st r : ApplyState σ V) : ApplyState σ V :=
  { forj := r.forj, bInError := st.bInError || r.bInError, calls := st.calls ++ r.calls }

/-- The predicates of `ifs`, evaluated in order from state `s`, all give `true` without
error: the state after the last one, or `none` if one of them is false or errors. -/
def evalAllTrue {σ R : Type} : List (FlowTaskIf σ R) → Option R → σ → Option σ
  | [], _, s => some s
  | c :: rest, repo, s =>
    match c.IfEvaluate repo s with
    | ((true, none), s1) => evalAllTrue rest repo s1
    | _ => none

/-- The flow with silenced tasks. -/
def FlowDefine.silent {σ R V : Type} (fd : FlowDefine σ R V) : FlowDefine σ R V :=
  { fd with
    OnRepo := fd.OnRepo.map (fun l => l.map (fun e => (e.1, e.2.silent))),
    OnForj := fd.OnForj.map (fun l => l.map (fun e => (e.1, e.2.silent))) }

/-- What a run did, apart from the errors: the forge it left and the invocations of `set`
actions it made. -/
def ApplyState.effect {σ V : Type} (st : ApplyState σ V) : σ × List (String × GoMap V) :=
  (st.forj, st.calls.map SetCall.invocation)

/-- The state in which `apply`, started on the forge `s0`, is after the tasks `pre`. -/
def visited {σ R V : Type} (pre : List (String × FlowTaskDef σ R V)) (repo : Option R)
    (s0 : σ) : ApplyState σ V :=
  applyTasks pre repo (ApplyState.start s0)

/-- The rank of the indexes `cur` among the combinations of lists of lengths `max`, in
odometer order. -/
def rankDigits : List Nat → List Nat → Nat
  | c :: cs, _ :: ms => c * ms.prod + rankDigits cs ms
  | _, _ => 0

/-! ## Texts of errors -/

/-- The text `msg` contains the text `s`. -/
def Mentions (msg s : String) : Prop := s.data <:+: msg.data

instance (msg s : String) : Decidable (Mentions msg s) :=
  inferInstanceAs (Decidable (s.data <:+: msg.data))

/-- The forge `f` with the given repositories. -/
def Forge.withRepos (f : Forge) (repos : GoMap RepoStruct) : Forge :=
  { f with yaml := { f.yaml with ForjCore := { f.yaml.ForjCore with Repos := repos } } }

/-! ## Initialisation (`forge.go`) -/

/-- Go `if m == nil { m = make(...) }`. -/
def GoMap.init {V : Type} (m : GoMap V) : GoMap V :=
  match m with
  | none => some []
  | some l => some l

/-- `ForgeYaml.Init`: the tree afterwards, or `none` when `Infra` is nil, where the
read of `f.ForjCore.Infra.More` dereferences a nil pointer. -/
def ForgeYaml.Init (f : ForgeYaml) : Option ForgeYaml :=
  match f.ForjCore.Infra with
  | none => none
  | some infra =>
    some
      { f with
        Deployments := f.Deployments.init,
        ForjCore :=
          { f.ForjCore with
            Groups := f.ForjCore.Groups.init,
            Users := f.ForjCore.Users.init,
            More := f.ForjCore.More.init,
            Infra := some { infra with More := infra.More.init },
            Repos := f.ForjCore.Repos.init,
            Apps := f.ForjCore.Apps.init } }

/-- The value and the found flag that a lookup in a `More` bag gives. -/
def moreEntry (more : GoMap String) (key : String) : String × Bool :=
  match more.get? key with
  | some v => (v, true)
  | none => ("", false)

/-! ## The dirty flag (`forge.go`, `forj_settings.go`) -/

/-- `Forge.IsDirty` on a non-nil forge: the forge afterwards and the value returned. -/
def Forge.IsDirty (X : Collaborators) (f : Forge) : Forge × Bool :=
  match f.Init X with
  | (f1, false) => (f1, false)
  | (f1, true) => (f1, f1.yaml.updated)

/-- `Forge.Saved` on a non-nil forge. -/
def Forge.Saved (X : Collaborators) (f : Forge) : Forge :=
  match f.Init X with
  | (f1, false) => f1
  | (f1, true) => { f1 with yaml := { f1.yaml with updated := false } }

/-- `ForjSettingsStruct.Set` called on the settings of the tree `y`, with what its call
of `dirty()` does to `y`: the call goes through the back-pointer of the default settings
for the instance `default`, through the one of the settings otherwise. -/
def ForgeYaml.SettingsSet (y : ForgeYaml) (inst key value : String) : ForgeYaml :=
  let r := y.ForjCore.ForjSettings.Set inst key value
  let ptr :=
    if inst = "default" then y.ForjCore.ForjSettings.Default.forge
    else y.ForjCore.ForjSettings.forge
  ForgeYaml.dirty { y with ForjCore := { y.ForjCore with ForjSettings := r.1 } } r.2 ptr

/-- `DefaultSettingsStruct.Set` called on the default settings of the tree `y`, with what
its call of `dirty()` does to `y`. -/
def ForgeYaml.DefaultSet (y : ForgeYaml) (key value : String) : ForgeYaml :=
  let r := y.ForjCore.ForjSettings.Default.Set key value
  ForgeYaml.dirty
    { y with ForjCore := { y.ForjCore with
        ForjSettings := { y.ForjCore.ForjSettings with Default := r.1 } } }
    r.2 y.ForjCore.ForjSettings.Default.forge

/-- A call of one of the two `Set` methods of the settings. -/
inductive SettingsCall where
  | set (inst key value : String)
  | defaultSet (key value : String)
  deriving DecidableEq

/-- The tree after one call. -/
def ForgeYaml.call (y : ForgeYaml) : SettingsCall → ForgeYaml
  | .set inst key value => y.SettingsSet inst key value
  | .defaultSet key value => y.DefaultSet key value

/-- The tree after a sequence of calls. -/
def ForgeYaml.calls (y : ForgeYaml) (cs : List SettingsCall) : ForgeYaml :=
  cs.foldl ForgeYaml.call y

/-- Both back-pointers of the settings of the tree are set (what `set_forge` does). -/
def ForgeYaml.settingsOwned (y : ForgeYaml) : Prop :=
  y.ForjCore.ForjSettings.forge = true ∧ y.ForjCore.ForjSettings.Default.forge = true

/-! ## Declared flows (`forge.go`) -/

/-- The loop `for _, repo := range repos` of `GetDeclaredFlows`, which enters the flow
name of every repository that has one in the map `flows`. -/
def declareRepoFlows : List (String × RepoStruct) → List (String × Bool) → List (String × Bool)
  | [], flows => flows
  | (_, repo) :: rest, flows =>
    declareRepoFlows rest (if repo.Flow ≠ "" then setKey repo.Flow true flows else flows)

/-- The map `flows` of `GetDeclaredFlows` before its keys are copied to the result.
`getFlow` is the method `DefaultSettingsStruct.getFlow`, defined in another file, which
reads the default flow setting. -/
def Forge.declaredFlowsMap (getFlow : DefaultSettingsStruct → String) (f : Forge) :
    List (String × Bool) :=
  let flows1 := declareRepoFlows f.yaml.ForjCore.Repos.entries []
  let flows2 :=
    match f.GetADeployment f.GetDeployment with
    | some deploy =>
      match deploy.Details with
      | some details => declareRepoFlows details.Repos.entries flows1
      | none => flows1
    | none => flows1
  let flow := getFlow f.yaml.ForjCore.ForjSettings.Default
  let flows3 := if flow ≠ "" then setKey flow true flows2 else flows2
  if flows3.length = 0 then setKey "default" true flows3 else flows3

/-- `Forge.GetDeclaredFlows`: the keys of the map `flows`, in the order of the entries
of the model (Go ranges over the map in an unspecified order). -/
def Forge.GetDeclaredFlows (getFlow : DefaultSettingsStruct → String) (f : Forge) :
    List String :=
  (f.declaredFlowsMap getFlow).map Prod.fst

/-- The flow name `n` is not empty and is referenced by a repository of the master tree,
by a repository of the overlay of the current deployment, or by the default flow
setting. -/
def Forge.ReferencesFlow (getFlow : DefaultSettingsStruct → String) (f : Forge) (n : String) :
    Prop :=
  n ≠ "" ∧
  ((∃ k repo, (k, repo) ∈ f.yaml.ForjCore.Repos.entries ∧ repo.Flow = n) ∨
   (∃ deploy details k repo, f.GetADeployment f.GetDeployment = some deploy ∧
      deploy.Details = some details ∧ (k, repo) ∈ details.Repos.entries ∧ repo.Flow = n) ∨
   getFlow f.yaml.ForjCore.ForjSettings.Default = n)

/-! ## The combinations of a task's lists, as the spec states them -/

/-- The Cartesian product of the named lists in odometer order, the rightmost list
running fastest (spec 4.4); a combination pairs every name with one element of its
list. A zero-length list leaves no combination; no list at all leaves the empty one. -/
def combinations {V : Type} : List (String × List V) → List (List (String × V))
  | [] => [[]]
  | (name, list) :: rest =>
    list.flatMap (fun v => (combinations rest).map (fun c => (name, v) :: c))

/-- The map `m` binds the names of the combination `b`, and no other name, each to its
element; where two lists carry the same name, to the element of the one declared last. -/
def Binds {V : Type} (m b : List (String × V)) : Prop :=
  ∀ n, lookupKey n m = lookupKey n b.reverse

/-- The combination that the indexes `cur` select in the named lists. -/
def bindingAt {V : Type} : List (String × List V) → List Nat → List (String × V)
  | (name, list) :: named, pos :: cur =>
    match list.get? pos with
    | some v => (name, v) :: bindingAt named cur
    | none => bindingAt named cur
  | _, _ => []

/-- The indexes of rank `i` among the combinations of lists of lengths `max`, in odometer
order. -/
def unrankDigits : List Nat → Nat → List Nat
  | [], _ => []
  | _ :: ms, i => (i / ms.prod) :: unrankDigits ms (i % ms.prod)

/-- The indexes that the loop `for !looplist.Eol()` visits in at most `fuel`
iterations. -/
def loopCurs : Nat → MLoop → List (List Nat)
  | 0, _ => []
  | fuel + 1, looplist =>
    if looplist.Eol = true then [] else looplist.Cur :: loopCurs fuel looplist.Increment

/-- The `List` maps of the template data over a sequence of visited indexes, each
obtained from the previous one by the bindings of the loop. -/
def threadBind {V : Type} (named : List (String × List V)) :
    List (List Nat) → List (String × V) → List (List (String × V))
  | [], _ => []
  | cur :: rest, m => bindCur named cur m :: threadBind named rest (bindCur named cur m)

/-! ## Deployments by type (`forge.go`) -/

/-- The loop of `GetDeploymentType` over the deployments still to visit, with the map `v`
and the flag `found` built so far. -/
def getDeploymentTypeLoop (deployType : String) :
    List (String × DeploymentStruct) → List (String × DeploymentStruct) × Bool →
    List (String × DeploymentStruct) × Bool
  | [], acc => acc
  | (name, deploy) :: rest, acc =>
    if deploy.Type_ = deployType then
      getDeploymentTypeLoop deployType rest (setKey name deploy acc.1, true)
    else getDeploymentTypeLoop deployType rest acc

/-- `Forge.GetDeploymentType`: the entries of the (non-nil) map returned, and `found`. -/
def Forge.GetDeploymentType (f : Forge) (deployType : String) :
    List (String × DeploymentStruct) × Bool :=
  getDeploymentTypeLoop deployType f.yaml.Deployments.entries ([], false)

/-- `Forge.GetDeploymentPROType`: the deployment returned (`none` is nil) and the
error. -/
def Forge.GetDeploymentPROType (f : Forge) : Option DeploymentStruct × Option String :=
  let deployObjs := (f.GetDeploymentType "PRO").1
  if deployObjs.length ≠ 1 then (none, some "Found more than one PRO environment")
  else
    match deployObjs with
    | (_, d) :: _ => (some d, none)
    | [] => (none, none)

/-! ## Concrete collaborators for examples -/

/-- A concrete choice of the collaborators, used to evaluate the code on examples: the
default dev-deploy name is the entry `dev-deploy` of the default settings, a binding
resolves iff the application name is not empty, and merging keeps the receiver. -/
def sampleCollaborators : Collaborators where
  getDevDeploy := fun s => (s.More.get? "dev-deploy").getD ""
  SetInternalRelApp := fun r _ app =>
    if app = "" then (r, some "application not found") else (r, none)
  RepoGetString := fun r _ => r.name
  initDefaults := fun c => c
  NewDeployForgeYaml :=
    { ForjSettings :=
        { is_template := false, forge := false, Organization := "",
          Default := { forge := false, UpstreamInstance := "", Flow := "", More := none },
          More := none },
      Infra := none, Repos := none, Apps := none, Users := none, Groups := none,
      More := none }
  coreMergeFrom := fun c _ => (c, none)
  coreInit := fun y => (y, true)
  coreGet := fun c object inst key =>
    if object = "settings" then c.ForjSettings.Get inst key else ("", false)

/-- A forge with the given deployments and default settings bag, and nothing else. -/
def sampleForge (deployments : GoMap DeploymentStruct) (more : GoMap String) : Forge :=
  { file_loaded := "", deployFileLoaded := "", deployTo := "", tmplfile_loaded := "",
    updated_msg := "", infra_path := "", file_name := "Forjfile",
    yaml :=
      { updated := false, Deployments := deployments,
        ForjCore := { sampleCollaborators.NewDeployForgeYaml with
          ForjSettings := { sampleCollaborators.NewDeployForgeYaml.ForjSettings with
            Default := { forge := true, UpstreamInstance := "", Flow := "", More := more },
            forge := true } } },
    inMem := none }

/-- A deployment with the given internal name and type, without overlay. -/
def sampleDeployment (name type : String) : DeploymentStruct :=
  { name := name, Desc := "", Type_ := type, Details := none }

/-! ### Sample flows

The state of the sample flows is a log: every predicate, list and action appends its name
to it when it runs. The target is the document (`repo == nil`). -/

/-- A predicate that logs `name` and returns the pair `(v, err)`. -/
def logIf (name : String) (v : Bool) (err : Option String) : FlowTaskIf (List String) String where
  IfEvaluate := fun _ s => ((v, err), s ++ [name])

/-- An action that logs `name` and returns `err`. -/
def logSet (name : String) (err : Option String) : FlowTaskSet (List String) String String where
  apply := fun _ s => (err, s ++ [name])

/-- A list parameter that logs `name` and resolves to `l`. -/
def logList (name : String) (l : List String) : FlowTaskList (List String) String String where
  Name := name
  Get := fun _ s => (l, s ++ [name])

/-- A task with predicates `a` (true), `b` (false) and `c` (an error), in this order. -/
def taskABC : FlowTaskDef (List String) String String :=
  { Description := "", If := some [logIf "a" true none, logIf "b" false none,
      logIf "c" true (some "undefined field")],
    List_ := none, Set := logSet "set" none }

/-- A task without predicates and lists whose action fails. -/
def taskFailingSet : FlowTaskDef (List String) String String :=
  { Description := "", If := none, List_ := none, Set := logSet "set2" (some "cannot set") }

/-- A task whose only predicate errors. -/
def taskFailingIf : FlowTaskDef (List String) String String :=
  { Description := "", If := some [logIf "e" true (some "undefined field")], List_ := none,
    Set := logSet "set3" none }

/-- A task whose only predicate is false. -/
def taskFalseIf : FlowTaskDef (List String) String String :=
  { Description := "", If := some [logIf "f" false none], List_ := none,
    Set := logSet "set4" none }

/-- A task without predicates whose action succeeds. -/
def taskPlain : FlowTaskDef (List String) String String :=
  { Description := "", If := none, List_ := none, Set := logSet "set1" none }

/-- A flow with the given document-level tasks. -/
def sampleFlow (tasks : List (String × FlowTaskDef (List String) String String)) :
    FlowDefine (List String) String String :=
  { Name := "myflow", Title := "", OnRepo := none, OnForj := some tasks }

/-- A file system in which every file exists, is regular and decodes to what the forge
already holds (so: a master Forjfile that declares nothing). -/
def sampleFiles : FileAccess where
  Abs := fun p => (p, none)
  Stat := fun _ => .ok { IsRegular := true, IsDir := false }
  ReadFile := fun _ => ("", none)
  Join := fun l => l.foldl (fun a b => a ++ "/" ++ b) ""
  UnmarshalForge := fun _ y => (y.raw, none)
  UnmarshalDeploy := fun _ => (sampleCollaborators.NewDeployForgeYaml, none)

/-- The same file system with a master Forjfile that declares the deployment `dev`
without value: the decoder leaves a nil pointer under that key. -/
def nilEntryFiles : FileAccess :=
  { sampleFiles with
    UnmarshalForge := fun _ y => ({ y.raw with Deployments := some [("dev", none)] }, none) }

/-- A repository with the given internal name and declared application bindings. -/
def sampleRepo (name : String) (bindings : GoMap String) : RepoStruct :=
  { name := name, Flow := "", Apps := bindings, apps := none, More := none }

/-- Collaborators for a forge that declares the applications `declared`:
`SetInternalRelApp` records the application in the internal relations `apps` of the
repository when it is declared, and returns an error when it is not. -/
def appsCollaborators (declared : List String) : Collaborators :=
  { sampleCollaborators with
    SetInternalRelApp := fun r role app =>
      if app ∈ declared then ({ r with apps := some (setKey role app r.apps.entries) }, none)
      else (r, some ("Application '" ++ app ++ "' not found")) }

/-- A tree with an `Infra` object and nil mappings. -/
def sampleTreeWithInfra : ForgeYaml :=
  { (sampleForge none none).yaml with
    ForjCore := { (sampleForge none none).yaml.ForjCore with
      Infra := some (sampleRepo "infra" none) } }

/-- A repository with the given internal name and flow name. -/
def sampleFlowRepo (name flow : String) : RepoStruct :=
  { name := name, Flow := flow, Apps := none, apps := none, More := none }

/-- A task without predicates over the lists `A` and `B`. -/
def taskLists (a b : List String) : FlowTaskDef (List String) String String :=
  { Description := "", If := none, List_ := some [logList "A" a, logList "B" b],
    Set := logSet "set" none }

/-! ## Lemmas on maps -/

theorem lookupKey_of_mem {V : Type} (k : String) (v : V) :
    ∀ l : List (String × V), (l.map Prod.fst).Nodup → (k, v) ∈ l → lookupKey k l = some v := by
  intro l
  induction l with
  | nil => intro _ h; simp at h
  | cons hd tl ih =>
    intro hnd hmem
    obtain ⟨k0, v0⟩ := hd
    simp only [List.map_cons, List.nodup_cons, List.mem_map, not_exists, not_and] at hnd
    rcases List.mem_cons.mp hmem with heq | hin
    · cases heq; simp [lookupKey]
    · have hk : k0 ≠ k := fun h => hnd.1 (k, v) hin (by simp [h])
      simp only [lookupKey, hk, if_false]
      exact ih hnd.2 hin

/-! ## Lemmas on the deployment loop of Validate -/

/-- The loop returned an error from inside. -/
def IsError (r : Except String Bool) : Prop := ∃ e, r = .error e

theorem validateDeployments_pro_seen (devDefault : String) :
    ∀ (l : List (String × DeploymentStruct)) (found : Bool) (k : String) (d : DeploymentStruct),
      (k, d) ∈ l → d.Type_ = ProDeployType →
      IsError (validateDeployments devDefault l true found) := by
  intro l
  induction l with
  | nil => intro found k d hmem; simp at hmem
  | cons hd tl ih =>
    intro found k d hmem hpro
    obtain ⟨name, deploy⟩ := hd
    unfold validateDeployments
    by_cases h0 : deploy.Type_ = ""
    · simp only [h0, if_true]; exact ⟨_, rfl⟩
    · by_cases h1 : deploy.Type_ = ProDeployType
      · simp only [h0, h1, if_false, and_self, if_true]; exact ⟨_, rfl⟩
      · simp only [h0, h1, if_false, false_and]
        rcases List.mem_cons.mp hmem with heq | hin
        · cases heq; exact absurd hpro h1
        · simpa using ih _ k d hin hpro

theorem validateDeployments_two_pro (devDefault : String) :
    ∀ (l : List (String × DeploymentStruct)) (pro found : Bool) (k1 k2 : String)
      (d1 d2 : DeploymentStruct),
      k1 ≠ k2 → (k1, d1) ∈ l → (k2, d2) ∈ l →
      d1.Type_ = ProDeployType → d2.Type_ = ProDeployType →
      IsError (validateDeployments devDefault l pro found) := by
  intro l
  induction l with
  | nil => intro pro found k1 k2 d1 d2 _ hmem; simp at hmem
  | cons hd tl ih =>
    intro pro found k1 k2 d1 d2 hne h1 h2 hp1 hp2
    obtain ⟨name, deploy⟩ := hd
    by_cases h0 : deploy.Type_ = ""
    · unfold validateDeployments; simp only [h0, if_true]; exact ⟨_, rfl⟩
    · by_cases hpro : deploy.Type_ = ProDeployType ∧ pro = true
      · unfold validateDeployments; simp only [h0, hpro, if_false, and_self, if_true]
        exact ⟨_, rfl⟩
      · have hstep : validateDeployments devDefault ((name, deploy) :: tl) pro found =
            validateDeployments devDefault tl (pro || decide (deploy.Type_ = ProDeployType))
              (found || decide (deploy.Type_ = DevDeployType ∧ devDefault = deploy.name)) := by
          conv_lhs => unfold validateDeployments
          simp only [h0, hpro, if_false]
        rw [hstep]
        rcases List.mem_cons.mp h1 with e1 | m1
        · rcases List.mem_cons.mp h2 with e2 | m2
          · exact absurd (by rw [(Prod.mk.inj e1).1, (Prod.mk.inj e2).1]) hne
          · have hd1 : deploy.Type_ = ProDeployType := by rw [← (Prod.mk.inj e1).2]; exact hp1
            simp only [hd1, decide_True, Bool.or_true]
            exact validateDeployments_pro_seen devDefault tl _ k2 d2 m2 hp2
        · rcases List.mem_cons.mp h2 with e2 | m2
          · have hd2 : deploy.Type_ = ProDeployType := by rw [← (Prod.mk.inj e2).2]; exact hp2
            simp only [hd2, decide_True, Bool.or_true]
            exact validateDeployments_pro_seen devDefault tl _ k1 d1 m1 hp1
          · exact ih _ _ k1 k2 d1 d2 hne m1 m2 hp1 hp2

theorem validateDeployments_not_found (devDefault : String) :
    ∀ (l : List (String × DeploymentStruct)) (pro : Bool) (b : Bool),
      (∀ k d, (k, d) ∈ l → d.Type_ = DevDeployType → d.name ≠ devDefault) →
      validateDeployments devDefault l pro false = .ok b → b = false := by
  intro l
  induction l with
  | nil =>
    intro pro b _ h
    simp only [validateDeployments, Except.ok.injEq] at h
    exact h.symm
  | cons hd tl ih =>
    intro pro b hno h
    obtain ⟨name, deploy⟩ := hd
    unfold validateDeployments at h
    by_cases h0 : deploy.Type_ = ""
    · simp [h0] at h
    · by_cases hpro : deploy.Type_ = ProDeployType ∧ pro = true
      · rw [if_neg h0, if_pos hpro] at h
        exact Except.noConfusion h
      · simp only [h0, hpro, if_false] at h
        have hnot : ¬ (deploy.Type_ = DevDeployType ∧ devDefault = deploy.name) := by
          rintro ⟨ht, hn⟩
          exact hno name deploy (List.mem_cons_self _ _) ht hn.symm
        simp only [hnot, decide_False, Bool.or_false] at h
        exact ih _ b (fun k d hm => hno k d (List.mem_cons_of_mem _ hm)) h

/-! ## Lemmas on defaulting -/

/-- With no `dev-deploy` entry in the default settings bag, `Set "dev-deploy"` changes
nothing and does not call `dirty()`. -/
theorem DefaultSet_devDeploy_absent (s : DefaultSettingsStruct) (value : String)
    (h : s.More.get? "dev-deploy" = none) : s.Set "dev-deploy" value = (s, false) := by
  unfold DefaultSettingsStruct.Set
  rw [if_neg (by decide), if_neg (by decide), h]

theorem defineDefaultsLoop_absent (X : Collaborators) :
    ∀ (l : List (String × DeploymentStruct)) (f : ForgeYaml),
      f.ForjCore.ForjSettings.Default.More.get? "dev-deploy" = none →
      defineDefaultsLoop X l f = f := by
  intro l
  induction l with
  | nil => intro f _; rfl
  | cons hd tl ih =>
    intro f h
    obtain ⟨name, deploy⟩ := hd
    unfold defineDefaultsLoop
    split
    · simp only [DefaultSet_devDeploy_absent _ name h, ForgeYaml.dirty, Bool.false_and]
      exact ih f h
    · exact ih f h

/-- Validate returns an error as soon as its deployment loop does. -/
theorem Validate_error_of_loop (X : Collaborators) (f : Forge)
    (h : ∀ devDefault, IsError (validateDeployments devDefault f.yaml.Deployments.entries
      false false)) :
    (f.Validate X).2 ≠ none := by
  unfold Forge.Validate
  cases hr : (validateRepos X f.yaml.ForjCore.Repos.entries).2 with
  | some e => simp [hr]
  | none =>
    simp only [hr]
    obtain ⟨e, he⟩ := h (X.getDevDeploy f.yaml.ForjCore.ForjSettings.Default)
    simp [he]

/-! ## Claims -/

/-- C1: a forge whose deployments map holds two entries (two different keys) of type
`PRO` is rejected by `Forge.Validate`: the error returned is not nil, whatever the other
deployments, the settings, the repositories and the collaborators are. -/
theorem Validate_rejects_two_PRO (X : Collaborators) (f : Forge) (k1 k2 : String)
    (d1 d2 : DeploymentStruct) (hne : k1 ≠ k2)
    (h1 : (k1, d1) ∈ f.yaml.Deployments.entries) (h2 : (k2, d2) ∈ f.yaml.Deployments.entries)
    (hp1 : d1.Type_ = "PRO") (hp2 : d2.Type_ = "PRO") :
    (f.Validate X).2 ≠ none :=
  Validate_error_of_loop X f (fun devDefault =>
    validateDeployments_two_pro devDefault _ false false k1 k2 d1 d2 hne h1 h2 hp1 hp2)

/-- Witness of C1: deployments `a` and `b`, both of type `PRO`. -/
theorem Validate_rejects_two_PRO_witness :
    ((sampleForge (some [("a", sampleDeployment "a" "PRO"), ("b", sampleDeployment "b" "PRO")])
      none).Validate sampleCollaborators).2 ≠ none :=
  Validate_rejects_two_PRO sampleCollaborators _ "a" "b" (sampleDeployment "a" "PRO")
    (sampleDeployment "b" "PRO") (by decide) (by simp [sampleForge, GoMap.entries])
    (by simp [sampleForge, GoMap.entries]) rfl rfl

/-- After `set_defaults` the internal name of every deployment is its map key. -/
theorem set_defaults_names (X : Collaborators) (y : ForgeYaml) :
    ∀ k d, (k, d) ∈ (y.set_defaults X).Deployments.entries → d.name = k := by
  intro k d hm
  unfold ForgeYaml.set_defaults at hm
  by_cases hl : y.Deployments.len = 0
  · simp only [hl, if_true, GoMap.entries, Option.getD_some, List.mem_singleton,
      Prod.mk.injEq] at hm
    rw [hm.1, hm.2]
  · simp only [hl, if_false] at hm
    cases hd : y.Deployments with
    | none => simp [hd, GoMap.entries] at hm
    | some l =>
      simp only [hd, Option.map_some', GoMap.entries, Option.getD_some, List.mem_map] at hm
      obtain ⟨e, _, he⟩ := hm
      cases he
      rfl

/-- C2: a non-empty default dev-deploy name that is not a key of the deployments map,
or is the key of a deployment whose type is not `DEV`, makes `Forge.Validate` return an
error, in every forge in which the internal name of a deployment is its map key or is
still empty. The field is not exported: the decoder leaves it empty and `set_defaults`,
which alone writes it, writes the key (forge.go:731, 738); so the error is returned in
particular on every tree that `set_defaults` has left, as on every tree that it has not
visited yet. -/
theorem Validate_rejects_bad_devDefault (X : Collaborators) (f : Forge)
    (hnodup : (f.yaml.Deployments.entries.map Prod.fst).Nodup)
    (hset : X.getDevDeploy f.yaml.ForjCore.ForjSettings.Default ≠ "")
    (hbad : f.yaml.Deployments.get? (X.getDevDeploy f.yaml.ForjCore.ForjSettings.Default) = none ∨
      ∃ d, f.yaml.Deployments.get? (X.getDevDeploy f.yaml.ForjCore.ForjSettings.Default) = some d
        ∧ d.Type_ ≠ "DEV") :
    ((∀ k d, (k, d) ∈ f.yaml.Deployments.entries → d.name = k ∨ d.name = "") →
      (f.Validate X).2 ≠ none) ∧
    (∀ y : ForgeYaml, f.yaml = y.set_defaults X → (f.Validate X).2 ≠ none) := by
  have main : (∀ k d, (k, d) ∈ f.yaml.Deployments.entries → d.name = k ∨ d.name = "") →
      (f.Validate X).2 ≠ none := by
    intro hname
    have hno : ∀ k d, (k, d) ∈ f.yaml.Deployments.entries → d.Type_ = DevDeployType →
        d.name ≠ X.getDevDeploy f.yaml.ForjCore.ForjSettings.Default := by
      intro k d hm ht hn
      have hk : k = X.getDevDeploy f.yaml.ForjCore.ForjSettings.Default := by
        rcases hname k d hm with hkey | hempty
        · rw [← hkey]; exact hn
        · exact absurd (hn.symm.trans hempty) hset
      have hlook := lookupKey_of_mem k d _ hnodup hm
      rw [hk] at hlook
      rcases hbad with hnone | ⟨d2, hsome, hty⟩
      · simp only [GoMap.get?] at hnone
        rw [hlook] at hnone
        exact Option.noConfusion hnone
      · simp only [GoMap.get?] at hsome
        rw [hlook] at hsome
        cases hsome
        exact hty ht
    unfold Forge.Validate
    cases hr : (validateRepos X f.yaml.ForjCore.Repos.entries).2 with
    | some e => simp [hr]
    | none =>
      simp only [hr]
      cases hv : validateDeployments (X.getDevDeploy f.yaml.ForjCore.ForjSettings.Default)
          f.yaml.Deployments.entries false false with
      | error e => simp
      | ok b =>
        have hb := validateDeployments_not_found _ _ false b hno hv
        simp [hb, hset]
  refine ⟨main, fun y hy => main (fun k d hm => Or.inl ?_)⟩
  rw [hy] at hm
  exact set_defaults_names X y k d hm

/-- Witness of C2: the default dev-deploy names `x`; the deployments are `y`, of type
`DEV`, and `z`, which has no internal name yet. -/
theorem Validate_rejects_bad_devDefault_witness :
    ((sampleForge (some [("y", sampleDeployment "y" "DEV"), ("z", sampleDeployment "" "DEV")])
      (some [("dev-deploy", "x")])).Validate sampleCollaborators).2 ≠ none :=
  (Validate_rejects_bad_devDefault sampleCollaborators _ (by decide) (by decide)
    (Or.inl (by decide))).1
    (by
      intro k d hm
      simp only [sampleForge, GoMap.entries, Option.getD_some, List.mem_cons,
        List.mem_singleton, Prod.mk.injEq, List.mem_nil_iff, or_false] at hm
      rcases hm with hm | hm
      · left; rw [hm.1, hm.2]; rfl
      · right; rw [hm.2]; rfl)

/-- C3: on a tree whose Deployments map is nil or empty, `set_defaults` leaves a
Deployments map with exactly one entry, of key `production`, internal name `production`
and type `PRO`. -/
theorem set_defaults_creates_production (X : Collaborators) (f : ForgeYaml)
    (h : f.Deployments = none ∨ f.Deployments = some []) :
    ∃ d : DeploymentStruct, (f.set_defaults X).Deployments = some [("production", d)] ∧
      d.name = "production" ∧ d.Type_ = "PRO" := by
  have hlen : f.Deployments.len = 0 := by
    rcases h with h | h <;> simp [h, GoMap.len, GoMap.entries]
  refine ⟨DeploymentStruct.mk "production" "Production environment" "PRO" none, ?_, rfl, rfl⟩
  simp [ForgeYaml.set_defaults, hlen, ProDeployType]

/-- Witness of C3: the tree of a forge without deployments (nil map). -/
theorem set_defaults_creates_production_witness :
    ∃ d : DeploymentStruct,
      ((sampleForge none none).yaml.set_defaults sampleCollaborators).Deployments =
        some [("production", d)] ∧ d.name = "production" ∧ d.Type_ = "PRO" :=
  set_defaults_creates_production sampleCollaborators (sampleForge none none).yaml
    (Or.inl rfl)

/-- C4 fails on the code: when the default settings bag has no `dev-deploy` entry (and
`initDefaults` leaves the settings alone), `set_defaults` followed by `defineDefaults`
leaves the settings exactly as they were, whatever deployments are declared, so that
the default dev-deploy still reads back as not found: `DefaultSettingsStruct.Set` has no
case for `dev-deploy` and only replaces entries that its `More` bag already holds. -/
theorem defineDefaults_infers_nothing (X : Collaborators) (f : ForgeYaml) (warn : Bool)
    (hinit : (X.initDefaults f.ForjCore).ForjSettings = f.ForjCore.ForjSettings)
    (hunset : f.ForjCore.ForjSettings.Default.More.get? "dev-deploy" = none) :
    ((f.set_defaults X).defineDefaults X warn).ForjCore.ForjSettings = f.ForjCore.ForjSettings ∧
    ((f.set_defaults X).defineDefaults X warn).ForjCore.ForjSettings.Get "default" "dev-deploy"
      = ("", false) := by
  have hs : (f.set_defaults X).ForjCore.ForjSettings = f.ForjCore.ForjSettings := by
    by_cases hl : f.Deployments.len = 0 <;> simp [ForgeYaml.set_defaults, hl, hinit]
  have hd : ((f.set_defaults X).defineDefaults X warn) = f.set_defaults X := by
    unfold ForgeYaml.defineDefaults
    exact defineDefaultsLoop_absent X _ _ (by rw [hs]; exact hunset)
  rw [hd, hs]
  refine ⟨rfl, ?_⟩
  unfold ForjSettingsStruct.Get DefaultSettingsStruct.Get
  rw [if_pos rfl, if_neg (by decide), if_neg (by decide), hunset]

/-- Failing input of C4: one `DEV` deployment `staging`, no default dev-deploy set; after
default application the setting is still not found. -/
theorem defineDefaults_infers_nothing_witness :
    (((sampleForge (some [("staging", sampleDeployment "" "DEV")]) none).yaml.set_defaults
        sampleCollaborators).defineDefaults sampleCollaborators true).ForjCore.ForjSettings
      = (sampleForge (some [("staging", sampleDeployment "" "DEV")]) none).yaml.ForjCore.ForjSettings
    ∧
    (((sampleForge (some [("staging", sampleDeployment "" "DEV")]) none).yaml.set_defaults
        sampleCollaborators).defineDefaults sampleCollaborators true).ForjCore.ForjSettings.Get
      "default" "dev-deploy" = ("", false) :=
  defineDefaults_infers_nothing sampleCollaborators
    (sampleForge (some [("staging", sampleDeployment "" "DEV")]) none).yaml true rfl rfl


/-! ## Lemmas on loading -/

theorem lookupKey_map_none {V : Type} (k : String) (g : String × V → V) :
    ∀ l : List (String × V), lookupKey k l = none →
      lookupKey k (l.map (fun e => (e.1, g e))) = none := by
  intro l
  induction l with
  | nil => intro _; rfl
  | cons hd tl ih =>
    intro h
    obtain ⟨k0, v0⟩ := hd
    by_cases hk : k0 = k
    · simp [lookupKey, hk] at h
    · simp only [lookupKey, hk, if_false] at h
      simp only [List.map_cons, lookupKey, hk, if_false]
      exact ih h

theorem defineDefaultsLoop_Deployments (X : Collaborators) :
    ∀ (l : List (String × DeploymentStruct)) (f : ForgeYaml),
      (defineDefaultsLoop X l f).Deployments = f.Deployments := by
  intro l
  induction l with
  | nil => intro f; rfl
  | cons hd tl ih =>
    intro f
    obtain ⟨name, deploy⟩ := hd
    unfold defineDefaultsLoop
    split
    · rw [ih]
      simp only [ForgeYaml.dirty]
      split <;> rfl
    · exact ih f

/-- A name that is not declared is not a key after `set_defaults` either, unless it is
`production` and nothing is declared. -/
theorem set_defaults_get?_none (X : Collaborators) (f : ForgeYaml) (k : String)
    (h : f.Deployments.get? k = none) (hk : f.Deployments.len ≠ 0 ∨ k ≠ "production") :
    (f.set_defaults X).Deployments.get? k = none := by
  by_cases hl : f.Deployments.len = 0
  · have hne : ¬ ("production" = k) := fun e => by
      rcases hk with hk | hk
      · exact hk hl
      · exact hk e.symm
    simp [ForgeYaml.set_defaults, hl, GoMap.get?, GoMap.entries, lookupKey, hne]
  · simp only [ForgeYaml.set_defaults, hl, if_false]
    cases hd : f.Deployments with
    | none => simp [GoMap.get?, GoMap.entries, lookupKey]
    | some l =>
      rw [hd] at h
      simp only [GoMap.get?, GoMap.entries, Option.getD_some, Option.map_some'] at h ⊢
      exact lookupKey_map_none k (fun e => { e.2 with name := e.1 }) l h


/-- The last part of Load returns an error for a requested name that is not a key of the
Deployments map. -/
theorem loadDeployment_unknown (X : Collaborators) (io : FileAccess) (f : Forge)
    (deployTo : String) (hreq : deployTo ≠ "")
    (hget : f.yaml.Deployments.get? deployTo = none) :
    f.loadDeployment X io deployTo =
      (f, true, some ("Deployment '" ++ deployTo ++ "' not defined")) := by
  simp [Forge.loadDeployment, hreq, hget]

/-! ## The list expander needs no more steps than there are combinations -/

theorem rankDigits_lt : ∀ (cur max : List Nat), List.Forall₂ (fun c m => c < m) cur max →
    rankDigits cur max < max.prod := by
  intro cur max h
  induction h with
  | nil => simp [rankDigits]
  | @cons c m cs ms hcm _ ih =>
    simp only [rankDigits, List.prod_cons]
    calc c * ms.prod + rankDigits cs ms < c * ms.prod + ms.prod := by omega
      _ = (c + 1) * ms.prod := by ring
      _ ≤ m * ms.prod := Nat.mul_le_mul_right _ hcm

theorem incrDigits_spec : ∀ (cur max : List Nat), List.Forall₂ (fun c m => c < m) cur max →
    List.Forall₂ (fun c m => c < m) (incrDigits cur max).1 max ∧
    ((incrDigits cur max).2 = false →
      rankDigits (incrDigits cur max).1 max = rankDigits cur max + 1) ∧
    ((incrDigits cur max).2 = true →
      rankDigits (incrDigits cur max).1 max = 0 ∧ rankDigits cur max + 1 = max.prod) := by
  intro cur max h
  induction h with
  | nil => simp [incrDigits, rankDigits]
  | @cons c m cs ms hcm _ ih =>
    obtain ⟨hv, hf, ht⟩ := ih
    cases hr : (incrDigits cs ms).2 with
    | false =>
      have := hf hr
      simp only [incrDigits, hr, Bool.false_eq_true, if_false, rankDigits]
      exact ⟨List.Forall₂.cons hcm hv, fun _ => by omega, fun h => by simp at h⟩
    | true =>
      obtain ⟨h0, hp⟩ := ht hr
      by_cases hlt : c + 1 < m
      · simp only [incrDigits, hr, if_true, hlt, rankDigits]
        refine ⟨List.Forall₂.cons hlt hv, fun _ => ?_, fun h => by simp at h⟩
        rw [h0, ← hp]; ring
      · have hm : m = c + 1 := by omega
        simp only [incrDigits, hr, if_true, hlt, if_false, rankDigits, List.prod_cons]
        refine ⟨List.Forall₂.cons (by omega) hv, fun h => by simp at h, fun _ => ⟨by simp [h0], ?_⟩⟩
        rw [hm, ← hp]; ring

theorem Increment_eol (l : MLoop) (h : l.eol = true) : l.Increment.eol = true := by
  simp [MLoop.Increment, h]

theorem Increment_iterate_eol (n : Nat) : ∀ (l : MLoop), l.eol = true →
    (MLoop.Increment^[n] l).eol = true := by
  induction n with
  | zero => intro l h; exact h
  | succ n ih => intro l h; rw [Function.iterate_succ_apply]; exact ih _ (Increment_eol l h)

theorem Increment_reaches_eol (n : Nat) : ∀ (l : MLoop),
    List.Forall₂ (fun c m => c < m) l.cur l.max → l.max.prod ≤ rankDigits l.cur l.max + n →
    (MLoop.Increment^[n] l).eol = true := by
  induction n with
  | zero =>
    intro l hv hle
    have := rankDigits_lt l.cur l.max hv
    omega
  | succ n ih =>
    intro l hv hle
    rw [Function.iterate_succ_apply]
    obtain ⟨hv1, hf, _⟩ := incrDigits_spec l.cur l.max hv
    cases hr : (incrDigits l.cur l.max).2 with
    | true => exact Increment_iterate_eol n _ (by simp [MLoop.Increment, hr])
    | false =>
      apply ih
      · simpa [MLoop.Increment] using hv1
      · have := hf hr
        simp only [MLoop.Increment]
        omega

/-- Starting from `NewMLoop max` and advancing at most as many times as there are
combinations, the expander reports the end of the list. -/
theorem NewMLoop_reaches_eol (max : List Nat) :
    (MLoop.Increment^[max.prod] (NewMLoop max)).Eol = true := by
  by_cases h0 : ∃ m ∈ max, m = 0
  · apply Increment_iterate_eol
    obtain ⟨m, hm, hz⟩ := h0
    simp only [NewMLoop, List.any_eq_true, beq_iff_eq]
    exact ⟨m, hm, hz⟩
  · have hv : List.Forall₂ (fun c m => c < m) (max.map (fun _ => 0)) max := by
      have hpos : ∀ m ∈ max, 0 < m := fun m hm =>
        Nat.pos_of_ne_zero (fun hz => h0 ⟨m, hm, hz⟩)
      clear h0
      induction max with
      | nil => exact List.Forall₂.nil
      | cons m ms ih =>
        exact List.Forall₂.cons (hpos m (List.mem_cons_self _ _))
          (ih (fun x hx => hpos x (List.mem_cons_of_mem _ hx)))
    exact Increment_reaches_eol max.prod (NewMLoop max) hv (by simp [NewMLoop])

/-- Once the expander reports the end within `n` steps, the loop over the combinations
does the same with any bound of at least `n` iterations. -/
theorem applyCombos_fuel {σ R V : Type} (key : String) (flowTask : FlowTaskDef σ R V)
    (named : List (String × List V)) (repo : Option R) :
    ∀ (n fuel : Nat) (looplist : MLoop) (m : List (String × V)) (st : ApplyState σ V),
      (MLoop.Increment^[n] looplist).Eol = true → n ≤ fuel →
      applyCombos key flowTask named repo fuel looplist m st =
        applyCombos key flowTask named repo n looplist m st := by
  intro n
  induction n with
  | zero =>
    intro fuel looplist m st h _
    have he : looplist.Eol = true := h
    cases fuel <;> simp [applyCombos, he]
  | succ n ih =>
    intro fuel looplist m st h hle
    obtain ⟨f, rfl⟩ : ∃ f, fuel = f + 1 := ⟨fuel - 1, by omega⟩
    by_cases he : looplist.Eol = true
    · simp [applyCombos, he]
    · simp only [applyCombos, if_neg he]
      exact ih f _ _ _ (by rwa [Function.iterate_succ_apply] at h) (by omega)

/-- The bound that `applyTask` gives to the loop over the combinations is never what
stops it: any larger bound gives the same run. -/
theorem applyCombos_bound {σ R V : Type} (key : String) (flowTask : FlowTaskDef σ R V)
    (named : List (String × List V)) (repo : Option R) (max : List Nat) (fuel : Nat)
    (m : List (String × V)) (st : ApplyState σ V) (hle : max.prod ≤ fuel) :
    applyCombos key flowTask named repo fuel (NewMLoop max) m st =
      applyCombos key flowTask named repo max.prod (NewMLoop max) m st :=
  applyCombos_fuel key flowTask named repo max.prod fuel (NewMLoop max) m st
    (NewMLoop_reaches_eol max) hle

/-! ## Lemmas on flow application -/

theorem ApplyState.after_start {σ V : Type} (st : ApplyState σ V) :
    st.after (ApplyState.start st.forj) = st := by
  cases st; simp [ApplyState.after, ApplyState.start]

theorem ApplyState.after_after {σ V : Type} (a b c : ApplyState σ V) :
    a.after (b.after c) = (a.after b).after c := by
  simp [ApplyState.after, Bool.or_assoc]

theorem applyCombos_after {σ R V : Type} (key : String) (flowTask : FlowTaskDef σ R V)
    (named : List (String × List V)) (repo : Option R) :
    ∀ (fuel : Nat) (looplist : MLoop) (m : List (String × V)) (st : ApplyState σ V),
      applyCombos key flowTask named repo fuel looplist m st =
        st.after (applyCombos key flowTask named repo fuel looplist m
          (ApplyState.start st.forj)) := by
  intro fuel
  induction fuel with
  | zero => intro looplist m st; simp [applyCombos, ApplyState.after_start]
  | succ n ih =>
    intro looplist m st
    by_cases he : looplist.Eol = true
    · simp [applyCombos, he, ApplyState.after_start]
    · simp only [applyCombos, if_neg he]
      conv_lhs => rw [ih]
      conv_rhs => arg 2; rw [ih]
      rw [ApplyState.after_after]
      simp [ApplyState.after, ApplyState.start]

theorem applyCombos_calls_task {σ R V : Type} (key : String) (flowTask : FlowTaskDef σ R V)
    (named : List (String × List V)) (repo : Option R) :
    ∀ (fuel : Nat) (looplist : MLoop) (m : List (String × V)) (s : σ),
      (applyCombos key flowTask named repo fuel looplist m (ApplyState.start s)).bInError = false
      ∧ ∀ c ∈ (applyCombos key flowTask named repo fuel looplist m (ApplyState.start s)).calls,
          c.task = key := by
  intro fuel
  induction fuel with
  | zero => intro looplist m s; simp [applyCombos, ApplyState.start]
  | succ n ih =>
    intro looplist m s
    by_cases he : looplist.Eol = true
    · simp [applyCombos, he, ApplyState.start]
    · simp only [applyCombos, if_neg he]
      rw [applyCombos_after]
      constructor
      · have h := (ih looplist.Increment (bindCur named looplist.Cur m)
          (flowTask.Set.apply { Repo := repo, List_ := some (bindCur named looplist.Cur m) }
            s).2).1
        simp only [ApplyState.after, ApplyState.start] at h ⊢
        simp [h]
      · intro c hc
        simp only [ApplyState.after, ApplyState.start, List.nil_append, List.mem_append,
          List.mem_singleton] at hc
        rcases hc with hc | hc
        · rw [hc]
        · exact (ih _ _ _).2 c hc

/-- The body of the task loop reads only the forge of the state it starts from. -/
theorem applyTask_after {σ R V : Type} (key : String) (flowTask : FlowTaskDef σ R V)
    (repo : Option R) (st : ApplyState σ V) :
    applyTask key flowTask repo st =
      st.after (applyTask key flowTask repo (ApplyState.start st.forj)) := by
  unfold applyTask
  simp only [ApplyState.start]
  rcases hif : flowTask.if_section repo st.forj with ⟨⟨v, err⟩, s1⟩
  cases err with
  | some e => simp [ApplyState.after]
  | none =>
    cases v with
    | false => simp [ApplyState.after]
    | true =>
      cases hl : flowTask.List_ with
      | none => simp [ApplyState.after]
      | some lists =>
        simp only [Bool.true_eq_false, if_false]
        rw [applyCombos_after]
        simp [ApplyState.after, ApplyState.start]

theorem applyTasks_append {σ R V : Type} (l1 l2 : List (String × FlowTaskDef σ R V))
    (repo : Option R) (st : ApplyState σ V) :
    applyTasks (l1 ++ l2) repo st = applyTasks l2 repo (applyTasks l1 repo st) := by
  simp [applyTasks, List.foldl_append]

theorem applyTasks_cons {σ R V : Type} (k : String) (t : FlowTaskDef σ R V)
    (l : List (String × FlowTaskDef σ R V)) (repo : Option R) (st : ApplyState σ V) :
    applyTasks ((k, t) :: l) repo st = applyTasks l repo (applyTask k t repo st) := by
  simp [applyTasks]

/-- The task loop reads only the forge of the state it starts from. -/
theorem applyTasks_after {σ R V : Type} (repo : Option R) :
    ∀ (l : List (String × FlowTaskDef σ R V)) (st : ApplyState σ V),
      applyTasks l repo st = st.after (applyTasks l repo (ApplyState.start st.forj)) := by
  intro l
  induction l with
  | nil => intro st; simp [applyTasks, ApplyState.after_start]
  | cons hd tl ih =>
    intro st
    obtain ⟨k, t⟩ := hd
    rw [applyTasks_cons, applyTasks_cons, ih, applyTask_after, ih (applyTask k t repo _),
      ApplyState.after_after]
    simp [ApplyState.after]

/-- What one task does from a fresh record: it sets `bInError` exactly when its condition
evaluation errors, and every call it records is a call of its own action. -/
theorem applyTask_start {σ R V : Type} (key : String) (flowTask : FlowTaskDef σ R V)
    (repo : Option R) (s : σ) :
    (applyTask key flowTask repo (ApplyState.start s)).bInError =
        (flowTask.if_section repo s).1.2.isSome
    ∧ ∀ c ∈ (applyTask key flowTask repo (ApplyState.start s)).calls, c.task = key := by
  unfold applyTask
  simp only [ApplyState.start]
  rcases hif : flowTask.if_section repo s with ⟨⟨v, err⟩, s1⟩
  cases err with
  | some e => simp
  | none =>
    cases v with
    | false => simp
    | true =>
      cases hl : flowTask.List_ with
      | none => simp
      | some lists =>
        simp only [Bool.true_eq_false, if_false, Option.isSome_none]
        exact applyCombos_calls_task key flowTask _ repo _ _ _ _

theorem applyTasks_forj {σ R V : Type} (repo : Option R)
    (l : List (String × FlowTaskDef σ R V)) (st : ApplyState σ V) :
    (applyTasks l repo st).forj = (applyTasks l repo (ApplyState.start st.forj)).forj := by
  rw [applyTasks_after]; rfl

/-- The calls of a run from a fresh record are calls of the tasks visited, and the run
ends in error exactly when the condition evaluation of some task errored in the state in
which that task was visited. -/
theorem applyTasks_start {σ R V : Type} (repo : Option R) :
    ∀ (l : List (String × FlowTaskDef σ R V)) (s : σ),
      ((applyTasks l repo (ApplyState.start s)).bInError = true ↔
        ∃ pre k t post, l = pre ++ (k, t) :: post ∧
          (t.if_section repo (visited pre repo s).forj).1.2.isSome = true)
      ∧ ∀ c ∈ (applyTasks l repo (ApplyState.start s)).calls, c.task ∈ l.map Prod.fst := by
  intro l
  induction l with
  | nil =>
    intro s
    simp [applyTasks, ApplyState.start]
  | cons hd tl ih =>
    intro s
    obtain ⟨k, t⟩ := hd
    have hstep := applyTask_start k t repo s
    rw [applyTasks_cons, applyTasks_after]
    constructor
    · simp only [ApplyState.after, Bool.or_eq_true, hstep.1]
      constructor
      · rintro (h | h)
        · exact ⟨[], k, t, tl, rfl, by simpa [visited, applyTasks, ApplyState.start] using h⟩
        · obtain ⟨pre, k1, t1, post, hl, he⟩ := (ih _).1.mp h
          refine ⟨(k, t) :: pre, k1, t1, post, by simp [hl], ?_⟩
          simp only [visited] at he ⊢
          rw [applyTasks_cons, applyTasks_forj]
          exact he
      · rintro ⟨pre, k1, t1, post, hl, he⟩
        cases pre with
        | nil =>
          simp only [List.nil_append, List.cons.injEq, Prod.mk.injEq] at hl
          obtain ⟨⟨rfl, rfl⟩, rfl⟩ := hl
          left
          simpa [visited, applyTasks, ApplyState.start] using he
        | cons p pre1 =>
          simp only [List.cons_append, List.cons.injEq] at hl
          obtain ⟨rfl, rfl⟩ := hl
          right
          refine (ih _).1.mpr ⟨pre1, k1, t1, post, rfl, ?_⟩
          simp only [visited] at he ⊢
          rw [applyTasks_cons, applyTasks_forj] at he
          exact he
    · intro c hc
      simp only [ApplyState.after, List.mem_append] at hc
      rcases hc with hc | hc
      · simp [hstep.2 c hc]
      · have := (ih _).2 c hc
        simp only [List.map_cons, List.mem_cons]
        exact Or.inr this

/-- The calls of a whole run, split at one task: the calls made before it, the calls of
the task itself, and the calls of the tasks after it, each part computed from the forge
the previous part left. -/
theorem applyTasks_split {σ R V : Type} (repo : Option R)
    (pre post : List (String × FlowTaskDef σ R V)) (k : String) (t : FlowTaskDef σ R V)
    (s0 : σ) :
    (applyTasks (pre ++ (k, t) :: post) repo (ApplyState.start s0)).calls =
      (visited pre repo s0).calls
        ++ (applyTask k t repo (ApplyState.start (visited pre repo s0).forj)).calls
        ++ (applyTasks post repo
              (ApplyState.start (applyTask k t repo (visited pre repo s0)).forj)).calls := by
  have hf : (applyTask k t repo (visited pre repo s0)).forj =
      (applyTask k t repo (ApplyState.start (visited pre repo s0).forj)).forj := by
    rw [applyTask_after]; rfl
  rw [applyTasks_append, applyTasks_cons, applyTasks_after, applyTask_after, hf]
  simp [ApplyState.after, visited]

/-! ## Lemmas on the condition section -/

theorem ifLoop_true_iff {σ R : Type} (repo : Option R) :
    ∀ (ifs : List (FlowTaskIf σ R)) (s s1 : σ),
      evalAllTrue ifs repo s = some s1 ↔ ifLoop ifs repo s = ((true, none), s1) := by
  intro ifs
  induction ifs with
  | nil => intro s s1; simp [evalAllTrue, ifLoop]
  | cons c rest ih =>
    intro s s1
    rcases h : c.IfEvaluate repo s with ⟨⟨v, err⟩, s2⟩
    cases err with
    | some e => simp [evalAllTrue, ifLoop, h]
    | none =>
      cases v with
      | false => simp [evalAllTrue, ifLoop, h]
      | true => simpa [evalAllTrue, ifLoop, h] using ih s2 s1

theorem ifLoop_first_failure {σ R : Type} (repo : Option R) (p : FlowTaskIf σ R)
    (rest : List (FlowTaskIf σ R)) :
    ∀ (pre : List (FlowTaskIf σ R)) (s s1 : σ),
      evalAllTrue pre repo s = some s1 →
      ((p.IfEvaluate repo s1).1.2 ≠ none ∨ (p.IfEvaluate repo s1).1.1 = false) →
      ifLoop (pre ++ p :: rest) repo s =
        ((false, (p.IfEvaluate repo s1).1.2), (p.IfEvaluate repo s1).2) := by
  intro pre
  induction pre with
  | nil =>
    intro s s1 hpre hfail
    simp only [evalAllTrue, Option.some.injEq] at hpre
    subst hpre
    rcases h : p.IfEvaluate repo s with ⟨⟨v, err⟩, s2⟩
    rw [h] at hfail
    cases err with
    | some e => simp [ifLoop, h]
    | none =>
      cases v with
      | false => simp [ifLoop, h]
      | true => simp at hfail
  | cons c pre1 ih =>
    intro s s1 hpre hfail
    rcases h : c.IfEvaluate repo s with ⟨⟨v, err⟩, s2⟩
    cases err with
    | some e => simp [evalAllTrue, h] at hpre
    | none =>
      cases v with
      | false => simp [evalAllTrue, h] at hpre
      | true =>
        simp only [evalAllTrue, h] at hpre
        simpa [ifLoop, h] using ih s2 s1 hpre hfail

theorem ifLoop_failure_exists {σ R : Type} (repo : Option R) :
    ∀ (ifs : List (FlowTaskIf σ R)) (s : σ),
      evalAllTrue ifs repo s = none →
      ∃ pre p rest s1, ifs = pre ++ p :: rest ∧ evalAllTrue pre repo s = some s1 ∧
        ((p.IfEvaluate repo s1).1.2 ≠ none ∨ (p.IfEvaluate repo s1).1.1 = false) := by
  intro ifs
  induction ifs with
  | nil => intro s h; simp [evalAllTrue] at h
  | cons c rest ih =>
    intro s hnone
    rcases h : c.IfEvaluate repo s with ⟨⟨v, err⟩, s2⟩
    cases err with
    | some e => exact ⟨[], c, rest, s, rfl, rfl, Or.inl (by simp [h])⟩
    | none =>
      cases v with
      | false => exact ⟨[], c, rest, s, rfl, rfl, Or.inr (by simp [h])⟩
      | true =>
        simp only [evalAllTrue, h] at hnone
        obtain ⟨pre, p, rest1, s1, hl, hpre, hfail⟩ := ih s2 hnone
        exact ⟨c :: pre, p, rest1, s1, by simp [hl], by simp [evalAllTrue, h, hpre], hfail⟩

/-! ## Lemmas on task keys -/

/-- With distinct keys, the place of a key in the task list is unique. -/
theorem split_unique {T : Type} (k : String) (t t1 : T) (post post1 : List (String × T)) :
    ∀ (pre pre1 : List (String × T)),
      ((pre ++ (k, t) :: post).map Prod.fst).Nodup →
      pre ++ (k, t) :: post = pre1 ++ (k, t1) :: post1 → pre = pre1 ∧ t = t1 := by
  intro pre
  induction pre with
  | nil =>
    intro pre1 hnd heq
    cases pre1 with
    | nil =>
      simp only [List.nil_append, List.cons.injEq, Prod.mk.injEq] at heq
      exact ⟨rfl, heq.1.2⟩
    | cons p pre2 =>
      simp only [List.nil_append, List.cons_append, List.cons.injEq] at heq
      simp only [List.nil_append, List.map_cons, List.nodup_cons, List.mem_map, not_exists,
        not_and] at hnd
      exact absurd rfl (hnd.1 (k, t1) (by rw [heq.2]; simp))
  | cons a pre2 ih =>
    intro pre1 hnd heq
    cases pre1 with
    | nil =>
      simp only [List.nil_append, List.cons_append, List.cons.injEq] at heq
      simp only [List.cons_append, List.map_cons, List.nodup_cons, List.mem_map, not_exists,
        not_and] at hnd
      exact absurd (by rw [heq.1]) (hnd.1 (k, t) (by simp))
    | cons b pre3 =>
      simp only [List.cons_append, List.cons.injEq] at heq
      simp only [List.cons_append, List.map_cons, List.nodup_cons] at hnd
      obtain ⟨h1, h2⟩ := ih pre3 hnd.2 heq.2
      exact ⟨by rw [heq.1, h1], h2⟩

/-- With distinct keys, a task that records no call of its own leaves no call under its
key in the whole run. -/
theorem calls_not_task {σ R V : Type} (repo : Option R)
    (pre post : List (String × FlowTaskDef σ R V)) (k : String) (t : FlowTaskDef σ R V)
    (s0 : σ) (hnd : ((pre ++ (k, t) :: post).map Prod.fst).Nodup)
    (hno : (applyTask k t repo (ApplyState.start (visited pre repo s0).forj)).calls = []) :
    ∀ c ∈ (visited (pre ++ (k, t) :: post) repo s0).calls, c.task ≠ k := by
  intro c hc hk
  simp only [List.map_append, List.map_cons] at hnd
  have hnd2 := List.nodup_append.mp hnd
  have hkpost : k ∉ post.map Prod.fst := (List.nodup_cons.mp hnd2.2.1).1
  have hkpre : k ∉ pre.map Prod.fst := fun hin =>
    hnd2.2.2 hin (List.mem_cons_self _ _)
  unfold visited at hc
  rw [applyTasks_split, hno, List.append_nil, List.mem_append] at hc
  rcases hc with hc | hc
  · exact hkpre (hk ▸ (applyTasks_start repo pre s0).2 c hc)
  · exact hkpost (hk ▸ (applyTasks_start repo post _).2 c hc)

/-! ## Lemmas on silenced flows -/

theorem ifLoop_silent {σ R : Type} (repo : Option R) :
    ∀ (ifs : List (FlowTaskIf σ R)) (s : σ),
      ifLoop (ifs.map FlowTaskIf.silent) repo s =
        (((ifLoop ifs repo s).1.1, none), (ifLoop ifs repo s).2) ∧
      ((ifLoop ifs repo s).1.2 ≠ none → (ifLoop ifs repo s).1.1 = false) := by
  intro ifs
  induction ifs with
  | nil => intro s; simp [ifLoop]
  | cons c rest ih =>
    intro s
    rcases h : c.IfEvaluate repo s with ⟨⟨v, err⟩, s2⟩
    cases err with
    | some e => simp [ifLoop, FlowTaskIf.silent, h]
    | none =>
      cases v with
      | false => simp [ifLoop, FlowTaskIf.silent, h]
      | true => simpa [ifLoop, FlowTaskIf.silent, h] using ih s2

theorem if_section_silent {σ R V : Type} (t : FlowTaskDef σ R V) (repo : Option R) (s : σ) :
    t.silent.if_section repo s = (((t.if_section repo s).1.1, none), (t.if_section repo s).2) ∧
    ((t.if_section repo s).1.2 ≠ none → (t.if_section repo s).1.1 = false) := by
  unfold FlowTaskDef.if_section FlowTaskDef.silent
  cases h : t.If with
  | none => simp
  | some ifs => simpa using ifLoop_silent repo ifs s

theorem applyCombos_silent {σ R V : Type} (key : String) (t : FlowTaskDef σ R V)
    (named : List (String × List V)) (repo : Option R) :
    ∀ (fuel : Nat) (looplist : MLoop) (m : List (String × V)) (st1 st : ApplyState σ V),
      st1.effect = st.effect →
      (applyCombos key t.silent named repo fuel looplist m st1).effect =
        (applyCombos key t named repo fuel looplist m st).effect := by
  intro fuel
  induction fuel with
  | zero => intro looplist m st1 st h; simpa [applyCombos] using h
  | succ n ih =>
    intro looplist m st1 st h
    by_cases he : looplist.Eol = true
    · simpa [applyCombos, he] using h
    · simp only [applyCombos, if_neg he]
      apply ih
      simp only [ApplyState.effect, Prod.mk.injEq] at h ⊢
      simp [FlowTaskDef.silent, FlowTaskSet.silent, h.1, h.2, SetCall.invocation]

theorem applyTask_silent {σ R V : Type} (key : String) (t : FlowTaskDef σ R V)
    (repo : Option R) (st1 st : ApplyState σ V) (h : st1.effect = st.effect) :
    (applyTask key t.silent repo st1).effect = (applyTask key t repo st).effect := by
  have hf : st1.forj = st.forj := congrArg Prod.fst h
  have hc : st1.calls.map SetCall.invocation = st.calls.map SetCall.invocation :=
    congrArg Prod.snd h
  have hs := if_section_silent t repo st.forj
  unfold applyTask
  rw [hf, hs.1]
  rcases hif : t.if_section repo st.forj with ⟨⟨v, err⟩, s1⟩
  rw [hif] at hs
  cases err with
  | some e =>
    have hv : v = false := hs.2 (by simp)
    simp [hv, ApplyState.effect, hc]
  | none =>
    cases v with
    | false => simp [ApplyState.effect, hc]
    | true =>
      have hl : t.silent.List_ = t.List_ := rfl
      rw [hl]
      cases t.List_ with
      | none =>
        simp [ApplyState.effect, hc, FlowTaskDef.silent, FlowTaskSet.silent,
          SetCall.invocation]
      | some lists =>
        simp only [Bool.true_eq_false, if_false]
        apply applyCombos_silent
        simp [ApplyState.effect, hc]

theorem applyTasks_silent {σ R V : Type} (repo : Option R) :
    ∀ (l : List (String × FlowTaskDef σ R V)) (st1 st : ApplyState σ V),
      st1.effect = st.effect →
      (applyTasks (l.map (fun e => (e.1, e.2.silent))) repo st1).effect =
        (applyTasks l repo st).effect := by
  intro l
  induction l with
  | nil => intro st1 st h; simpa [applyTasks] using h
  | cons hd tl ih =>
    intro st1 st h
    obtain ⟨k, t⟩ := hd
    rw [List.map_cons, applyTasks_cons, applyTasks_cons]
    exact ih _ _ (applyTask_silent k t repo st1 st h)

theorem silent_tasks {σ R V : Type} (fd : FlowDefine σ R V) (repo : Option R) :
    fd.silent.tasks repo = (fd.tasks repo).map (fun e => (e.1, e.2.silent)) := by
  cases repo with
  | none => cases h : fd.OnForj <;> simp [FlowDefine.tasks, FlowDefine.silent, GoMap.entries, h]
  | some r => cases h : fd.OnRepo <;> simp [FlowDefine.tasks, FlowDefine.silent, GoMap.entries, h]

/-! ## Claims on merging and loading -/

/-- The loop of `set_defaults` on the pointers of a tree without nil deployment. -/
theorem setNamesLoop_some (l : List (String × DeploymentStruct)) :
    setNamesLoop (l.map (fun e => (e.1, some e.2))) =
      some (l.map (fun e => (e.1, { e.2 with name := e.1 }))) := by
  induction l with
  | nil => rfl
  | cons hd tl ih =>
    obtain ⟨k, d⟩ := hd
    simp only [List.map_cons, setNamesLoop, ih, Option.map_some']

/-- On a tree without nil deployment, `set_defaults` on the pointers is `set_defaults` on
the values. -/
theorem raw_set_defaults (X : Collaborators) (y : ForgeYaml) :
    y.raw.set_defaults X = some (y.set_defaults X) := by
  unfold RawForgeYaml.set_defaults ForgeYaml.set_defaults ForgeYaml.raw
  cases hd : y.Deployments with
  | none => simp [GoMap.len, GoMap.entries]
  | some l =>
    by_cases hl : l = []
    · simp [GoMap.len, GoMap.entries, hl]
    · simp [GoMap.len, GoMap.entries, hl, setNamesLoop_some]

/-- C10 fails on the code for a forge without tree and for a Forjfile with a deployment
without value. For a deployment name that is not a key of the Deployments map of a forge
with its tree, `MergeFromDeployment` returns a nil result and an error without calling
`mergeFrom`; on a forge that is not nil and has no tree (`new(Forge)`) it panics where the
claim has an error. `Load` returns an error when it cannot read the master Forjfile; when
it has decoded it and `set_defaults` has run, it returns an error for a requested
deployment name that is not a key of the Deployments map; and it panics when
`set_defaults` does, on a deployment without value. -/
theorem unknown_deployment_rejected (X : Collaborators) (io : FileAccess) (f : Forge)
    (deployTo : String) :
    (f.yaml.Deployments.get? deployTo = none →
      Forge.MergeFromDeployment X (.tree f) deployTo =
        some { result := none, err := some ("Unable to find deployment '" ++ deployTo ++ "'"),
               merges := 0 }) ∧
    Forge.MergeFromDeployment X (.bare f) deployTo = none ∧
    (deployTo ≠ "" →
      (∀ g e, f.readMaster X io = .error (g, e) →
        Forge.Load X io (.tree f) deployTo = some (g, false, some e)) ∧
      (∀ f1 raw, f.readMaster X io = .ok (f1, raw) →
        (raw.set_defaults X = none → Forge.Load X io (.tree f) deployTo = none) ∧
        (∀ y, raw.set_defaults X = some y → y.Deployments.get? deployTo = none →
          Forge.Load X io (.tree f) deployTo =
            some (some { f1 with yaml := y.defineDefaults X true }, true,
              some ("Deployment '" ++ deployTo ++ "' not defined"))))) ∧
    Forge.Load X io (.bare f) deployTo =
      Forge.Load X io (.tree { f with yaml := zeroForgeYaml }) deployTo := by
  refine ⟨?_, rfl, ?_, rfl⟩
  · intro h
    simp [Forge.MergeFromDeployment, Forge.GetADeployment, h]
  · intro hreq
    constructor
    · intro g e hr
      simp [Forge.Load, Forge.loadTree, hr]
    · intro f1 raw hr
      constructor
      · intro hp
        simp [Forge.Load, Forge.loadTree, hr, hp]
      · intro y hy hdecl
        have hget : (y.defineDefaults X true).Deployments.get? deployTo = none := by
          unfold ForgeYaml.defineDefaults
          rw [defineDefaultsLoop_Deployments]
          exact hdecl
        simp only [Forge.Load, Forge.loadTree, hr, hy]
        rw [loadDeployment_unknown X io _ deployTo hreq hget]

/-- Failing inputs of C10: a forge that was only allocated, and a master Forjfile with
the deployment `dev` without value; with them, a forge that declares `production` only,
for which `staging` is rejected by both methods. -/
theorem unknown_deployment_rejected_witness :
    Forge.MergeFromDeployment sampleCollaborators (.bare (sampleForge none none)) "staging" =
      none ∧
    Forge.Load sampleCollaborators nilEntryFiles (.tree (sampleForge none none)) "staging" =
      none ∧
    Forge.MergeFromDeployment sampleCollaborators
        (.tree (sampleForge (some [("production", sampleDeployment "production" "PRO")]) none))
        "staging" =
      some { result := none, err := some "Unable to find deployment 'staging'", merges := 0 } ∧
    (Forge.Load sampleCollaborators sampleFiles
        (.tree (sampleForge (some [("production", sampleDeployment "production" "PRO")]) none))
        "staging").map (fun r => r.2) =
      some (true, some "Deployment 'staging' not defined") :=
  ⟨(unknown_deployment_rejected sampleCollaborators sampleFiles (sampleForge none none)
      "staging").2.1,
   (((unknown_deployment_rejected sampleCollaborators nilEntryFiles (sampleForge none none)
      "staging").2.2.1 (by decide)).2 _ _ rfl).1 rfl,
   (unknown_deployment_rejected sampleCollaborators sampleFiles
      (sampleForge (some [("production", sampleDeployment "production" "PRO")]) none)
      "staging").1 (by decide),
   congrArg (Option.map (fun r => r.2))
     ((((unknown_deployment_rejected sampleCollaborators sampleFiles
      (sampleForge (some [("production", sampleDeployment "production" "PRO")]) none)
      "staging").2.2.1 (by decide)).2 _ _ rfl).2 _ rfl (by decide))⟩

/-! ## Claims on flows -/

/-- C7: `FlowTaskDef.if_section` is the short-circuit conjunction of the predicates in
declared order. With an absent predicate list it returns (true, nil). With a list, it
returns (true, nil) exactly when every predicate evaluates to true without error (so for
the empty list too); otherwise some first predicate is false or errors, and then the result
is (false, error of that predicate), nil when it is merely false. In that case the state
returned is the one that predicate left: no later predicate was evaluated, since an
evaluation is free to change the state and the result holds whatever the later
predicates are. -/
theorem if_section_short_circuit {σ R V : Type} (ftd : FlowTaskDef σ R V) (repo : Option R)
    (s : σ) :
    (ftd.If = none → ftd.if_section repo s = ((true, none), s)) ∧
    ∀ ifs, ftd.If = some ifs →
      (∀ s1, evalAllTrue ifs repo s = some s1 ↔ ftd.if_section repo s = ((true, none), s1)) ∧
      (∀ pre p rest s1, ifs = pre ++ p :: rest → evalAllTrue pre repo s = some s1 →
        ((p.IfEvaluate repo s1).1.2 ≠ none ∨ (p.IfEvaluate repo s1).1.1 = false) →
        ftd.if_section repo s =
          ((false, (p.IfEvaluate repo s1).1.2), (p.IfEvaluate repo s1).2)) ∧
      (evalAllTrue ifs repo s = none →
        ∃ pre p rest s1, ifs = pre ++ p :: rest ∧ evalAllTrue pre repo s = some s1 ∧
          ((p.IfEvaluate repo s1).1.2 ≠ none ∨ (p.IfEvaluate repo s1).1.1 = false)) := by
  refine ⟨fun h => by simp [FlowTaskDef.if_section, h], ?_⟩
  intro ifs hifs
  have hsec : ftd.if_section repo s = ifLoop ifs repo s := by
    simp [FlowTaskDef.if_section, hifs]
  refine ⟨fun s1 => by rw [hsec]; exact ifLoop_true_iff repo ifs s s1, ?_, ?_⟩
  · intro pre p rest s1 hl hpre hfail
    rw [hsec, hl]
    exact ifLoop_first_failure repo p rest pre s s1 hpre hfail
  · exact ifLoop_failure_exists repo ifs s

/-- Witness of C7: predicates `a` (true), `b` (false), `c` (an error); the result is
(false, nil) and the log shows that `c` was not evaluated. -/
theorem if_section_short_circuit_witness :
    taskABC.if_section none [] = ((false, none), ["a", "b"]) :=
  ((if_section_short_circuit taskABC none []).2 _ rfl).2.1
    [logIf "a" true none] (logIf "b" false none) [logIf "c" true (some "undefined field")]
    ["a"] rfl rfl (Or.inr rfl)

/-- What `apply` returns, in terms of the loop over the tasks. -/
theorem apply_eq {σ R V : Type} (fd : FlowDefine σ R V) (repo : Option R) (s0 : σ) :
    (fd.apply repo s0).1 = visited (fd.tasks repo) repo s0 ∧
    (fd.apply repo s0).2 =
      if (visited (fd.tasks repo) repo s0).bInError = true then
        some ("Failed to apply '" ++ fd.Name ++ "'. Errors detected.")
      else none := by
  unfold FlowDefine.apply visited
  by_cases h : (applyTasks (fd.tasks repo) repo (ApplyState.start s0)).bInError = true <;>
    simp [h]

/-- C5 fails on the code: a failing `set` action is only logged, `bInError` is set by a
failing condition section alone. In a flow whose tasks have no predicates (so that the
conditions of every task hold), `apply` returns nil whatever the `set` actions return. -/
theorem apply_ignores_set_failure {σ R V : Type} (fd : FlowDefine σ R V) (repo : Option R)
    (s0 : σ) (h : ∀ e ∈ fd.tasks repo, e.2.If = none) :
    (fd.apply repo s0).2 = none := by
  have hb : (visited (fd.tasks repo) repo s0).bInError ≠ true := by
    intro hb
    obtain ⟨pre, k, t, post, hl, he⟩ := (applyTasks_start repo _ s0).1.mp hb
    have hnone : t.If = none := h (k, t) (by rw [hl]; simp)
    simp [FlowTaskDef.if_section, hnone] at he
  rw [(apply_eq fd repo s0).2, if_neg hb]

/-- Failing input of C5: a flow whose single task has no predicate and a `set` action
that fails. The action is called once, returns an error, and `apply` returns nil. -/
theorem apply_ignores_set_failure_witness :
    ((sampleFlow [("t", taskFailingSet)]).apply none []).1.calls.map (fun c => c.err)
      = [some "cannot set"] ∧
    ((sampleFlow [("t", taskFailingSet)]).apply none []).2 = none :=
  ⟨rfl, apply_ignores_set_failure (sampleFlow [("t", taskFailingSet)]) none []
    (by intro e he
        simp only [FlowDefine.tasks, sampleFlow, GoMap.entries, Option.getD_some,
          List.mem_singleton] at he
        rw [he]; rfl)⟩

/-- C6: a task whose condition section evaluates to false without error, in the state in
which `apply` visits it, is skipped: the body of the loop records no call and leaves
`bInError` as it was (only the forge may have been changed, by the evaluation of the
predicates); with distinct task keys the whole run holds no call of that task's `set`
action; and if `apply` returns an error, the condition section of another task
errored. -/
theorem apply_skips_false_condition {σ R V : Type} (fd : FlowDefine σ R V) (repo : Option R)
    (s0 s1 : σ) (pre post : List (String × FlowTaskDef σ R V)) (k : String)
    (t : FlowTaskDef σ R V)
    (hl : fd.tasks repo = pre ++ (k, t) :: post)
    (hnd : ((fd.tasks repo).map Prod.fst).Nodup)
    (hif : t.if_section repo (visited pre repo s0).forj = ((false, none), s1)) :
    applyTask k t repo (visited pre repo s0) =
      { forj := s1, bInError := (visited pre repo s0).bInError,
        calls := (visited pre repo s0).calls } ∧
    (∀ c ∈ (fd.apply repo s0).1.calls, c.task ≠ k) ∧
    ((fd.apply repo s0).2 ≠ none →
      ∃ pre1 k1 t1 post1, fd.tasks repo = pre1 ++ (k1, t1) :: post1 ∧ k1 ≠ k ∧
        (t1.if_section repo (visited pre1 repo s0).forj).1.2 ≠ none) := by
  refine ⟨by simp [applyTask, hif], ?_, ?_⟩
  · rw [(apply_eq fd repo s0).1, hl]
    rw [hl] at hnd
    exact calls_not_task repo pre post k t s0 hnd (by simp [applyTask, ApplyState.start, hif])
  · intro herr
    have hb : (visited (fd.tasks repo) repo s0).bInError = true := by
      by_contra hb
      exact herr (by rw [(apply_eq fd repo s0).2, if_neg hb])
    obtain ⟨pre1, k1, t1, post1, hl1, he⟩ := (applyTasks_start repo _ s0).1.mp hb
    refine ⟨pre1, k1, t1, post1, hl1, ?_, ?_⟩
    · intro hk
      subst hk
      have hu := split_unique k1 t t1 post post1 pre pre1 (hl ▸ hnd) (hl ▸ hl1)
      rw [← hu.1, ← hu.2, hif] at he
      simp at he
    · intro hn
      rw [hn] at he
      simp at he

/-- Witness of C6: tasks `t1` (plain), `t2` (its predicate is false) and `t3` (its action
fails); `t2` is skipped and `apply` returns nil. -/
theorem apply_skips_false_condition_witness :
    (∀ c ∈ ((sampleFlow [("t1", taskPlain), ("t2", taskFalseIf), ("t3", taskFailingSet)]).apply
        none []).1.calls, c.task ≠ "t2") ∧
    ((sampleFlow [("t1", taskPlain), ("t2", taskFalseIf), ("t3", taskFailingSet)]).apply
        none []).2 = none :=
  ⟨(apply_skips_false_condition
      (sampleFlow [("t1", taskPlain), ("t2", taskFalseIf), ("t3", taskFailingSet)]) none []
      ["set1", "f"] [("t1", taskPlain)] [("t3", taskFailingSet)] "t2" taskFalseIf rfl
      (by decide) rfl).2.1, rfl⟩

/-- C8: when the condition section of a task errors, in the state in which `apply` visits
it, the body of the loop records no call of its `set` action, the loop goes on with the
tasks that follow, and `apply` returns an error whose text contains the name of the
flow; with distinct task keys the whole run holds no call of that task's action. When
the condition section of no task errors, `apply` returns nil (whether or not an action
fails). -/
theorem apply_condition_error {σ R V : Type} (fd : FlowDefine σ R V) (repo : Option R)
    (s0 : σ) :
    (∀ pre k t post, fd.tasks repo = pre ++ (k, t) :: post →
      (t.if_section repo (visited pre repo s0).forj).1.2 ≠ none →
      (applyTask k t repo (visited pre repo s0)).calls = (visited pre repo s0).calls ∧
      (fd.apply repo s0).1 = applyTasks post repo (applyTask k t repo (visited pre repo s0)) ∧
      (∃ a b, (fd.apply repo s0).2 = some (a ++ fd.Name ++ b)) ∧
      (((fd.tasks repo).map Prod.fst).Nodup →
        ∀ c ∈ (fd.apply repo s0).1.calls, c.task ≠ k)) ∧
    ((∀ pre k t post, fd.tasks repo = pre ++ (k, t) :: post →
        (t.if_section repo (visited pre repo s0).forj).1.2 = none) →
      (fd.apply repo s0).2 = none) := by
  constructor
  · intro pre k t post hl herr
    rcases hif : t.if_section repo (visited pre repo s0).forj with ⟨⟨v, err⟩, s1⟩
    rw [hif] at herr
    obtain ⟨e, rfl⟩ : ∃ e, err = some e := Option.ne_none_iff_exists'.mp herr
    have hb : (visited (fd.tasks repo) repo s0).bInError = true :=
      (applyTasks_start repo _ s0).1.mpr ⟨pre, k, t, post, hl, by simp [hif]⟩
    refine ⟨by simp [applyTask, hif], ?_, ?_, ?_⟩
    · rw [(apply_eq fd repo s0).1, hl]
      simp [visited, applyTasks_append, applyTasks_cons]
    · exact ⟨"Failed to apply '", "'. Errors detected.", by
        rw [(apply_eq fd repo s0).2, if_pos hb]⟩
    · intro hnd
      rw [(apply_eq fd repo s0).1, hl]
      rw [hl] at hnd
      exact calls_not_task repo pre post k t s0 hnd
        (by simp [applyTask, ApplyState.start, hif])
  · intro hall
    have hb : (visited (fd.tasks repo) repo s0).bInError ≠ true := by
      intro hb
      obtain ⟨pre, k, t, post, hl, he⟩ := (applyTasks_start repo _ s0).1.mp hb
      rw [hall pre k t post hl] at he
      simp at he
    rw [(apply_eq fd repo s0).2, if_neg hb]

/-- Witness of C8: tasks `t1` (plain), `t2` (its predicate errors) and `t3` (plain); `t2`
is not applied, `t1` and `t3` are, and the error names the flow `myflow`. -/
theorem apply_condition_error_witness :
    ((sampleFlow [("t1", taskPlain), ("t2", taskFailingIf), ("t3", taskPlain)]).apply
        none []).1.calls.map (fun c => c.task) = ["t1", "t3"] ∧
    ∃ a b, ((sampleFlow [("t1", taskPlain), ("t2", taskFailingIf), ("t3", taskPlain)]).apply
        none []).2 = some (a ++ "myflow" ++ b) :=
  ⟨rfl, ((apply_condition_error
      (sampleFlow [("t1", taskPlain), ("t2", taskFailingIf), ("t3", taskPlain)]) none []).1
      [("t1", taskPlain)] "t2" taskFailingIf [("t3", taskPlain)] rfl (by decide)).2.2.1⟩

/-- C9: `apply` is best-effort. (1) The flow in which every erroring predicate answers
false instead and every `set` action reports success leaves the same forge and makes the
same invocations of `set` actions, in the same order and with the same bindings: an error
changes nothing but the value returned (and what is logged). (2) Around every task, the
calls of the run are those made before the task, those of the task, and those of the
tasks after it, which are computed from the forge the task left alone, not from
`bInError` nor from what failed before. -/
theorem apply_best_effort {σ R V : Type} (fd : FlowDefine σ R V) (repo : Option R) (s0 : σ) :
    (fd.silent.apply repo s0).1.effect = (fd.apply repo s0).1.effect ∧
    ∀ pre k t post, fd.tasks repo = pre ++ (k, t) :: post →
      (fd.apply repo s0).1.calls =
        (visited pre repo s0).calls
          ++ (applyTask k t repo (ApplyState.start (visited pre repo s0).forj)).calls
          ++ (applyTasks post repo
                (ApplyState.start (applyTask k t repo (visited pre repo s0)).forj)).calls := by
  constructor
  · rw [(apply_eq fd.silent repo s0).1, (apply_eq fd repo s0).1, silent_tasks]
    exact applyTasks_silent repo _ _ _ rfl
  · intro pre k t post hl
    rw [(apply_eq fd repo s0).1, hl]
    exact applyTasks_split repo pre post k t s0

/-- Witness of C9: tasks `t1` (plain), `t2` (its predicate errors), `t3` (its action
fails) and `t4` (plain): the actions of `t1`, `t3` and `t4` are invoked. -/
theorem apply_best_effort_witness :
    ((sampleFlow [("t1", taskPlain), ("t2", taskFailingIf), ("t3", taskFailingSet),
        ("t4", taskPlain)]).apply none []).1.calls.map (fun c => c.task) = ["t1", "t3", "t4"] ∧
    ((sampleFlow [("t1", taskPlain), ("t2", taskFailingIf), ("t3", taskFailingSet),
        ("t4", taskPlain)]).silent.apply none []).1.effect =
      ((sampleFlow [("t1", taskPlain), ("t2", taskFailingIf), ("t3", taskFailingSet),
        ("t4", taskPlain)]).apply none []).1.effect :=
  ⟨rfl, (apply_best_effort (sampleFlow [("t1", taskPlain), ("t2", taskFailingIf),
    ("t3", taskFailingSet), ("t4", taskPlain)]) none []).1⟩

/-! ## Further claims on validation -/

theorem validateDeployments_empty_type (devDefault : String) :
    ∀ (l : List (String × DeploymentStruct)) (pro found : Bool) (k : String)
      (d : DeploymentStruct), (k, d) ∈ l → d.Type_ = "" →
      IsError (validateDeployments devDefault l pro found) := by
  intro l
  induction l with
  | nil => intro pro found k d hmem; simp at hmem
  | cons hd tl ih =>
    intro pro found k d hmem hty
    obtain ⟨name, deploy⟩ := hd
    unfold validateDeployments
    by_cases h0 : deploy.Type_ = ""
    · rw [if_pos h0]; exact ⟨_, rfl⟩
    · by_cases hpro : deploy.Type_ = ProDeployType ∧ pro = true
      · rw [if_neg h0, if_pos hpro]; exact ⟨_, rfl⟩
      · rw [if_neg h0, if_neg hpro]
        rcases List.mem_cons.mp hmem with heq | hin
        · cases heq; exact absurd hty h0
        · exact ih _ _ k d hin hty

/-- C13: a forge whose deployments map holds a deployment with an empty type is rejected
by `Forge.Validate`: the error returned is not nil, whatever else the forge holds. -/
theorem Validate_rejects_empty_type (X : Collaborators) (f : Forge) (k : String)
    (d : DeploymentStruct) (hmem : (k, d) ∈ f.yaml.Deployments.entries) (hty : d.Type_ = "") :
    (f.Validate X).2 ≠ none :=
  Validate_error_of_loop X f (fun devDefault =>
    validateDeployments_empty_type devDefault _ false false k d hmem hty)

/-- Witness of C13: a deployment `staging` without type, next to a `PRO` one. -/
theorem Validate_rejects_empty_type_witness :
    ((sampleForge (some [("production", sampleDeployment "production" "PRO"),
      ("staging", sampleDeployment "staging" "")]) none).Validate sampleCollaborators).2
      ≠ none :=
  Validate_rejects_empty_type sampleCollaborators _ "staging" (sampleDeployment "staging" "")
    (by simp [sampleForge, GoMap.entries]) rfl

theorem lookupKey_some_mem {V : Type} (k : String) (v : V) :
    ∀ l : List (String × V), lookupKey k l = some v → (k, v) ∈ l := by
  intro l
  induction l with
  | nil => intro h; simp [lookupKey] at h
  | cons hd tl ih =>
    intro h
    obtain ⟨k0, v0⟩ := hd
    by_cases hk : k0 = k
    · simp only [lookupKey, hk, if_true, Option.some.injEq] at h
      simp [hk, h]
    · simp only [lookupKey, hk, if_false] at h
      exact List.mem_cons_of_mem _ (ih h)

/-- Without an empty type and with at most one `PRO` entry (none if one was seen
before), the deployment loop ends without error and tells whether the default
dev-deploy names a `DEV` deployment. -/
theorem validateDeployments_ok (devDefault : String) :
    ∀ (l : List (String × DeploymentStruct)) (pro found : Bool),
      (∀ k d, (k, d) ∈ l → d.Type_ ≠ "") →
      l.countP (fun e => decide (e.2.Type_ = ProDeployType)) + (if pro = true then 1 else 0) ≤ 1 →
      validateDeployments devDefault l pro found =
        .ok (found || l.any (fun e =>
          decide (e.2.Type_ = DevDeployType ∧ devDefault = e.2.name))) := by
  intro l
  induction l with
  | nil => intro pro found _ _; simp [validateDeployments]
  | cons hd tl ih =>
    intro pro found hty hcount
    obtain ⟨name, deploy⟩ := hd
    have h0 : deploy.Type_ ≠ "" := hty name deploy (List.mem_cons_self _ _)
    have hty2 : ∀ k d, (k, d) ∈ tl → d.Type_ ≠ "" :=
      fun k d hm => hty k d (List.mem_cons_of_mem _ hm)
    unfold validateDeployments
    rw [if_neg h0]
    by_cases hp : deploy.Type_ = ProDeployType
    · rw [List.countP_cons_of_pos _ _ (by simpa using hp)] at hcount
      have hpro : pro = false := by
        cases pro with
        | false => rfl
        | true => simp at hcount
      subst hpro
      have hc : tl.countP (fun e => decide (e.2.Type_ = ProDeployType)) = 0 := by
        simp only [Bool.false_eq_true, if_false] at hcount
        omega
      rw [if_neg (by simp), ih _ _ hty2 (by rw [hc]; simp [hp])]
      simp [Bool.or_assoc]
    · rw [List.countP_cons_of_neg _ _ (by simpa using hp)] at hcount
      rw [if_neg (by simp [hp]), ih _ _ hty2 (by simpa [hp] using hcount)]
      simp [Bool.or_assoc]

theorem validateRepoApps_ok (X : Collaborators) :
    ∀ (bs : List (String × String)) (repo : RepoStruct),
      (∀ role app, (role, app) ∈ bs → ∀ r, (X.SetInternalRelApp r role app).2 = none) →
      (validateRepoApps X repo bs).2 = none := by
  intro bs
  induction bs with
  | nil => intro repo _; rfl
  | cons hd tl ih =>
    intro repo h
    obtain ⟨role, app⟩ := hd
    have h1 := h role app (List.mem_cons_self _ _) repo
    unfold validateRepoApps
    rcases hs : X.SetInternalRelApp repo role app with ⟨r1, e⟩
    rw [hs] at h1
    simp only at h1
    subst h1
    exact ih r1 (fun role app hm => h role app (List.mem_cons_of_mem _ hm))

theorem validateRepos_ok (X : Collaborators) :
    ∀ (l : List (String × RepoStruct)),
      (∀ k repo bs role app, (k, repo) ∈ l → repo.Apps = some bs → (role, app) ∈ bs →
        ∀ r, (X.SetInternalRelApp r role app).2 = none) →
      (validateRepos X l).2 = none := by
  intro l
  induction l with
  | nil => intro _; rfl
  | cons hd tl ih =>
    intro h
    obtain ⟨k, repo⟩ := hd
    have htl := ih (fun k repo bs role app hm => h k repo bs role app (List.mem_cons_of_mem _ hm))
    unfold validateRepos
    cases ha : repo.Apps with
    | none => simpa using htl
    | some bs =>
      have hb := validateRepoApps_ok X bs repo
        (fun role app hm => h k repo bs role app (List.mem_cons_self _ _) ha hm)
      rcases hv : validateRepoApps X repo bs with ⟨r1, e⟩
      rw [hv] at hb
      simp only at hb
      subst hb
      simp only [hv]
      exact htl

/-- C18: `Forge.Validate` has no false rejection. When every declared application
binding resolves (`SetInternalRelApp` returns no error for it), every deployment has a
non-empty type and its map key as internal name, at most one deployment has type `PRO`,
and the default dev-deploy setting is empty or is the key of a deployment of type `DEV`,
Validate returns nil. -/
theorem Validate_accepts (X : Collaborators) (f : Forge)
    (hres : ∀ k repo bs role app, (k, repo) ∈ f.yaml.ForjCore.Repos.entries →
      repo.Apps = some bs → (role, app) ∈ bs → ∀ r, (X.SetInternalRelApp r role app).2 = none)
    (htype : ∀ k d, (k, d) ∈ f.yaml.Deployments.entries → d.Type_ ≠ "")
    (hname : ∀ k d, (k, d) ∈ f.yaml.Deployments.entries → d.name = k)
    (hone : f.yaml.Deployments.entries.countP (fun e => decide (e.2.Type_ = "PRO")) ≤ 1)
    (hdev : X.getDevDeploy f.yaml.ForjCore.ForjSettings.Default = "" ∨
      ∃ d, (X.getDevDeploy f.yaml.ForjCore.ForjSettings.Default, d) ∈ f.yaml.Deployments.entries
        ∧ d.Type_ = "DEV") :
    (f.Validate X).2 = none := by
  unfold Forge.Validate
  simp only [validateRepos_ok X _ hres]
  rw [validateDeployments_ok _ _ false false htype (by simpa [ProDeployType] using hone)]
  simp only [Bool.false_or]
  rcases hdev with h | ⟨d, hm, hd⟩
  · simp [h]
  · have hany : f.yaml.Deployments.entries.any (fun e =>
        decide (e.2.Type_ = DevDeployType ∧
          X.getDevDeploy f.yaml.ForjCore.ForjSettings.Default = e.2.name)) = true := by
      rw [List.any_eq_true]
      exact ⟨_, hm, by simp [hd, DevDeployType, hname _ d hm]⟩
    rw [hany]
    simp

/-- Witness of C18: deployments `production` (`PRO`) and `staging` (`DEV`), the default
dev-deploy names `staging`, and the only repository binds `upstream` to `git1`. -/
theorem Validate_accepts_witness :
    (((sampleForge (some [("production", sampleDeployment "production" "PRO"),
        ("staging", sampleDeployment "staging" "DEV")])
        (some [("dev-deploy", "staging")])).withRepos
      (some [("infra", sampleRepo "infra" (some [("upstream", "git1")]))])).Validate
        sampleCollaborators).2 = none :=
  Validate_accepts sampleCollaborators _
    (by
      intro k repo bs role app hm ha hb r
      simp only [Forge.withRepos, GoMap.entries, Option.getD_some, List.mem_singleton,
        Prod.mk.injEq] at hm
      rw [hm.2] at ha
      simp only [sampleRepo, Option.some.injEq] at ha
      rw [← ha] at hb
      simp only [List.mem_singleton, Prod.mk.injEq] at hb
      rw [hb.2]
      rfl)
    (by
      intro k d hm
      simp only [Forge.withRepos, sampleForge, GoMap.entries, Option.getD_some, List.mem_cons,
        Prod.mk.injEq, List.mem_singleton, List.not_mem_nil, or_false] at hm
      rcases hm with h | h <;> rw [h.2] <;> decide)
    (by
      intro k d hm
      simp only [Forge.withRepos, sampleForge, GoMap.entries, Option.getD_some, List.mem_cons,
        Prod.mk.injEq, List.mem_singleton, List.not_mem_nil, or_false] at hm
      rcases hm with h | h <;> rw [h.1, h.2] <;> rfl)
    (by decide)
    (Or.inr ⟨sampleDeployment "staging" "DEV", by decide, rfl⟩)

/-! ## Claims on application bindings -/

theorem Mentions_mid (a s b : String) : Mentions (a ++ s ++ b) s :=
  ⟨a.data, b.data, by simp [String.data_append]⟩

/-- The text of the error that Validate builds for a binding that does not resolve. -/
theorem invalid_reference_mentions (name role app err : String) :
    Mentions ("Repo '" ++ name ++ "' has an invalid Application reference '" ++ role ++ ": "
      ++ app ++ "'. " ++ err) name ∧
    Mentions ("Repo '" ++ name ++ "' has an invalid Application reference '" ++ role ++ ": "
      ++ app ++ "'. " ++ err) app := by
  constructor
  · have h := Mentions_mid "Repo '" name
      ("' has an invalid Application reference '" ++ role ++ ": " ++ app ++ "'. " ++ err)
    simpa only [String.append_assoc] using h
  · have h := Mentions_mid
      ("Repo '" ++ name ++ "' has an invalid Application reference '" ++ role ++ ": ") app
      ("'. " ++ err)
    simpa only [String.append_assoc] using h

/-- An error of the loop over the bindings of a repository reports a binding of that
repository for which `SetInternalRelApp` returned an error, and a binding that resolves
in no state makes the loop return an error. -/
theorem validateRepoApps_error (X : Collaborators)
    (hname : ∀ r role app,
      X.RepoGetString (X.SetInternalRelApp r role app).1 "name" = X.RepoGetString r "name") :
    ∀ (bs : List (String × String)) (repo : RepoStruct),
      (∀ e, (validateRepoApps X repo bs).2 = some e →
        ∃ role app r, (role, app) ∈ bs ∧ (X.SetInternalRelApp r role app).2 ≠ none ∧
          Mentions e (X.RepoGetString repo "name") ∧ Mentions e app) ∧
      ((∃ role app, (role, app) ∈ bs ∧ ∀ r, (X.SetInternalRelApp r role app).2 ≠ none) →
        (validateRepoApps X repo bs).2 ≠ none) := by
  intro bs
  induction bs with
  | nil =>
    intro repo
    simp [validateRepoApps]
  | cons hd tl ih =>
    intro repo
    obtain ⟨role, app⟩ := hd
    have hn := hname repo role app
    unfold validateRepoApps
    rcases hs : X.SetInternalRelApp repo role app with ⟨r1, err⟩
    rw [hs] at hn
    simp only at hn
    cases err with
    | some e0 =>
      constructor
      · intro e he
        simp only [Option.some.injEq] at he
        subst he
        refine ⟨role, app, repo, List.mem_cons_self _ _, by simp [hs], ?_⟩
        rw [hn]
        exact invalid_reference_mentions _ _ _ _
      · intro _; simp
    | none =>
      obtain ⟨ih1, ih2⟩ := ih r1
      constructor
      · intro e he
        obtain ⟨role1, app1, r, hm, hf, hm1, hm2⟩ := ih1 e he
        exact ⟨role1, app1, r, List.mem_cons_of_mem _ hm, hf, hn ▸ hm1, hm2⟩
      · rintro ⟨role1, app1, hm, hf⟩
        rcases List.mem_cons.mp hm with heq | hin
        · cases heq
          exact absurd (by rw [hs]) (hf repo)
        · exact ih2 ⟨role1, app1, hin, hf⟩

theorem validateRepos_error (X : Collaborators)
    (hname : ∀ r role app,
      X.RepoGetString (X.SetInternalRelApp r role app).1 "name" = X.RepoGetString r "name") :
    ∀ (l : List (String × RepoStruct)),
      (∀ e, (validateRepos X l).2 = some e →
        ∃ k repo bs role app r, (k, repo) ∈ l ∧ repo.Apps = some bs ∧ (role, app) ∈ bs ∧
          (X.SetInternalRelApp r role app).2 ≠ none ∧
          Mentions e (X.RepoGetString repo "name") ∧ Mentions e app) ∧
      ((∃ k repo bs role app, (k, repo) ∈ l ∧ repo.Apps = some bs ∧ (role, app) ∈ bs ∧
          ∀ r, (X.SetInternalRelApp r role app).2 ≠ none) →
        (validateRepos X l).2 ≠ none) := by
  intro l
  induction l with
  | nil => simp [validateRepos]
  | cons hd tl ih =>
    obtain ⟨k, repo⟩ := hd
    obtain ⟨ih1, ih2⟩ := ih
    unfold validateRepos
    cases ha : repo.Apps with
    | none =>
      simp only
      constructor
      · intro e he
        obtain ⟨k1, repo1, bs, role, app, r, hm, hrest⟩ := ih1 e he
        exact ⟨k1, repo1, bs, role, app, r, List.mem_cons_of_mem _ hm, hrest⟩
      · rintro ⟨k1, repo1, bs, role, app, hm, ha1, hb, hf⟩
        rcases List.mem_cons.mp hm with heq | hin
        · cases heq
          rw [ha] at ha1
          exact Option.noConfusion ha1
        · exact ih2 ⟨k1, repo1, bs, role, app, hin, ha1, hb, hf⟩
    | some bs =>
      obtain ⟨hb1, hb2⟩ := validateRepoApps_error X hname bs repo
      rcases hv : validateRepoApps X repo bs with ⟨r1, err⟩
      rw [hv] at hb1 hb2
      simp only [hv]
      cases err with
      | some e0 =>
        constructor
        · intro e he
          obtain ⟨role, app, r, hm, hrest⟩ := hb1 e he
          exact ⟨k, repo, bs, role, app, r, List.mem_cons_self _ _, ha, hm, hrest⟩
        · intro _; simp
      | none =>
        constructor
        · intro e he
          obtain ⟨k1, repo1, bs1, role, app, r, hm, hrest⟩ := ih1 e he
          exact ⟨k1, repo1, bs1, role, app, r, List.mem_cons_of_mem _ hm, hrest⟩
        · rintro ⟨k1, repo1, bs1, role, app, hm, ha1, hb, hf⟩
          rcases List.mem_cons.mp hm with heq | hin
          · cases heq
            rw [ha] at ha1
            cases ha1
            exact absurd rfl (hb2 ⟨role, app, hb, hf⟩)
          · exact ih2 ⟨k1, repo1, bs1, role, app, hin, ha1, hb, hf⟩

/-- C11 as stated fails: repositories `alpha` and `beta` each declare a binding to an
application that is not declared. The binding `ci: jenkins2` of `beta` does not resolve,
and Validate returns the error of the binding of `alpha`, which it meets first: its text
contains neither `beta` nor `jenkins2`. -/
theorem Validate_reports_first_binding_only :
    ((appsCollaborators []).SetInternalRelApp (sampleRepo "beta" (some [("ci", "jenkins2")]))
      "ci" "jenkins2").2 ≠ none ∧
    (((sampleForge none none).withRepos
        (some [("alpha", sampleRepo "alpha" (some [("upstream", "git1")])),
          ("beta", sampleRepo "beta" (some [("ci", "jenkins2")]))])).Validate
      (appsCollaborators [])).2 =
      some ("Repo 'alpha' has an invalid Application reference 'upstream: git1'. " ++
        "Application 'git1' not found") ∧
    ¬ Mentions ("Repo 'alpha' has an invalid Application reference 'upstream: git1'. " ++
        "Application 'git1' not found") "beta" ∧
    ¬ Mentions ("Repo 'alpha' has an invalid Application reference 'upstream: git1'. " ++
        "Application 'git1' not found") "jenkins2" := by
  set_option maxRecDepth 8000 in decide

/-! ## Claims on the tree: what Validate writes, initialisation -/

theorem validateRepoApps_pure (X : Collaborators)
    (hpure : ∀ r role app, (X.SetInternalRelApp r role app).1 = r) :
    ∀ (bs : List (String × String)) (repo : RepoStruct),
      (validateRepoApps X repo bs).1 = repo := by
  intro bs
  induction bs with
  | nil => intro repo; rfl
  | cons hd tl ih =>
    intro repo
    obtain ⟨role, app⟩ := hd
    have h := hpure repo role app
    unfold validateRepoApps
    rcases hs : X.SetInternalRelApp repo role app with ⟨r1, err⟩
    rw [hs] at h
    simp only at h
    subst h
    cases err with
    | some e => rfl
    | none => exact ih r1

theorem validateRepos_pure (X : Collaborators)
    (hpure : ∀ r role app, (X.SetInternalRelApp r role app).1 = r) :
    ∀ (l : List (String × RepoStruct)), (validateRepos X l).1 = l := by
  intro l
  induction l with
  | nil => rfl
  | cons hd tl ih =>
    obtain ⟨k, repo⟩ := hd
    unfold validateRepos
    cases ha : repo.Apps with
    | none => simp [ih]
    | some bs =>
      have h := validateRepoApps_pure X hpure bs repo
      rcases hv : validateRepoApps X repo bs with ⟨r1, err⟩
      rw [hv] at h
      simp only at h
      subst h
      simp only [hv]
      cases err with
      | some e => rfl
      | none => simp [ih]

/-- The forge that Validate leaves is the forge it received with the repositories as the
first loop left them. -/
theorem Validate_forge (X : Collaborators) (f : Forge) :
    (f.Validate X).1 =
      f.withRepos (f.yaml.ForjCore.Repos.map
        (fun _ => (validateRepos X f.yaml.ForjCore.Repos.entries).1)) := by
  unfold Forge.Validate Forge.withRepos
  cases hr : (validateRepos X f.yaml.ForjCore.Repos.entries).2 with
  | some e => simp [hr]
  | none =>
    simp only [hr]
    split
    · rfl
    · split <;> rfl

/-- The statements of Validate assign nothing: the forge afterwards is the forge before
but for the repositories handed to `SetInternalRelApp`, and it is the forge before when
that method leaves the repository it receives as it is. -/
theorem Validate_frame (X : Collaborators) (f : Forge) :
    (f.Validate X).1 = f.withRepos (f.Validate X).1.yaml.ForjCore.Repos ∧
    ((∀ r role app, (X.SetInternalRelApp r role app).1 = r) → (f.Validate X).1 = f) := by
  constructor
  · rw [Validate_forge]; rfl
  · intro hpure
    rw [Validate_forge, validateRepos_pure X hpure]
    rcases f with ⟨a, b, c, d, e, g, h, ⟨u, deps, ⟨st, inf, repos, apps, us, gs, mo⟩⟩, im⟩
    cases repos <;> simp [Forge.withRepos, GoMap.entries]

/-- C14: on a tree whose `Infra` object is present, `ForgeYaml.Init` returns with the
seven mappings `Groups`, `Users`, `More`, `Infra.More`, `Repos`, `Apps` and `Deployments`
non-nil; each holds exactly the entries it held before (none, if it was nil), nothing
else in the tree changes, and a second call changes nothing. -/
theorem Init_initialises_mappings (f : ForgeYaml) (infra : RepoStruct)
    (h : f.ForjCore.Infra = some infra) :
    ∃ g infra1, f.Init = some g ∧ g.ForjCore.Infra = some infra1 ∧
      g.ForjCore.Groups = some f.ForjCore.Groups.entries ∧
      g.ForjCore.Users = some f.ForjCore.Users.entries ∧
      g.ForjCore.More = some f.ForjCore.More.entries ∧
      infra1.More = some infra.More.entries ∧
      g.ForjCore.Repos = some f.ForjCore.Repos.entries ∧
      g.ForjCore.Apps = some f.ForjCore.Apps.entries ∧
      g.Deployments = some f.Deployments.entries ∧
      g.updated = f.updated ∧ g.ForjCore.ForjSettings = f.ForjCore.ForjSettings ∧
      infra1 = { infra with More := infra1.More } ∧
      g.Init = some g := by
  have hinit : ∀ {V : Type} (m : GoMap V), m.init = some m.entries := by
    intro V m; cases m <;> rfl
  have hidem : ∀ {V : Type} (m : GoMap V), m.init.init = m.init := by
    intro V m; cases m <;> rfl
  simp only [ForgeYaml.Init, h]
  refine ⟨_, _, rfl, rfl, hinit _, hinit _, hinit _, hinit _, hinit _, hinit _, hinit _,
    rfl, rfl, rfl, ?_⟩
  simp [hidem]

/-- Witness of C14: a tree with an `Infra` object and nil mappings. -/
theorem Init_initialises_mappings_witness :
    ∃ g infra1, sampleTreeWithInfra.Init = some g ∧
      g.ForjCore.Infra = some infra1 ∧
      g.ForjCore.Groups = some [] ∧ g.ForjCore.Users = some [] ∧ g.ForjCore.More = some [] ∧
      infra1.More = some [] ∧ g.ForjCore.Repos = some [] ∧ g.ForjCore.Apps = some [] ∧
      g.Deployments = some [] ∧ g.Init = some g := by
  obtain ⟨g, infra1, h1, h2, h3, h4, h5, h6, h7, h8, h9, _, _, _, h13⟩ :=
    Init_initialises_mappings sampleTreeWithInfra (sampleRepo "infra" none) rfl
  exact ⟨g, infra1, h1, h2, h3, h4, h5, h6, h7, h8, h9, h13⟩

/-! ## Claims on settings -/

/-- In the default settings, `dev-deploy` is found exactly when the `More` bag holds an
entry under that key. -/
theorem Get_devDeploy_found (s : ForjSettingsStruct) :
    (s.Get "default" "dev-deploy").2 = false ↔ s.Default.More.get? "dev-deploy" = none := by
  unfold ForjSettingsStruct.Get DefaultSettingsStruct.Get
  rw [if_pos rfl, if_neg (by decide), if_neg (by decide)]
  cases s.Default.More.get? "dev-deploy" <;> simp

/-- C20 as stated fails: with the instance `default`, `ForjSettingsStruct.Get` hands the
key `organization` over to the default settings, where it is not a known field. The
organization is `acme`, and the lookup returns the empty value, not found. -/
theorem Get_organization_on_default :
    ({ is_template := false, forge := true, Organization := "acme",
        Default := { forge := true, UpstreamInstance := "", Flow := "", More := none },
        More := none } : ForjSettingsStruct).Get "default" "organization" = ("", false) := by
  decide

/-- C20, amended: on an instance other than `default`, `ForjSettingsStruct.Get` returns
for `organization` the known field, found iff it is not empty, whatever the `More` bag
holds, and for every other key the entry of the `More` bag and its presence; on the
instance `default` it is `DefaultSettingsStruct.Get`, which returns for
`upstream-instance` and `flow` the known field, found iff it is not empty, whatever its
`More` bag holds, and for every other key the entry of its `More` bag and its
presence. -/
theorem Get_known_fields_first (s : ForjSettingsStruct) (d : DefaultSettingsStruct) :
    (∀ inst, inst ≠ "default" →
      s.Get inst "organization" = (s.Organization, s.Organization != "") ∧
      ∀ key, key ≠ "organization" → s.Get inst key = moreEntry s.More key) ∧
    (∀ key, s.Get "default" key = s.Default.Get key) ∧
    d.Get "upstream-instance" = (d.UpstreamInstance, d.UpstreamInstance != "") ∧
    d.Get "flow" = (d.Flow, d.Flow != "") ∧
    (∀ key, key ≠ "upstream-instance" → key ≠ "flow" → d.Get key = moreEntry d.More key) := by
  refine ⟨fun inst hi => ⟨by simp [ForjSettingsStruct.Get, hi], fun key hk => ?_⟩,
    fun key => by simp [ForjSettingsStruct.Get], by simp [DefaultSettingsStruct.Get],
    by simp [DefaultSettingsStruct.Get], fun key h1 h2 => ?_⟩
  · simp only [ForjSettingsStruct.Get, hi, hk, if_false, moreEntry]
  · simp only [DefaultSettingsStruct.Get, h1, h2, if_false, moreEntry]

/-- Witness of C20 (amended): the organization is `acme` and the `More` bag holds an
entry `organization` too; on the instance `infra` the known field wins. -/
theorem Get_known_fields_first_witness :
    ({ is_template := false, forge := true, Organization := "acme",
        Default := { forge := true, UpstreamInstance := "", Flow := "", More := none },
        More := some [("organization", "other")] } : ForjSettingsStruct).Get "infra"
      "organization" = ("acme", true) :=
  ((Get_known_fields_first _
    { forge := true, UpstreamInstance := "", Flow := "", More := none }).1 "infra"
    (by decide)).1

/-! ## Claims on the dirty flag -/

/-- A `Set` of the default settings leaves the back-pointer alone and reports a call of
`dirty()` whenever it changes the settings. -/
theorem DefaultSet_marks (d : DefaultSettingsStruct) (key value : String) :
    (d.Set key value).1.forge = d.forge ∧
    ((d.Set key value).1 ≠ d → (d.Set key value).2 = true) := by
  unfold DefaultSettingsStruct.Set
  by_cases h1 : key = "upstream-instance"
  · simp [h1]
  · by_cases h2 : key = "flow"
    · simp [h2]
    · simp only [h1, h2, if_false]
      cases d.More.get? key with
      | none => simp
      | some v => by_cases hv : v = value <;> simp [hv]

theorem SettingsSet_marks (s : ForjSettingsStruct) (inst key value : String) :
    (s.Set inst key value).1.forge = s.forge ∧
    (s.Set inst key value).1.Default.forge = s.Default.forge ∧
    ((s.Set inst key value).1 ≠ s → (s.Set inst key value).2 = true) := by
  unfold ForjSettingsStruct.Set
  by_cases h0 : inst = "default"
  · have hd := DefaultSet_marks s.Default key value
    simp only [h0, if_true]
    refine ⟨trivial, hd.1, fun hne => hd.2 (fun heq => hne ?_)⟩
    rw [heq]
  · by_cases h1 : key = "organization"
    · simp [h0, h1]
    · simp only [h0, h1, if_false]
      cases s.More.get? key with
      | none => simp
      | some v => by_cases hv : v = value <;> simp [hv]

theorem dirty_fields (y : ForgeYaml) (called ptr : Bool) :
    (y.dirty called ptr).ForjCore = y.ForjCore ∧
    (y.dirty called ptr).updated = (y.updated || (called && ptr)) := by
  unfold ForgeYaml.dirty
  by_cases h : (called && ptr) = true
  · simp [h]
  · simp only [h, if_false]
    simp only [Bool.not_eq_true] at h
    simp [h]

/-- What one call does to the settings and to the dirty flag of a tree whose settings are
owned. -/
theorem call_fields (y : ForgeYaml) (c : SettingsCall) (hown : y.settingsOwned) :
    ∃ r : ForjSettingsStruct × Bool,
      (y.call c).ForjCore.ForjSettings = r.1 ∧ (y.call c).updated = (y.updated || r.2) ∧
      r.1.forge = true ∧ r.1.Default.forge = true ∧
      (r.1 ≠ y.ForjCore.ForjSettings → r.2 = true) := by
  obtain ⟨ho1, ho2⟩ := hown
  cases c with
  | set inst key value =>
    obtain ⟨h1, h2, h3⟩ := SettingsSet_marks y.ForjCore.ForjSettings inst key value
    have hptr : (if inst = "default" then y.ForjCore.ForjSettings.Default.forge
        else y.ForjCore.ForjSettings.forge) = true := by
      split <;> assumption
    refine ⟨y.ForjCore.ForjSettings.Set inst key value, ?_, ?_, by rw [h1, ho1],
      by rw [h2, ho2], h3⟩
    · simp only [ForgeYaml.call, ForgeYaml.SettingsSet, (dirty_fields _ _ _).1]
    · simp only [ForgeYaml.call, ForgeYaml.SettingsSet, (dirty_fields _ _ _).2, hptr,
        Bool.and_true]
  | defaultSet key value =>
    obtain ⟨h1, h3⟩ := DefaultSet_marks y.ForjCore.ForjSettings.Default key value
    refine ⟨({ y.ForjCore.ForjSettings with
        Default := (y.ForjCore.ForjSettings.Default.Set key value).1 },
        (y.ForjCore.ForjSettings.Default.Set key value).2), ?_, ?_, ho1, by rw [h1, ho2], ?_⟩
    · simp only [ForgeYaml.call, ForgeYaml.DefaultSet, (dirty_fields _ _ _).1]
    · simp only [ForgeYaml.call, ForgeYaml.DefaultSet, (dirty_fields _ _ _).2, ho2,
        Bool.and_true]
    · intro hne
      apply h3
      intro heq
      apply hne
      simp only [heq]

/-- One call on a tree whose settings are owned keeps them owned, never clears the dirty
flag, and sets it when it changes the settings. -/
theorem call_marks (y : ForgeYaml) (c : SettingsCall) (hown : y.settingsOwned) :
    (y.call c).settingsOwned ∧ (y.updated = true → (y.call c).updated = true) ∧
    ((y.call c).ForjCore.ForjSettings ≠ y.ForjCore.ForjSettings → (y.call c).updated = true) := by
  obtain ⟨r, hs, hu, hf1, hf2, hch⟩ := call_fields y c hown
  refine ⟨⟨by rw [hs]; exact hf1, by rw [hs]; exact hf2⟩, fun h => by rw [hu, h]; rfl,
    fun hne => ?_⟩
  rw [hs] at hne
  rw [hu, hch hne]
  simp

theorem calls_mark : ∀ (cs : List SettingsCall) (y : ForgeYaml), y.settingsOwned →
    (y.calls cs).settingsOwned ∧ (y.updated = true → (y.calls cs).updated = true) ∧
    ((y.calls cs).ForjCore.ForjSettings ≠ y.ForjCore.ForjSettings →
      (y.calls cs).updated = true) := by
  intro cs
  induction cs with
  | nil => intro y hown; exact ⟨hown, fun h => h, fun h => absurd rfl h⟩
  | cons c rest ih =>
    intro y hown
    obtain ⟨c1, c2, c3⟩ := call_marks y c hown
    obtain ⟨r1, r2, r3⟩ := ih (y.call c) c1
    have hstep : y.calls (c :: rest) = (y.call c).calls rest := rfl
    rw [hstep]
    refine ⟨r1, fun hu => r2 (c2 hu), fun hne => ?_⟩
    by_cases hc : (y.call c).ForjCore.ForjSettings = y.ForjCore.ForjSettings
    · exact r3 (fun heq => hne (heq.trans hc))
    · exact r2 (c3 hc)

/-- What `Forge.Init` does to the dirty flag and to the settings when
`DeployForgeYaml.Init` returns true and leaves both alone. -/
theorem Init_fields (X : Collaborators) (g : Forge)
    (hinit : ∀ y, (X.coreInit y).2 = true ∧ (X.coreInit y).1.updated = y.updated ∧
      (X.coreInit y).1.ForjCore.ForjSettings = y.ForjCore.ForjSettings) :
    (g.Init X).2 = true ∧ (g.Init X).1.yaml.updated = g.yaml.updated ∧
    (g.Init X).1.yaml.ForjCore.ForjSettings = g.yaml.ForjCore.ForjSettings := by
  unfold Forge.Init
  cases g.yaml.Deployments with
  | none => exact ⟨(hinit _).1, (hinit _).2.1, (hinit _).2.2⟩
  | some l => exact ⟨(hinit _).1, (hinit _).2.1, (hinit _).2.2⟩

theorem IsDirty_eq (X : Collaborators) (g : Forge)
    (hinit : ∀ y, (X.coreInit y).2 = true ∧ (X.coreInit y).1.updated = y.updated ∧
      (X.coreInit y).1.ForjCore.ForjSettings = y.ForjCore.ForjSettings) :
    (g.IsDirty X).2 = g.yaml.updated := by
  obtain ⟨h1, h2, _⟩ := Init_fields X g hinit
  unfold Forge.IsDirty
  rcases hi : g.Init X with ⟨g1, ok⟩
  rw [hi] at h1 h2
  simp only at h1 h2
  subst h1
  exact h2

theorem Saved_updated (X : Collaborators) (f : Forge)
    (hinit : ∀ y, (X.coreInit y).2 = true ∧ (X.coreInit y).1.updated = y.updated ∧
      (X.coreInit y).1.ForjCore.ForjSettings = y.ForjCore.ForjSettings) :
    (f.Saved X).yaml.updated = false := by
  obtain ⟨h1, _, _⟩ := Init_fields X f hinit
  unfold Forge.Saved
  rcases hi : f.Init X with ⟨f1, ok⟩
  rw [hi] at h1
  simp only at h1
  subst h1
  rfl

/-- C16: the dirty-flag contract of the settings. `DeployForgeYaml.Init`, which
`Forge.Init` calls and which is not part of the sources at hand, is taken to return
true and to leave the dirty flag and the settings alone. For a forge whose settings have
their back-pointers set, `IsDirty` is false after `Saved`; and after any sequence of calls
of `ForjSettingsStruct.Set` and `DefaultSettingsStruct.Set` that follows, if the settings
differ from what they were at the time of `Saved`, `IsDirty` is true. -/
theorem dirty_contract (X : Collaborators) (f : Forge) (cs : List SettingsCall)
    (hinit : ∀ y, (X.coreInit y).2 = true ∧ (X.coreInit y).1.updated = y.updated ∧
      (X.coreInit y).1.ForjCore.ForjSettings = y.ForjCore.ForjSettings)
    (hown : (f.Saved X).yaml.settingsOwned) :
    ((f.Saved X).IsDirty X).2 = false ∧
    (((f.Saved X).yaml.calls cs).ForjCore.ForjSettings ≠ (f.Saved X).yaml.ForjCore.ForjSettings →
      (Forge.IsDirty X { f.Saved X with yaml := (f.Saved X).yaml.calls cs }).2 = true) := by
  constructor
  · rw [IsDirty_eq X _ hinit]
    exact Saved_updated X f hinit
  · intro hne
    rw [IsDirty_eq X _ hinit]
    exact (calls_mark cs _ hown).2.2 hne

/-- Witness of C16: after `Saved`, the organization is set, then the default flow, then
an unknown key. -/
theorem dirty_contract_witness :
    (((sampleForge none none).Saved sampleCollaborators).IsDirty sampleCollaborators).2 = false ∧
    (Forge.IsDirty sampleCollaborators
      { (sampleForge none none).Saved sampleCollaborators with
        yaml := ((sampleForge none none).Saved sampleCollaborators).yaml.calls
          [.set "" "organization" "acme", .defaultSet "flow" "default",
            .set "" "unknown" "x"] }).2 = true :=
  ⟨(dirty_contract sampleCollaborators (sampleForge none none) [] (fun _ => ⟨rfl, rfl, rfl⟩)
      ⟨rfl, rfl⟩).1,
   (dirty_contract sampleCollaborators (sampleForge none none)
      [.set "" "organization" "acme", .defaultSet "flow" "default", .set "" "unknown" "x"]
      (fun _ => ⟨rfl, rfl, rfl⟩) ⟨rfl, rfl⟩).2 (by decide)⟩

/-! ## Claims on declared flows -/

theorem setKey_keys {V : Type} (k : String) (v : V) :
    ∀ l : List (String × V),
      (∀ n, n ∈ (setKey k v l).map Prod.fst ↔ n = k ∨ n ∈ l.map Prod.fst) ∧
      ((l.map Prod.fst).Nodup → ((setKey k v l).map Prod.fst).Nodup) := by
  intro l
  induction l with
  | nil => simp [setKey]
  | cons hd tl ih =>
    obtain ⟨k0, v0⟩ := hd
    obtain ⟨ih1, ih2⟩ := ih
    by_cases hk : k0 = k
    · subst hk
      simp [setKey]
    · simp only [setKey, hk, if_false, List.map_cons, List.mem_cons, List.nodup_cons]
      constructor
      · intro n
        rw [ih1]
        tauto
      · rintro ⟨hnot, hnd⟩
        refine ⟨?_, ih2 hnd⟩
        rw [ih1]
        rintro (h | h)
        · exact hk h
        · exact hnot h

theorem declareRepoFlows_keys :
    ∀ (l : List (String × RepoStruct)) (flows : List (String × Bool)),
      (∀ n, n ∈ (declareRepoFlows l flows).map Prod.fst ↔
        n ∈ flows.map Prod.fst ∨ (n ≠ "" ∧ ∃ k repo, (k, repo) ∈ l ∧ repo.Flow = n)) ∧
      ((flows.map Prod.fst).Nodup → ((declareRepoFlows l flows).map Prod.fst).Nodup) := by
  intro l
  induction l with
  | nil => intro flows; simp [declareRepoFlows]
  | cons hd tl ih =>
    intro flows
    obtain ⟨k0, repo0⟩ := hd
    unfold declareRepoFlows
    by_cases hf : repo0.Flow = ""
    · obtain ⟨ih1, ih2⟩ := ih flows
      simp only [hf, ne_eq, not_true_eq_false, if_false]
      refine ⟨fun n => ?_, ih2⟩
      rw [ih1]
      constructor
      · rintro (h | ⟨hn, k, repo, hm, hr⟩)
        · exact Or.inl h
        · exact Or.inr ⟨hn, k, repo, List.mem_cons_of_mem _ hm, hr⟩
      · rintro (h | ⟨hn, k, repo, hm, hr⟩)
        · exact Or.inl h
        · rcases List.mem_cons.mp hm with heq | hin
          · cases heq
            exact absurd (hr ▸ hf) hn
          · exact Or.inr ⟨hn, k, repo, hin, hr⟩
    · obtain ⟨ih1, ih2⟩ := ih (setKey repo0.Flow true flows)
      obtain ⟨s1, s2⟩ := setKey_keys repo0.Flow true flows
      simp only [ne_eq, hf, not_false_eq_true, if_true]
      refine ⟨fun n => ?_, fun hnd => ih2 (s2 hnd)⟩
      rw [ih1, s1]
      constructor
      · rintro ((h | h) | ⟨hn, k, repo, hm, hr⟩)
        · exact Or.inr ⟨h ▸ hf, k0, repo0, List.mem_cons_self _ _, h.symm⟩
        · exact Or.inl h
        · exact Or.inr ⟨hn, k, repo, List.mem_cons_of_mem _ hm, hr⟩
      · rintro (h | ⟨hn, k, repo, hm, hr⟩)
        · exact Or.inl (Or.inr h)
        · rcases List.mem_cons.mp hm with heq | hin
          · cases heq
            exact Or.inl (Or.inl hr.symm)
          · exact Or.inr ⟨hn, k, repo, hin, hr⟩

/-- The map `flows` before the entry `default` is added: its keys are distinct and are
the flow names referenced. -/
theorem declaredFlowsMap_keys (getFlow : DefaultSettingsStruct → String) (f : Forge) :
    ∃ flows3 : List (String × Bool),
      (∀ n, n ∈ flows3.map Prod.fst ↔ f.ReferencesFlow getFlow n) ∧
      (flows3.map Prod.fst).Nodup ∧
      f.declaredFlowsMap getFlow =
        if flows3.length = 0 then setKey "default" true flows3 else flows3 := by
  obtain ⟨m1, n1⟩ := declareRepoFlows_keys f.yaml.ForjCore.Repos.entries []
  have hn1 := n1 List.nodup_nil
  -- the map after the overlay of the current deployment
  have h2 : ∃ flows2 : List (String × Bool),
      (∀ n, n ∈ flows2.map Prod.fst ↔ (n ≠ "" ∧
        ((∃ k repo, (k, repo) ∈ f.yaml.ForjCore.Repos.entries ∧ repo.Flow = n) ∨
          ∃ deploy details k repo, f.GetADeployment f.GetDeployment = some deploy ∧
            deploy.Details = some details ∧ (k, repo) ∈ details.Repos.entries ∧
            repo.Flow = n))) ∧
      (flows2.map Prod.fst).Nodup ∧
      flows2 = (match f.GetADeployment f.GetDeployment with
        | some deploy =>
          match deploy.Details with
          | some details =>
            declareRepoFlows details.Repos.entries
              (declareRepoFlows f.yaml.ForjCore.Repos.entries [])
          | none => declareRepoFlows f.yaml.ForjCore.Repos.entries []
        | none => declareRepoFlows f.yaml.ForjCore.Repos.entries []) := by
    cases hd : f.GetADeployment f.GetDeployment with
    | none =>
      refine ⟨_, fun n => ?_, hn1, rfl⟩
      rw [m1]
      simp
    | some deploy =>
      cases hdet : deploy.Details with
      | none =>
        refine ⟨_, fun n => ?_, hn1, by simp only [hdet]⟩
        rw [m1]
        simp [hdet]
      | some details =>
        obtain ⟨m2, n2⟩ := declareRepoFlows_keys details.Repos.entries
          (declareRepoFlows f.yaml.ForjCore.Repos.entries [])
        refine ⟨_, fun n => ?_, n2 hn1, by simp only [hdet]⟩
        rw [m2, m1]
        simp only [List.map_nil, List.not_mem_nil, false_or, Option.some.injEq]
        constructor
        · rintro (⟨hn, h⟩ | ⟨hn, k, repo, hm, hr⟩)
          · exact ⟨hn, Or.inl h⟩
          · exact ⟨hn, Or.inr ⟨deploy, details, k, repo, rfl, hdet, hm, hr⟩⟩
        · rintro ⟨hn, h | ⟨deploy1, details1, k, repo, hd1, hdet1, hm, hr⟩⟩
          · exact Or.inl ⟨hn, h⟩
          · subst hd1
            rw [hdet] at hdet1
            cases hdet1
            exact Or.inr ⟨hn, k, repo, hm, hr⟩
  obtain ⟨flows2, hm2, hnd2, hdef2⟩ := h2
  by_cases hflow : getFlow f.yaml.ForjCore.ForjSettings.Default = ""
  · refine ⟨flows2, fun n => ?_, hnd2, ?_⟩
    · rw [hm2]
      unfold Forge.ReferencesFlow
      constructor
      · rintro ⟨hn, h | h⟩
        · exact ⟨hn, Or.inl h⟩
        · exact ⟨hn, Or.inr (Or.inl h)⟩
      · rintro ⟨hn, h | h | h⟩
        · exact ⟨hn, Or.inl h⟩
        · exact ⟨hn, Or.inr h⟩
        · exact absurd (h ▸ hflow) hn
    · unfold Forge.declaredFlowsMap
      simp only [hflow, ne_eq, not_true_eq_false, if_false, ← hdef2]
  · obtain ⟨s1, s2⟩ := setKey_keys (getFlow f.yaml.ForjCore.ForjSettings.Default) true flows2
    refine ⟨setKey (getFlow f.yaml.ForjCore.ForjSettings.Default) true flows2, fun n => ?_,
      s2 hnd2, ?_⟩
    · rw [s1, hm2]
      unfold Forge.ReferencesFlow
      constructor
      · rintro (h | ⟨hn, h | h⟩)
        · exact ⟨h ▸ hflow, Or.inr (Or.inr h.symm)⟩
        · exact ⟨hn, Or.inl h⟩
        · exact ⟨hn, Or.inr (Or.inl h)⟩
      · rintro ⟨hn, h | h | h⟩
        · exact Or.inr ⟨hn, Or.inl h⟩
        · exact Or.inr ⟨hn, Or.inr h⟩
        · exact Or.inl h.symm
    · unfold Forge.declaredFlowsMap
      simp only [hflow, ne_eq, not_false_eq_true, if_true, ← hdef2]

/-- C17: `Forge.GetDeclaredFlows` returns, in whatever order the map is ranged over, a
list without duplicates that is never empty; when a non-empty flow name is referenced
by a master repository, by a repository of the overlay of the current deployment or by
the default flow setting, its elements are exactly these names, and when there is none
the result is exactly `["default"]`. -/
theorem GetDeclaredFlows_spec (getFlow : DefaultSettingsStruct → String) (f : Forge)
    (result : List String) (hperm : result.Perm (f.GetDeclaredFlows getFlow)) :
    result.Nodup ∧ result ≠ [] ∧
    ((∃ n, f.ReferencesFlow getFlow n) → ∀ n, n ∈ result ↔ f.ReferencesFlow getFlow n) ∧
    ((¬ ∃ n, f.ReferencesFlow getFlow n) → result = ["default"]) := by
  obtain ⟨flows3, hmem, hnd, hdef⟩ := declaredFlowsMap_keys getFlow f
  unfold Forge.GetDeclaredFlows at hperm
  rw [hdef] at hperm
  by_cases hlen : flows3.length = 0
  · have hnil : flows3 = [] := List.length_eq_zero.mp hlen
    subst hnil
    simp only [List.length_nil, if_true, setKey, List.map_cons, List.map_nil] at hperm
    have hres : result = ["default"] := List.perm_singleton.mp hperm
    have hnone : ¬ ∃ n, f.ReferencesFlow getFlow n := by
      rintro ⟨n, hn⟩
      have := (hmem n).mpr hn
      simp at this
    subst hres
    exact ⟨List.nodup_singleton _, by simp, fun h => absurd h hnone, fun _ => rfl⟩
  · rw [if_neg hlen] at hperm
    have hsome : ∃ n, f.ReferencesFlow getFlow n := by
      cases flows3 with
      | nil => exact absurd rfl hlen
      | cons hd tl => exact ⟨hd.1, (hmem hd.1).mp (by simp)⟩
    refine ⟨hperm.nodup_iff.mpr hnd, ?_, fun _ n => ?_, fun h => absurd hsome h⟩
    · intro hnil
      rw [hnil] at hperm
      have := hperm.length_eq
      simp only [List.length_nil, List.length_map] at this
      exact hlen this.symm
    · rw [hperm.mem_iff, hmem]

/-- Witness of C17: two repositories use the flow `gitflow`, a third has no flow, and
the default flow setting is empty; the result is `gitflow` alone. Without any reference
the result is `default`. -/
theorem GetDeclaredFlows_spec_witness :
    (((sampleForge none none).withRepos (some [("r1", sampleFlowRepo "r1" "gitflow"),
        ("r2", sampleFlowRepo "r2" ""), ("r3", sampleFlowRepo "r3" "gitflow")])).GetDeclaredFlows
        (fun d => d.Flow) = ["gitflow"]) ∧
    ((sampleForge none none).GetDeclaredFlows (fun d => d.Flow)).Nodup ∧
    (sampleForge none none).GetDeclaredFlows (fun d => d.Flow) = ["default"] :=
  ⟨by decide,
   (GetDeclaredFlows_spec (fun d => d.Flow) (sampleForge none none) _ (List.Perm.refl _)).1,
   (GetDeclaredFlows_spec (fun d => d.Flow) (sampleForge none none) _ (List.Perm.refl _)).2.2.2
     (by
      rintro ⟨n, hn, h | h | h⟩
      · obtain ⟨k, repo, hm, _⟩ := h
        simp [sampleForge, GoMap.entries, sampleCollaborators] at hm
      · obtain ⟨deploy, details, k, repo, hd, _⟩ := h
        simp [Forge.GetADeployment, sampleForge, GoMap.get?, GoMap.entries, lookupKey] at hd
      · exact hn h.symm)⟩

/-! ## The loop over the combinations visits the Cartesian product in odometer order -/

theorem unrank_rank : ∀ (cur max : List Nat), List.Forall₂ (fun c m => c < m) cur max →
    unrankDigits max (rankDigits cur max) = cur := by
  intro cur max h
  induction h with
  | nil => rfl
  | @cons c m cs ms _ hv ih =>
    have hlt := rankDigits_lt cs ms hv
    have hpos : 0 < ms.prod := by omega
    simp only [unrankDigits, rankDigits]
    have hdiv : (c * ms.prod + rankDigits cs ms) / ms.prod = c := by
      rw [Nat.add_comm, Nat.add_mul_div_right _ _ hpos, Nat.div_eq_of_lt hlt, Nat.zero_add]
    have hmod : (c * ms.prod + rankDigits cs ms) % ms.prod = rankDigits cs ms := by
      rw [Nat.add_comm, Nat.add_mul_mod_self_right, Nat.mod_eq_of_lt hlt]
    rw [hdiv, hmod, ih]

theorem unrank_valid : ∀ (max : List Nat) (i : Nat), i < max.prod →
    List.Forall₂ (fun c m => c < m) (unrankDigits max i) max := by
  intro max
  induction max with
  | nil => intro i _; exact List.Forall₂.nil
  | cons m ms ih =>
    intro i hi
    simp only [List.prod_cons] at hi
    have hpos : 0 < ms.prod := by
      rcases Nat.eq_zero_or_pos ms.prod with h | h
      · rw [h] at hi; omega
      · exact h
    exact List.Forall₂.cons ((Nat.div_lt_iff_lt_mul hpos).mpr hi) (ih _ (Nat.mod_lt _ hpos))

/-- The indexes visited from a state that is not at the end are those of the ranks
that follow, in order. -/
theorem loopCurs_eq : ∀ (fuel : Nat) (l : MLoop), l.eol = false →
    List.Forall₂ (fun c m => c < m) l.cur l.max →
    loopCurs fuel l =
      (List.range' (rankDigits l.cur l.max) (min fuel (l.max.prod - rankDigits l.cur l.max))).map
        (unrankDigits l.max) := by
  intro fuel
  induction fuel with
  | zero => intro l _ _; simp [loopCurs]
  | succ n ih =>
    intro l he hv
    have hlt := rankDigits_lt l.cur l.max hv
    obtain ⟨hv1, hf, ht⟩ := incrDigits_spec l.cur l.max hv
    have hmin : min (n + 1) (l.max.prod - rankDigits l.cur l.max) =
        min n (l.max.prod - (rankDigits l.cur l.max + 1)) + 1 := by omega
    simp only [loopCurs, MLoop.Eol, he, Bool.false_eq_true, if_false, MLoop.Cur]
    rw [hmin, List.range'_succ, List.map_cons, unrank_rank _ _ hv]
    congr 1
    cases hr : (incrDigits l.cur l.max).2 with
    | true =>
      have hend := (ht hr).2
      have hz : l.max.prod - (rankDigits l.cur l.max + 1) = 0 := by omega
      have heol : l.Increment.Eol = true := by simp [MLoop.Increment, MLoop.Eol, hr]
      rw [hz, Nat.min_zero, List.range'_zero, List.map_nil]
      cases n <;> simp [loopCurs, heol]
    | false =>
      have hrank := hf hr
      have h1 : l.Increment.eol = false := by simp [MLoop.Increment, he, hr]
      have h2 : l.Increment.max = l.max := rfl
      have h3 : l.Increment.cur = (incrDigits l.cur l.max).1 := rfl
      rw [ih l.Increment h1 (by rw [h2, h3]; exact hv1), h2, h3, hrank]

theorem rankDigits_zeros : ∀ max : List Nat, rankDigits (max.map (fun _ => 0)) max = 0 := by
  intro max
  induction max with
  | nil => rfl
  | cons m ms ih => simp only [List.map_cons, rankDigits, ih, Nat.zero_mul, Nat.add_zero]

/-- From `NewMLoop max`, the loop visits the indexes of rank 0, 1, ... up to the number
of combinations, in this order. -/
theorem loopCurs_NewMLoop (max : List Nat) :
    loopCurs max.prod (NewMLoop max) = (List.range max.prod).map (unrankDigits max) := by
  by_cases h0 : ∃ m ∈ max, m = 0
  · obtain ⟨m, hm, hz⟩ := h0
    have hp : max.prod = 0 := List.prod_eq_zero (hz ▸ hm)
    rw [hp]
    rfl
  · have hpos : ∀ m ∈ max, 0 < m := fun m hm =>
      Nat.pos_of_ne_zero (fun hz => h0 ⟨m, hm, hz⟩)
    have hv : List.Forall₂ (fun c m => c < m) (max.map (fun _ => 0)) max := by
      clear h0
      induction max with
      | nil => exact List.Forall₂.nil
      | cons m ms ih =>
        exact List.Forall₂.cons (hpos m (List.mem_cons_self _ _))
          (ih (fun x hx => hpos x (List.mem_cons_of_mem _ hx)))
    have he : (NewMLoop max).eol = false := by
      simp only [NewMLoop, List.any_eq_false, beq_iff_eq]
      intro m hm hz
      exact h0 ⟨m, hm, hz⟩
    rw [loopCurs_eq max.prod (NewMLoop max) he hv]
    simp only [NewMLoop, rankDigits_zeros, Nat.sub_zero, Nat.min_self]
    rw [List.range_eq_range']

/-- The numbers below `m * p`, in order, are the numbers `c * p + j` with `c` below `m`
and `j` below `p`, the `j` running fastest. -/
theorem range_mul {α : Type} (p : Nat) (g : Nat → α) : ∀ m : Nat,
    (List.range (m * p)).map g =
      (List.range m).flatMap (fun c => (List.range p).map (fun j => g (c * p + j))) := by
  intro m
  induction m with
  | zero => simp
  | succ m ih =>
    rw [Nat.succ_mul, List.range_add, List.map_append, ih, List.range_succ,
      List.flatMap_append]
    simp [List.map_map, Function.comp_def]

theorem flatMap_get {α β : Type} (f : α → List β) : ∀ l : List α,
    l.flatMap f =
      (List.range l.length).flatMap (fun c =>
        match l.get? c with
        | some v => f v
        | none => []) := by
  intro l
  induction l with
  | nil => rfl
  | cons a tl ih =>
    rw [List.length_cons, List.range_succ_eq_map, List.flatMap_cons, List.flatMap_cons,
      List.flatMap_map, ih]
    rfl

/-- The combinations of the spec are the combinations that the indexes of rank 0, 1, ...
select, in this order. -/
theorem combinations_eq {V : Type} : ∀ named : List (String × List V),
    combinations named =
      (List.range (named.map (fun e => e.2.length)).prod).map
        (fun i => bindingAt named (unrankDigits (named.map (fun e => e.2.length)) i)) := by
  intro named
  induction named with
  | nil => rfl
  | cons hd rest ih =>
    obtain ⟨name, list⟩ := hd
    simp only [combinations, List.map_cons, List.prod_cons]
    rw [range_mul, flatMap_get, List.flatMap_def, List.flatMap_def]
    congr 1
    apply List.map_congr_left
    intro c hc
    have hclt : c < list.length := List.mem_range.mp hc
    have hget : list.get? c = some (list.get ⟨c, hclt⟩) := List.get?_eq_get hclt
    rw [hget]
    simp only
    rw [ih, List.map_map]
    apply List.map_congr_left
    intro j hj
    have hjlt : j < (rest.map (fun e => e.2.length)).prod := List.mem_range.mp hj
    have hpos : 0 < (rest.map (fun e => e.2.length)).prod := by omega
    have hdiv : (c * (rest.map (fun e => e.2.length)).prod + j) /
        (rest.map (fun e => e.2.length)).prod = c := by
      rw [Nat.add_comm, Nat.add_mul_div_right _ _ hpos, Nat.div_eq_of_lt hjlt, Nat.zero_add]
    have hmod : (c * (rest.map (fun e => e.2.length)).prod + j) %
        (rest.map (fun e => e.2.length)).prod = j := by
      rw [Nat.add_comm, Nat.add_mul_mod_self_right, Nat.mod_eq_of_lt hjlt]
    simp only [unrankDigits, bindingAt, hdiv, hmod, hget, Function.comp_apply]

/-- The invocations of the loop over the combinations: one per index visited, with the
`List` map bound at that index. -/
theorem applyCombos_invocations {σ R V : Type} (key : String) (t : FlowTaskDef σ R V)
    (named : List (String × List V)) (repo : Option R) :
    ∀ (fuel : Nat) (l : MLoop) (m : List (String × V)) (s : σ),
      (applyCombos key t named repo fuel l m (ApplyState.start s)).calls.map SetCall.invocation
        = (threadBind named (loopCurs fuel l) m).map (fun b => (key, some b)) := by
  intro fuel
  induction fuel with
  | zero => intro l m s; rfl
  | succ n ih =>
    intro l m s
    by_cases he : l.Eol = true
    · simp [applyCombos, loopCurs, he, threadBind, ApplyState.start]
    · simp only [applyCombos, loopCurs, if_neg he, threadBind, List.map_cons]
      rw [applyCombos_after]
      simp only [ApplyState.after, ApplyState.start, List.nil_append, List.map_append,
        List.map_cons, List.map_nil, List.singleton_append, SetCall.invocation]
      congr 1
      exact ih _ _ _

theorem lookupKey_setKey {V : Type} (k n : String) (v : V) : ∀ m : List (String × V),
    lookupKey n (setKey k v m) = if k = n then some v else lookupKey n m := by
  intro m
  induction m with
  | nil => simp [setKey, lookupKey]
  | cons hd tl ih =>
    obtain ⟨k0, v0⟩ := hd
    by_cases hk : k0 = k
    · subst hk
      by_cases hn : k0 = n <;> simp [setKey, lookupKey, hn]
    · by_cases hn : k0 = n
      · subst hn
        simp [setKey, lookupKey, hk, Ne.symm hk]
      · simp only [setKey, hk, if_false, lookupKey, hn, ih]

theorem lookupKey_append {V : Type} (n : String) (b : List (String × V)) :
    ∀ a : List (String × V),
      lookupKey n (a ++ b) =
        match lookupKey n a with
        | some v => some v
        | none => lookupKey n b := by
  intro a
  induction a with
  | nil => rfl
  | cons hd tl ih =>
    obtain ⟨k0, v0⟩ := hd
    by_cases hk : k0 = n
    · simp [lookupKey, hk]
    · rw [List.cons_append]
      simp only [lookupKey, hk, if_false]
      exact ih

/-- After the bindings of one iteration, a name reads as the combination binds it, and a
name that the combination does not bind reads as before. -/
theorem lookupKey_bindCur {V : Type} (n : String) :
    ∀ (named : List (String × List V)) (cur : List Nat) (m : List (String × V)),
      lookupKey n (bindCur named cur m) =
        match lookupKey n (bindingAt named cur).reverse with
        | some v => some v
        | none => lookupKey n m := by
  intro named
  induction named with
  | nil => intro cur m; simp [bindCur, bindingAt, lookupKey]
  | cons hd rest ih =>
    intro cur m
    obtain ⟨name, list⟩ := hd
    cases cur with
    | nil => simp [bindCur, bindingAt, lookupKey]
    | cons pos cur1 =>
      cases hg : list.get? pos with
      | none => simp only [bindCur, bindingAt, hg, ih]
      | some v =>
        simp only [bindCur, bindingAt, hg, ih, List.reverse_cons, lookupKey_append,
          lookupKey_setKey]
        cases lookupKey n (bindingAt rest cur1).reverse with
        | some w => rfl
        | none =>
          by_cases hk : name = n <;> simp [lookupKey, hk]

/-- With indexes in range, the combination selected binds exactly the names of the
lists. -/
theorem bindingAt_keys {V : Type} (n : String) :
    ∀ (named : List (String × List V)) (cur : List Nat),
      List.Forall₂ (fun c m => c < m) cur (named.map (fun e => e.2.length)) →
      (lookupKey n (bindingAt named cur).reverse = none ↔ n ∉ named.map Prod.fst) := by
  intro named
  induction named with
  | nil => intro cur _; simp [bindingAt, lookupKey]
  | cons hd rest ih =>
    intro cur hv
    obtain ⟨name, list⟩ := hd
    cases hv with
    | @cons pos _ cur1 _ hlt hv1 =>
      have hg : list.get? pos = some (list.get ⟨pos, hlt⟩) := List.get?_eq_get hlt
      simp only [bindingAt, hg, List.reverse_cons, lookupKey_append, List.map_cons,
        List.mem_cons, not_or]
      cases hl : lookupKey n (bindingAt rest cur1).reverse with
      | some w =>
        have := (ih cur1 hv1).not.mp (by rw [hl]; simp)
        simp only [this, and_false, iff_false]
        simp
      | none =>
        have := (ih cur1 hv1).mp hl
        by_cases hk : name = n
        · simp [lookupKey, hk]
        · simp [lookupKey, hk, this, Ne.symm hk]

theorem threadBind_binds {V : Type} (named : List (String × List V)) :
    ∀ (curs : List (List Nat)) (m : List (String × V)),
      (∀ cur ∈ curs, List.Forall₂ (fun c x => c < x) cur (named.map (fun e => e.2.length))) →
      (∀ n, n ∉ named.map Prod.fst → lookupKey n m = none) →
      List.Forall₂ Binds (threadBind named curs m) (curs.map (bindingAt named)) := by
  intro curs
  induction curs with
  | nil => intro m _ _; exact List.Forall₂.nil
  | cons cur rest ih =>
    intro m hv hm
    have hcur := hv cur (List.mem_cons_self _ _)
    simp only [threadBind, List.map_cons]
    refine List.Forall₂.cons ?_ (ih _ (fun c hc => hv c (List.mem_cons_of_mem _ hc)) ?_)
    · intro n
      rw [lookupKey_bindCur]
      cases hl : lookupKey n (bindingAt named cur).reverse with
      | some v => rfl
      | none => exact hm n ((bindingAt_keys n named cur hcur).mp hl)
    · intro n hn
      rw [lookupKey_bindCur, (bindingAt_keys n named cur hcur).mpr hn]
      exact hm n hn

theorem invocations_forall₂ {V : Type} (key : String) :
    ∀ (cs : List (SetCall V)) (ms bs : List (List (String × V))),
      cs.map SetCall.invocation = ms.map (fun b => (key, some b)) →
      List.Forall₂ Binds ms bs →
      List.Forall₂ (fun c b => c.task = key ∧ ∃ m, c.List_ = some m ∧ Binds m b) cs bs := by
  intro cs
  induction cs with
  | nil =>
    intro ms bs h hb
    cases ms with
    | nil => cases hb; exact List.Forall₂.nil
    | cons m ms1 => simp at h
  | cons c cs1 ih =>
    intro ms bs h hb
    cases ms with
    | nil => simp at h
    | cons m ms1 =>
      cases hb with
      | @cons _ b _ bs1 hmb hrest =>
        simp only [List.map_cons, List.cons.injEq, SetCall.invocation, Prod.mk.injEq] at h
        exact List.Forall₂.cons ⟨h.1.1, m, h.1.2, hmb⟩ (ih ms1 bs1 h.2 hrest)

theorem combinations_length {V : Type} : ∀ named : List (String × List V),
    (combinations named).length = (named.map (fun e => e.2.length)).prod := by
  intro named
  rw [combinations_eq]
  simp

theorem combinations_keys {V : Type} : ∀ (named : List (String × List V)) (b : List (String × V)),
    b ∈ combinations named → b.map Prod.fst = named.map Prod.fst := by
  intro named
  induction named with
  | nil => intro b hb; simp [combinations] at hb; simp [hb]
  | cons hd rest ih =>
    intro b hb
    obtain ⟨name, list⟩ := hd
    simp only [combinations, List.mem_flatMap, List.mem_map] at hb
    obtain ⟨v, _, c, hc, rfl⟩ := hb
    simp [ih c hc]

/-- With distinct names, a map that binds a combination gives every name of the
combination its element. -/
theorem Binds_distinct {V : Type} (m b : List (String × V)) (hb : Binds m b)
    (hnd : (b.map Prod.fst).Nodup) (n : String) (v : V) (hmem : (n, v) ∈ b) :
    lookupKey n m = some v := by
  rw [hb n]
  exact lookupKey_of_mem n v b.reverse (by rw [List.map_reverse]; exact List.nodup_reverse.mpr hnd)
    (List.mem_reverse.mpr hmem)

theorem forall₂_imp_of_mem {α β : Type} {R S : α → β → Prop} :
    ∀ (l1 : List α) (l2 : List β), (∀ a b, b ∈ l2 → R a b → S a b) →
      List.Forall₂ R l1 l2 → List.Forall₂ S l1 l2 := by
  intro l1 l2 himp h
  induction h with
  | nil => exact List.Forall₂.nil
  | @cons a b l1 l2 hab _ ih =>
    exact List.Forall₂.cons (himp a b (List.mem_cons_self _ _) hab)
      (ih (fun a b hb => himp a b (List.mem_cons_of_mem _ hb)))

/-- The body of the task loop, for a task with lists whose conditions hold: the calls it
adds correspond one to one, in order, to the combinations of the lists. -/
theorem applyTask_combinations {σ R V : Type} (key : String) (t : FlowTaskDef σ R V)
    (repo : Option R) (st : ApplyState σ V) (s1 : σ) (lists : List (FlowTaskList σ R V))
    (hif : t.if_section repo st.forj = ((true, none), s1)) (hl : t.List_ = some lists) :
    (applyTask key t repo st).bInError = st.bInError ∧
    ∃ newCalls, (applyTask key t repo st).calls = st.calls ++ newCalls ∧
      List.Forall₂ (fun c b => c.task = key ∧ ∃ m, c.List_ = some m ∧ Binds m b)
        newCalls (combinations (loadLists lists repo s1).1) ∧
      (((loadLists lists repo s1).1.map Prod.fst).Nodup →
        List.Forall₂ (fun c b => ∃ m, c.List_ = some m ∧ ∀ n v, (n, v) ∈ b → lookupKey n m = some v)
          newCalls (combinations (loadLists lists repo s1).1)) ∧
      newCalls.length = ((loadLists lists repo s1).1.map (fun e => e.2.length)).prod ∧
      ((∃ e ∈ (loadLists lists repo s1).1, e.2 = []) → newCalls = []) := by
  have hrun : applyTask key t repo st =
      ApplyState.after (ApplyState.mk (loadLists lists repo s1).2 st.bInError st.calls)
        (applyCombos key t (loadLists lists repo s1).1 repo
          ((loadLists lists repo s1).1.map (fun e => e.2.length)).prod
          (NewMLoop ((loadLists lists repo s1).1.map (fun e => e.2.length))) []
          (ApplyState.start (loadLists lists repo s1).2)) := by
    unfold applyTask
    simp only [hif, hl, Bool.true_eq_false, if_false]
    rw [applyCombos_after]
  obtain ⟨hb, _⟩ := applyCombos_calls_task key t (loadLists lists repo s1).1 repo
    ((loadLists lists repo s1).1.map (fun e => e.2.length)).prod
    (NewMLoop ((loadLists lists repo s1).1.map (fun e => e.2.length))) []
    (loadLists lists repo s1).2
  have hinv := applyCombos_invocations key t (loadLists lists repo s1).1 repo
    ((loadLists lists repo s1).1.map (fun e => e.2.length)).prod
    (NewMLoop ((loadLists lists repo s1).1.map (fun e => e.2.length))) []
    (loadLists lists repo s1).2
  rw [loopCurs_NewMLoop] at hinv
  have hbinds := threadBind_binds (loadLists lists repo s1).1
    ((List.range ((loadLists lists repo s1).1.map (fun e => e.2.length)).prod).map
      (unrankDigits ((loadLists lists repo s1).1.map (fun e => e.2.length)))) []
    (by
      intro cur hc
      obtain ⟨i, hi, rfl⟩ := List.mem_map.mp hc
      exact unrank_valid _ i (List.mem_range.mp hi))
    (fun n _ => rfl)
  rw [List.map_map] at hbinds
  have hcomb := combinations_eq (loadLists lists repo s1).1
  have hforall := invocations_forall₂ key _ _ (combinations (loadLists lists repo s1).1) hinv
    (by rw [hcomb]; exact hbinds)
  have hlen : (applyCombos key t (loadLists lists repo s1).1 repo
      ((loadLists lists repo s1).1.map (fun e => e.2.length)).prod
      (NewMLoop ((loadLists lists repo s1).1.map (fun e => e.2.length))) []
      (ApplyState.start (loadLists lists repo s1).2)).calls.length =
        ((loadLists lists repo s1).1.map (fun e => e.2.length)).prod := by
    rw [hforall.length_eq, combinations_length]
  refine ⟨by rw [hrun]; simp [ApplyState.after, hb], _, by rw [hrun]; rfl, hforall, ?_, hlen, ?_⟩
  · intro hnd
    refine forall₂_imp_of_mem _ _ ?_ hforall
    rintro c b hmem ⟨_, m, hm, hbind⟩
    refine ⟨m, hm, fun n v hnv => Binds_distinct m b hbind ?_ n v hnv⟩
    rw [combinations_keys _ b hmem]
    exact hnd
  · rintro ⟨e, he, hempty⟩
    have hz : ((loadLists lists repo s1).1.map (fun e => e.2.length)).prod = 0 :=
      List.prod_eq_zero (List.mem_map.mpr ⟨e, he, by simp [hempty]⟩)
    exact List.length_eq_zero.mp (hlen.trans hz)


/-! ## Claim on the expansion of lists -/

/-- C12: for a task of the flow whose conditions hold when `apply` visits it and whose
list parameters resolve, in declared order, to the named lists `named`, `apply` invokes
the `set` action exactly once per element of the Cartesian product of the lists, in
odometer order (the rightmost list running fastest): between the calls of the tasks
before and those of the tasks after, the run holds calls that correspond one to one, in
order, to the combinations, each made with a `List` map that binds the names of its
combination, and no other name, to the elements of the combination (every name to the
element of its own list when the names are distinct). Their number is the product of the
lengths; if a list is empty no call is made; and the task leaves `bInError` as it was. -/
theorem apply_visits_combinations {σ R V : Type} (fd : FlowDefine σ R V) (repo : Option R)
    (s0 s1 : σ) (pre post : List (String × FlowTaskDef σ R V)) (k : String)
    (t : FlowTaskDef σ R V) (lists : List (FlowTaskList σ R V))
    (hdec : fd.tasks repo = pre ++ (k, t) :: post)
    (hif : t.if_section repo (visited pre repo s0).forj = ((true, none), s1))
    (hl : t.List_ = some lists) :
    (applyTask k t repo (visited pre repo s0)).bInError = (visited pre repo s0).bInError ∧
    ∃ newCalls,
      (fd.apply repo s0).1.calls =
        (visited pre repo s0).calls ++ newCalls ++
          (applyTasks post repo
            (ApplyState.start (applyTask k t repo (visited pre repo s0)).forj)).calls ∧
      List.Forall₂ (fun c b => c.task = k ∧ ∃ m, c.List_ = some m ∧ Binds m b)
        newCalls (combinations (loadLists lists repo s1).1) ∧
      (((loadLists lists repo s1).1.map Prod.fst).Nodup →
        List.Forall₂ (fun c b => ∃ m, c.List_ = some m ∧ ∀ n v, (n, v) ∈ b → lookupKey n m = some v)
          newCalls (combinations (loadLists lists repo s1).1)) ∧
      newCalls.length = ((loadLists lists repo s1).1.map (fun e => e.2.length)).prod ∧
      ((∃ e ∈ (loadLists lists repo s1).1, e.2 = []) → newCalls = []) := by
  obtain ⟨hb, _⟩ := applyTask_combinations k t repo (visited pre repo s0) s1 lists hif hl
  obtain ⟨_, newCalls, hcalls, h1, h2, h3, h4⟩ :=
    applyTask_combinations k t repo (ApplyState.start (visited pre repo s0).forj) s1 lists hif hl
  refine ⟨hb, newCalls, ?_, h1, h2, h3, h4⟩
  rw [(apply_eq fd repo s0).1, hdec]
  unfold visited
  rw [applyTasks_split, hcalls]
  rfl

/-- Witness of C12: the lists `A = [a0, a1]` and `B = [b0, b1, b2]` give the six
combinations in odometer order; with `B` empty no call is made. -/
theorem apply_visits_combinations_witness :
    ((sampleFlow [("t", taskLists ["a0", "a1"] ["b0", "b1", "b2"])]).apply none
        []).1.calls.map SetCall.invocation =
      [("t", some [("A", "a0"), ("B", "b0")]), ("t", some [("A", "a0"), ("B", "b1")]),
       ("t", some [("A", "a0"), ("B", "b2")]), ("t", some [("A", "a1"), ("B", "b0")]),
       ("t", some [("A", "a1"), ("B", "b1")]), ("t", some [("A", "a1"), ("B", "b2")])] ∧
    (applyTask "t" (taskLists ["a0", "a1"] ["b0", "b1", "b2"]) none
        (ApplyState.start [])).bInError = false ∧
    ((sampleFlow [("t", taskLists ["a0", "a1"] [])]).apply none []).1.calls = [] ∧
    ((sampleFlow [("t", taskLists ["a0", "a1"] [])]).apply none []).2 = none :=
  ⟨rfl,
   (apply_visits_combinations (sampleFlow [("t", taskLists ["a0", "a1"] ["b0", "b1", "b2"])])
      none [] [] [] [] "t" (taskLists ["a0", "a1"] ["b0", "b1", "b2"])
      [logList "A" ["a0", "a1"], logList "B" ["b0", "b1", "b2"]] rfl rfl rfl).1,
   rfl, rfl⟩

/-! ## Claims on Set, set_defaults, the order of the maps and the deployments by type -/

/-- `Set` on the entries of a bag never adds a key. -/
theorem lookupKey_setKey_isSome {V : Type} (k n : String) (v : V) (m : List (String × V))
    (hk : (lookupKey k m).isSome = true) :
    (lookupKey n (setKey k v m)).isSome = (lookupKey n m).isSome := by
  rw [lookupKey_setKey]
  by_cases h : k = n
  · subst h; simp [hk]
  · simp [h]

/-- The keys of the `More` bag of the default settings are the same before and after a
`Set`. -/
theorem DefaultSet_keys (d : DefaultSettingsStruct) (key value n : String) :
    ((d.Set key value).1.More.get? n).isSome = (d.More.get? n).isSome := by
  unfold DefaultSettingsStruct.Set
  by_cases h1 : key = "upstream-instance"
  · simp [h1]
  · by_cases h2 : key = "flow"
    · simp [h2]
    · simp only [h1, h2, if_false]
      cases hg : d.More.get? key with
      | none => rfl
      | some v =>
        by_cases hv : v = value
        · simp [hv]
        · simp only [ne_eq, hv, not_false_eq_true, if_true, GoMap.get?, GoMap.entries,
            Option.getD_some]
          exact lookupKey_setKey_isSome key n value _ (by
            simp only [GoMap.get?, GoMap.entries] at hg
            rw [hg]; rfl)

/-- The keys of the `More` bags of the settings are the same before and after a `Set`. -/
theorem SettingsSet_keys (s : ForjSettingsStruct) (inst key value n : String) :
    ((s.Set inst key value).1.More.get? n).isSome = (s.More.get? n).isSome ∧
    ((s.Set inst key value).1.Default.More.get? n).isSome = (s.Default.More.get? n).isSome := by
  unfold ForjSettingsStruct.Set
  by_cases h0 : inst = "default"
  · simp only [h0, if_true]
    exact ⟨trivial, DefaultSet_keys s.Default key value n⟩
  · by_cases h1 : key = "organization"
    · simp [h0, h1]
    · simp only [h0, h1, if_false]
      cases hg : s.More.get? key with
      | none => exact ⟨rfl, rfl⟩
      | some v =>
        by_cases hv : v = value
        · simp [hv]
        · simp only [ne_eq, hv, not_false_eq_true, if_true, GoMap.get?, GoMap.entries,
            Option.getD_some, and_true]
          exact lookupKey_setKey_isSome key n value _ (by
            simp only [GoMap.get?, GoMap.entries] at hg
            rw [hg]; rfl)

/-- C21: the `Set` methods of the settings never add a key. For a key that is not a
known field (not `organization` on an instance other than `default`, not
`upstream-instance` nor `flow` on the default settings) and that the `More` bag does not
hold, `DefaultSettingsStruct.Set` and `ForjSettingsStruct.Set` leave the settings as they
are and do not call `dirty()`, so that the owning tree, its dirty flag included, is
unchanged and a following `Get` of the key still reports not found. Whatever the key,
the `More` bags hold the same keys before and after a `Set`: only the value of a key
already present can be replaced. -/
theorem Set_never_adds_key (y : ForgeYaml) (s : ForjSettingsStruct) (d : DefaultSettingsStruct)
    (inst key value : String) :
    (key ≠ "upstream-instance" → key ≠ "flow" → d.More.get? key = none →
      d.Set key value = (d, false) ∧ ((d.Set key value).1.Get key).2 = false) ∧
    (inst ≠ "default" → key ≠ "organization" → s.More.get? key = none →
      s.Set inst key value = (s, false) ∧ ((s.Set inst key value).1.Get inst key).2 = false) ∧
    (key ≠ "upstream-instance" → key ≠ "flow" → s.Default.More.get? key = none →
      s.Set "default" key value = (s, false) ∧
      ((s.Set "default" key value).1.Get "default" key).2 = false) ∧
    (inst ≠ "default" → key ≠ "organization" → y.ForjCore.ForjSettings.More.get? key = none →
      y.SettingsSet inst key value = y) ∧
    (key ≠ "upstream-instance" → key ≠ "flow" →
      y.ForjCore.ForjSettings.Default.More.get? key = none →
      y.SettingsSet "default" key value = y ∧ y.DefaultSet key value = y) ∧
    (∀ n, ((d.Set key value).1.More.get? n).isSome = (d.More.get? n).isSome) ∧
    (∀ n, ((s.Set inst key value).1.More.get? n).isSome = (s.More.get? n).isSome ∧
      ((s.Set inst key value).1.Default.More.get? n).isSome = (s.Default.More.get? n).isSome) := by
  have hd : ∀ (d : DefaultSettingsStruct), key ≠ "upstream-instance" → key ≠ "flow" →
      d.More.get? key = none → d.Set key value = (d, false) := by
    intro d h1 h2 hg
    simp [DefaultSettingsStruct.Set, h1, h2, hg]
  have hdg : ∀ (d : DefaultSettingsStruct), key ≠ "upstream-instance" → key ≠ "flow" →
      d.More.get? key = none → (d.Get key).2 = false := by
    intro d h1 h2 hg
    simp [DefaultSettingsStruct.Get, h1, h2, hg]
  have hs : ∀ (s : ForjSettingsStruct), inst ≠ "default" → key ≠ "organization" →
      s.More.get? key = none → s.Set inst key value = (s, false) := by
    intro s h0 h1 hg
    simp [ForjSettingsStruct.Set, h0, h1, hg]
  have hsd : ∀ (s : ForjSettingsStruct), key ≠ "upstream-instance" → key ≠ "flow" →
      s.Default.More.get? key = none → s.Set "default" key value = (s, false) := by
    intro s h1 h2 hg
    simp [ForjSettingsStruct.Set, hd s.Default h1 h2 hg]
  refine ⟨fun h1 h2 hg => ?_, fun h0 h1 hg => ?_, fun h1 h2 hg => ?_, fun h0 h1 hg => ?_,
    fun h1 h2 hg => ⟨?_, ?_⟩, DefaultSet_keys d key value, SettingsSet_keys s inst key value⟩
  · rw [hd d h1 h2 hg]
    exact ⟨rfl, hdg d h1 h2 hg⟩
  · rw [hs s h0 h1 hg]
    refine ⟨rfl, ?_⟩
    simp [ForjSettingsStruct.Get, h0, h1, hg]
  · rw [hsd s h1 h2 hg]
    refine ⟨rfl, ?_⟩
    simp only [ForjSettingsStruct.Get, if_true]
    exact hdg s.Default h1 h2 hg
  · simp [ForgeYaml.SettingsSet, hs _ h0 h1 hg, ForgeYaml.dirty]
  · simp [ForgeYaml.SettingsSet, hsd _ h1 h2 hg, ForgeYaml.dirty]
  · simp [ForgeYaml.DefaultSet, hd _ h1 h2 hg, ForgeYaml.dirty]

theorem Set_never_adds_key_witness :
    (sampleForge none (some [("a", "1")])).yaml.ForjCore.ForjSettings.Default.More.get?
      "dev-deploy" = none ∧
    (sampleForge none (some [("a", "1")])).yaml.ForjCore.ForjSettings.More.get?
      "dev-deploy" = none ∧
    (sampleForge none (some [("a", "1")])).yaml.ForjCore.ForjSettings.Default.Set
      "dev-deploy" "dev" =
      ((sampleForge none (some [("a", "1")])).yaml.ForjCore.ForjSettings.Default, false) ∧
    (sampleForge none (some [("a", "1")])).yaml.ForjCore.ForjSettings.Set
      "github" "dev-deploy" "dev" =
      ((sampleForge none (some [("a", "1")])).yaml.ForjCore.ForjSettings, false) ∧
    (sampleForge none (some [("a", "1")])).yaml.DefaultSet "dev-deploy" "dev" =
      (sampleForge none (some [("a", "1")])).yaml :=
  ⟨by decide, by decide,
    ((Set_never_adds_key (sampleForge none (some [("a", "1")])).yaml
      (sampleForge none (some [("a", "1")])).yaml.ForjCore.ForjSettings
      (sampleForge none (some [("a", "1")])).yaml.ForjCore.ForjSettings.Default
      "github" "dev-deploy" "dev").1 (by decide) (by decide) (by decide)).1,
    ((Set_never_adds_key (sampleForge none (some [("a", "1")])).yaml
      (sampleForge none (some [("a", "1")])).yaml.ForjCore.ForjSettings
      (sampleForge none (some [("a", "1")])).yaml.ForjCore.ForjSettings.Default
      "github" "dev-deploy" "dev").2.1 (by decide) (by decide) (by decide)).1,
    ((Set_never_adds_key (sampleForge none (some [("a", "1")])).yaml
      (sampleForge none (some [("a", "1")])).yaml.ForjCore.ForjSettings
      (sampleForge none (some [("a", "1")])).yaml.ForjCore.ForjSettings.Default
      "github" "dev-deploy" "dev").2.2.2.2.1 (by decide) (by decide) (by decide)).2⟩

/-- Pointers none of which is nil are the pointers of a list of values. -/
theorem entries_of_no_nil :
    ∀ l : List (String × Option DeploymentStruct), (∀ e ∈ l, e.2 ≠ none) →
      ∃ l1 : List (String × DeploymentStruct), l = l1.map (fun e => (e.1, some e.2)) := by
  intro l
  induction l with
  | nil => intro _; exact ⟨[], rfl⟩
  | cons hd tl ih =>
    intro h
    obtain ⟨l1, hl1⟩ := ih (fun e he => h e (List.mem_cons_of_mem _ he))
    obtain ⟨k, d⟩ := hd
    cases d with
    | none => exact absurd rfl (h (k, none) (List.mem_cons_self _ _))
    | some d => exact ⟨(k, d) :: l1, by rw [hl1]; rfl⟩

/-- The loop of `set_defaults` panics when it meets a nil deployment, wherever it is. -/
theorem setNamesLoop_nil :
    ∀ l : List (String × Option DeploymentStruct), (∃ k, (k, none) ∈ l) →
      setNamesLoop l = none := by
  intro l
  induction l with
  | nil => rintro ⟨k, hk⟩; simp at hk
  | cons hd tl ih =>
    rintro ⟨k, hk⟩
    obtain ⟨k0, d0⟩ := hd
    cases d0 with
    | none => rfl
    | some d =>
      have hin : (k, none) ∈ tl := by
        rcases List.mem_cons.mp hk with heq | hin
        · cases heq
        · exact hin
      simp only [setNamesLoop, ih ⟨k, hin⟩, Option.map_none']

/-- C22 fails on the code for a deployment without value. On a tree whose `Deployments`
map is not empty, `set_defaults` panics when the pointer of some deployment is nil, as
the decoder leaves it for an entry without value. When no pointer is nil it keeps the
deployment keys, in the order visited, and every deployment but for its internal name,
so its `Type` and its description; afterwards the internal name of every deployment is
its map key, and `production` is a key only if it was one: no synthetic deployment is
added. -/
theorem set_defaults_keeps_deployments (X : Collaborators) (f : RawForgeYaml)
    (h : f.Deployments.len ≠ 0) :
    ((∃ k, (k, none) ∈ f.Deployments.entries) → f.set_defaults X = none) ∧
    ((∀ e ∈ f.Deployments.entries, e.2 ≠ none) →
      ∃ g, f.set_defaults X = some g ∧
        g.Deployments.entries.map Prod.fst = f.Deployments.entries.map Prod.fst ∧
        List.Forall₂ (fun a b => b.1 = a.1 ∧ ∃ d, a.2 = some d ∧ b.2 = { d with name := a.1 })
          f.Deployments.entries g.Deployments.entries ∧
        (∀ e ∈ g.Deployments.entries, e.2.name = e.1) ∧
        g.Deployments.len = f.Deployments.len ∧
        ("production" ∉ f.Deployments.entries.map Prod.fst →
          g.Deployments.get? "production" = none) ∧
        g.updated = f.updated ∧ g.ForjCore = X.initDefaults f.ForjCore) := by
  constructor
  · intro hnil
    simp [RawForgeYaml.set_defaults, h, setNamesLoop_nil _ hnil]
  · intro hall
    obtain ⟨l1, hl1⟩ := entries_of_no_nil _ hall
    have hs : setNamesLoop f.Deployments.entries =
        some (l1.map (fun e => (e.1, { e.2 with name := e.1 }))) := by
      rw [hl1]; exact setNamesLoop_some l1
    have hkeys : (l1.map (fun e : String × DeploymentStruct =>
          (e.1, { e.2 with name := e.1 }))).map Prod.fst =
        f.Deployments.entries.map Prod.fst := by
      rw [hl1, List.map_map, List.map_map]; rfl
    have hres : f.set_defaults X = some
        { updated := f.updated,
          Deployments := some (l1.map (fun e => (e.1, { e.2 with name := e.1 }))),
          ForjCore := X.initDefaults f.ForjCore } := by
      simp only [RawForgeYaml.set_defaults, h, if_false, hs, Option.map_some']
    refine ⟨_, hres, hkeys, ?_, ?_, ?_, ?_, rfl, rfl⟩
    · simp only [GoMap.entries, Option.getD_some]
      have hl : f.Deployments.getD [] = l1.map (fun e => (e.1, some e.2)) := hl1
      rw [hl]
      clear hl hl1 hs hkeys hall hres
      induction l1 with
      | nil => exact List.Forall₂.nil
      | cons hd tl ih =>
        exact List.Forall₂.cons ⟨rfl, hd.2, rfl, rfl⟩ ih
    · intro e hmem
      simp only [GoMap.entries, Option.getD_some] at hmem
      obtain ⟨e0, _, rfl⟩ := List.mem_map.mp hmem
      rfl
    · simp only [GoMap.len, GoMap.entries, Option.getD_some, List.length_map]
      have hl : f.Deployments.getD [] = l1.map (fun e => (e.1, some e.2)) := hl1
      rw [hl, List.length_map]
    · intro hp
      cases hg : lookupKey "production"
          (l1.map (fun e : String × DeploymentStruct => (e.1, { e.2 with name := e.1 }))) with
      | none => simpa [GoMap.get?, GoMap.entries] using hg
      | some d =>
        have hm := lookupKey_some_mem "production" d _ hg
        exact absurd (hkeys ▸ List.mem_map_of_mem Prod.fst hm) hp

/-- Failing input of C22: the deployment `dev` has no value; with it, a tree that
declares `dev` and `prod`, which `set_defaults` names. -/
theorem set_defaults_keeps_deployments_witness :
    RawForgeYaml.set_defaults sampleCollaborators
      { (sampleForge none none).yaml.raw with Deployments := some [("dev", none)] } = none ∧
    ∃ g, RawForgeYaml.set_defaults sampleCollaborators
        (sampleForge (some [("dev", sampleDeployment "" "DEV"),
          ("prod", sampleDeployment "live" "PRO")]) none).yaml.raw = some g ∧
      g.Deployments.entries.map Prod.fst = ["dev", "prod"] ∧
      ∀ e ∈ g.Deployments.entries, e.2.name = e.1 :=
  ⟨(set_defaults_keeps_deployments sampleCollaborators
      { (sampleForge none none).yaml.raw with Deployments := some [("dev", none)] }
      (by decide)).1 ⟨"dev", by decide⟩,
    (fun ⟨g, hg, hk, _, hn, _⟩ => ⟨g, hg, hk, hn⟩)
      ((set_defaults_keeps_deployments sampleCollaborators
        (sampleForge (some [("dev", sampleDeployment "" "DEV"),
          ("prod", sampleDeployment "live" "PRO")]) none).yaml.raw (by decide)).2
        (by decide))⟩

/-- Storing under a key that the entries do not hold adds the entry at the end. -/
theorem setKey_append_of_not_mem {V : Type} (k : String) (v : V) :
    ∀ m : List (String × V), k ∉ m.map Prod.fst → setKey k v m = m ++ [(k, v)] := by
  intro m
  induction m with
  | nil => intro _; rfl
  | cons hd tl ih =>
    intro h
    obtain ⟨k0, v0⟩ := hd
    simp only [List.map_cons, List.mem_cons, not_or] at h
    have hk : ¬ k0 = k := fun e => h.1 e.symm
    simp only [setKey, hk, if_false, List.cons_append, ih h.2]

/-- The loop of `GetDeploymentType` over entries with distinct keys, none of them in the
map built so far: the entries of the type are added in the order visited. -/
theorem getDeploymentTypeLoop_eq (t : String) :
    ∀ (l : List (String × DeploymentStruct)) (acc : List (String × DeploymentStruct) × Bool),
      (l.map Prod.fst).Nodup → (∀ e ∈ l, e.1 ∉ acc.1.map Prod.fst) →
      getDeploymentTypeLoop t l acc =
        (acc.1 ++ l.filter (fun e => decide (e.2.Type_ = t)),
          acc.2 || l.any (fun e => decide (e.2.Type_ = t))) := by
  intro l
  induction l with
  | nil => intro acc _ _; simp [getDeploymentTypeLoop]
  | cons hd tl ih =>
    intro acc hn hfresh
    obtain ⟨k, d⟩ := hd
    simp only [List.map_cons, List.nodup_cons] at hn
    have hk : k ∉ acc.1.map Prod.fst := hfresh (k, d) (List.mem_cons_self _ _)
    by_cases ht : d.Type_ = t
    · simp only [getDeploymentTypeLoop, ht, if_true]
      rw [ih _ hn.2 ?_]
      · simp [setKey_append_of_not_mem k d acc.1 hk, ht]
      · intro e he
        rw [setKey_append_of_not_mem k d acc.1 hk]
        simp only [List.map_append, List.map_cons, List.map_nil, List.mem_append,
          List.mem_singleton, not_or]
        refine ⟨hfresh e (List.mem_cons_of_mem _ he), fun hek => hn.1 ?_⟩
        rw [← hek]
        exact List.mem_map_of_mem Prod.fst he
    · simp only [getDeploymentTypeLoop, ht, if_false]
      rw [ih _ hn.2 (fun e he => hfresh e (List.mem_cons_of_mem _ he))]
      simp [ht]

/-- What `GetDeploymentType` returns on a map (distinct keys). -/
theorem GetDeploymentType_eq (f : Forge) (t : String)
    (h : (f.yaml.Deployments.entries.map Prod.fst).Nodup) :
    f.GetDeploymentType t =
      (f.yaml.Deployments.entries.filter (fun e => decide (e.2.Type_ = t)),
        f.yaml.Deployments.entries.any (fun e => decide (e.2.Type_ = t))) := by
  unfold Forge.GetDeploymentType
  rw [getDeploymentTypeLoop_eq t _ _ h (fun _ _ => by simp)]
  simp

/-- What `GetDeploymentPROType` returns on a map (distinct keys), by the number of
deployments of type `PRO`. -/
theorem GetDeploymentPROType_eq (f : Forge)
    (h : (f.yaml.Deployments.entries.map Prod.fst).Nodup) :
    (f.yaml.Deployments.entries.countP (fun e => decide (e.2.Type_ = "PRO")) ≠ 1 →
      f.GetDeploymentPROType = (none, some "Found more than one PRO environment")) ∧
    (f.yaml.Deployments.entries.countP (fun e => decide (e.2.Type_ = "PRO")) = 1 →
      ∃ k d, (k, d) ∈ f.yaml.Deployments.entries ∧ d.Type_ = "PRO" ∧
        f.GetDeploymentPROType = (some d, none)) := by
  have hc : f.yaml.Deployments.entries.countP (fun e => decide (e.2.Type_ = "PRO")) =
      (f.GetDeploymentType "PRO").1.length := by
    rw [GetDeploymentType_eq f "PRO" h, List.countP_eq_length_filter]
  have hm : ∀ e ∈ (f.GetDeploymentType "PRO").1,
      e ∈ f.yaml.Deployments.entries ∧ e.2.Type_ = "PRO" := by
    intro e he
    rw [GetDeploymentType_eq f "PRO" h] at he
    simpa using List.mem_filter.mp he
  rw [hc]
  unfold Forge.GetDeploymentPROType
  constructor
  · intro hne
    simp [hne]
  · intro h1
    simp only [h1, ne_eq, not_true_eq_false, if_false]
    cases hl : (f.GetDeploymentType "PRO").1 with
    | nil => rw [hl] at h1; simp at h1
    | cons hd tl =>
      obtain ⟨k, d⟩ := hd
      have := hm (k, d) (by rw [hl]; exact List.mem_cons_self _ _)
      exact ⟨k, d, this.1, this.2, rfl⟩

/-- C24: on a forge whose deployments form a map (distinct keys),
`GetDeploymentType(t)` returns exactly the declared deployments whose `Type` is `t`,
under their keys, and `found` is true if and only if that map is not empty;
`GetDeploymentPROType` returns a deployment of type `PRO` with a nil error if and only
if exactly one declared deployment has the type `PRO`, the deployment returned being that
one; otherwise, with no such deployment as with two or more, it returns a nil deployment
and an error. -/
theorem GetDeploymentType_spec (f : Forge) (t : String)
    (h : (f.yaml.Deployments.entries.map Prod.fst).Nodup) :
    (f.GetDeploymentType t).1 =
      f.yaml.Deployments.entries.filter (fun e => decide (e.2.Type_ = t)) ∧
    (∀ k d, ((k, d) ∈ (f.GetDeploymentType t).1 ↔
      (k, d) ∈ f.yaml.Deployments.entries ∧ d.Type_ = t)) ∧
    ((f.GetDeploymentType t).2 = true ↔ (f.GetDeploymentType t).1 ≠ []) ∧
    ((∃ d, f.GetDeploymentPROType = (some d, none) ∧ d.Type_ = "PRO") ↔
      f.yaml.Deployments.entries.countP (fun e => decide (e.2.Type_ = "PRO")) = 1) ∧
    (f.yaml.Deployments.entries.countP (fun e => decide (e.2.Type_ = "PRO")) = 1 →
      ∃ k d, (k, d) ∈ f.yaml.Deployments.entries ∧ d.Type_ = "PRO" ∧
        f.GetDeploymentPROType = (some d, none)) ∧
    (f.yaml.Deployments.entries.countP (fun e => decide (e.2.Type_ = "PRO")) ≠ 1 →
      f.GetDeploymentPROType.1 = none ∧ f.GetDeploymentPROType.2 ≠ none) := by
  have hp := GetDeploymentPROType_eq f h
  refine ⟨?_, ?_, ?_, ⟨?_, ?_⟩, hp.2, ?_⟩
  · rw [GetDeploymentType_eq f t h]
  · intro k d
    rw [GetDeploymentType_eq f t h]
    simp [List.mem_filter]
  · rw [GetDeploymentType_eq f t h]
    simp only [List.any_eq_true, ne_eq, List.filter_eq_nil_iff, not_forall]
    constructor
    · rintro ⟨e, he, ht⟩
      exact ⟨e, he, by simpa using ht⟩
    · rintro ⟨e, he, ht⟩
      exact ⟨e, he, by simpa using ht⟩
  · rintro ⟨d, hd, _⟩
    by_contra hne
    rw [hp.1 hne] at hd
    simp at hd
  · intro h1
    obtain ⟨_, d, _, ht, hd⟩ := hp.2 h1
    exact ⟨d, hd, ht⟩
  · intro hne
    rw [hp.1 hne]
    simp

theorem GetDeploymentType_spec_witness :
    ((sampleForge (some [("dev", sampleDeployment "dev" "DEV"),
      ("prod", sampleDeployment "prod" "PRO")]) none).yaml.Deployments.entries.map
        Prod.fst).Nodup ∧
    ((sampleForge (some [("dev", sampleDeployment "dev" "DEV"),
      ("prod", sampleDeployment "prod" "PRO")]) none).GetDeploymentType "PRO").1 =
        [("prod", sampleDeployment "prod" "PRO")] ∧
    ((sampleForge (some [("dev", sampleDeployment "dev" "DEV"),
      ("prod", sampleDeployment "prod" "PRO")]) none).GetDeploymentType "TEST").1 = [] ∧
    (∃ d, (sampleForge (some [("dev", sampleDeployment "dev" "DEV"),
      ("prod", sampleDeployment "prod" "PRO")]) none).GetDeploymentPROType = (some d, none) ∧
      d.Type_ = "PRO") ∧
    (sampleForge (some [("dev", sampleDeployment "dev" "DEV")]) none).GetDeploymentPROType.1 =
      none ∧
    (sampleForge (some [("dev", sampleDeployment "dev" "DEV")]) none).GetDeploymentPROType.2 ≠
      none :=
  ⟨by decide,
    (GetDeploymentType_spec (sampleForge (some [("dev", sampleDeployment "dev" "DEV"),
      ("prod", sampleDeployment "prod" "PRO")]) none) "PRO" (by decide)).1.trans (by decide),
    (GetDeploymentType_spec (sampleForge (some [("dev", sampleDeployment "dev" "DEV"),
      ("prod", sampleDeployment "prod" "PRO")]) none) "TEST" (by decide)).1.trans (by decide),
    (GetDeploymentType_spec (sampleForge (some [("dev", sampleDeployment "dev" "DEV"),
      ("prod", sampleDeployment "prod" "PRO")]) none) "PRO" (by decide)).2.2.2.1.mpr
      (by decide),
    (GetDeploymentType_spec (sampleForge (some [("dev", sampleDeployment "dev" "DEV")]) none)
      "PRO" (by decide)).2.2.2.2.2 (by decide)⟩

/-- The loop over the repositories ends without error exactly when the bindings of every
repository that has some pass the inner loop. -/
theorem validateRepos_none_iff (X : Collaborators) :
    ∀ (l : List (String × RepoStruct)),
      (validateRepos X l).2 = none ↔
        ∀ e ∈ l, ∀ bs, e.2.Apps = some bs → (validateRepoApps X e.2 bs).2 = none := by
  intro l
  induction l with
  | nil => simp [validateRepos]
  | cons hd tl ih =>
    obtain ⟨k, repo⟩ := hd
    simp only [List.mem_cons, forall_eq_or_imp]
    cases ha : repo.Apps with
    | none =>
      simp only [validateRepos, ha]
      rw [ih]
      simp
    | some bindings =>
      simp only [validateRepos, ha]
      rcases hv : validateRepoApps X repo bindings with ⟨repo1, _ | e⟩
      · simp only [Option.some.injEq, forall_eq']
        rw [ih, hv]
        simp
      · simp only [Option.some.injEq, forall_eq']
        rw [hv]
        simp

/-- Two deployments of type `PRO`, the one seen before counted, make the loop over the
deployments return an error. -/
theorem validateDeployments_count_error (devDefault : String) :
    ∀ (l : List (String × DeploymentStruct)) (pro found : Bool),
      2 ≤ l.countP (fun e => decide (e.2.Type_ = ProDeployType)) +
        (if pro = true then 1 else 0) →
      IsError (validateDeployments devDefault l pro found) := by
  intro l
  induction l with
  | nil =>
    intro pro found h
    simp only [List.countP_nil, zero_add] at h
    split at h <;> omega
  | cons hd tl ih =>
    intro pro found h
    obtain ⟨k, d⟩ := hd
    by_cases h0 : d.Type_ = ""
    · exact ⟨_, by rw [validateDeployments, if_pos h0]⟩
    · by_cases hp : d.Type_ = ProDeployType
      · by_cases hpro : pro = true
        · exact ⟨_, by rw [validateDeployments, if_neg h0, if_pos ⟨hp, hpro⟩]⟩
        · have hc : List.countP (fun e : String × DeploymentStruct =>
              decide (e.2.Type_ = ProDeployType)) ((k, d) :: tl) =
              List.countP (fun e : String × DeploymentStruct =>
                decide (e.2.Type_ = ProDeployType)) tl + 1 :=
            List.countP_cons_of_pos _ _ (by simp [hp])
          rw [hc, if_neg hpro] at h
          rw [validateDeployments, if_neg h0, if_neg (fun hh => hpro hh.2)]
          exact ih _ _ (by simpa [hp] using h)
      · have hc : List.countP (fun e : String × DeploymentStruct =>
            decide (e.2.Type_ = ProDeployType)) ((k, d) :: tl) =
            List.countP (fun e : String × DeploymentStruct =>
              decide (e.2.Type_ = ProDeployType)) tl :=
          List.countP_cons_of_neg _ _ (by simp [hp])
        rw [hc] at h
        rw [validateDeployments, if_neg h0, if_neg (fun hh => hp hh.1)]
        exact ih _ _ (by simpa [hp] using h)

/-- When Validate accepts: every repository with bindings passes the inner loop, no
deployment has an empty type, at most one has the type `PRO`, and the default dev-deploy
is empty or names a deployment of type `DEV`. -/
theorem Validate_none_iff (X : Collaborators) (f : Forge) :
    (f.Validate X).2 = none ↔
      (∀ e ∈ f.yaml.ForjCore.Repos.entries, ∀ bs, e.2.Apps = some bs →
        (validateRepoApps X e.2 bs).2 = none) ∧
      (∀ e ∈ f.yaml.Deployments.entries, e.2.Type_ ≠ "") ∧
      f.yaml.Deployments.entries.countP (fun e => decide (e.2.Type_ = ProDeployType)) ≤ 1 ∧
      (X.getDevDeploy f.yaml.ForjCore.ForjSettings.Default = "" ∨
        f.yaml.Deployments.entries.any (fun e => decide (e.2.Type_ = DevDeployType ∧
          X.getDevDeploy f.yaml.ForjCore.ForjSettings.Default = e.2.name)) = true) := by
  rw [← validateRepos_none_iff]
  cases hr : (validateRepos X f.yaml.ForjCore.Repos.entries).2 with
  | some e => simp [Forge.Validate, hr]
  | none =>
    simp only [Forge.Validate, hr, true_and]
    by_cases hty : ∀ e ∈ f.yaml.Deployments.entries, e.2.Type_ ≠ ""
    · by_cases hc : f.yaml.Deployments.entries.countP
          (fun e => decide (e.2.Type_ = ProDeployType)) ≤ 1
      · rw [validateDeployments_ok _ _ false false (fun k d hm => hty (k, d) hm)
          (by simpa using hc)]
        simp only [Bool.false_or]
        by_cases hdd : X.getDevDeploy f.yaml.ForjCore.ForjSettings.Default = ""
        · simp only [hdd, ne_eq, not_true_eq_false, false_and, if_false, true_or, and_true,
            true_iff]
          exact ⟨hty, hc⟩
        · by_cases hany : f.yaml.Deployments.entries.any (fun e =>
              decide (e.2.Type_ = DevDeployType ∧
                X.getDevDeploy f.yaml.ForjCore.ForjSettings.Default = e.2.name)) = true
          · rw [hany]
            simp only [Bool.true_eq_false, and_false, if_false, or_true, and_true, true_iff]
            exact ⟨hty, hc⟩
          · have hany2 := Bool.eq_false_iff.mpr hany
            rw [hany2]
            simp [hdd, hc]
      · obtain ⟨e, he⟩ := validateDeployments_count_error
          (X.getDevDeploy f.yaml.ForjCore.ForjSettings.Default) f.yaml.Deployments.entries
          false false (by simp only [Bool.false_eq_true, if_false]; omega)
        rw [he]
        simp [hc]
    · have hty2 := hty
      simp only [ne_eq, not_forall, not_not] at hty2
      obtain ⟨⟨k, d⟩, hm, h0⟩ := hty2
      obtain ⟨e, he⟩ := validateDeployments_empty_type
        (X.getDevDeploy f.yaml.ForjCore.ForjSettings.Default) f.yaml.Deployments.entries
        false false k d hm h0
      rw [he]
      simp only [reduceCtorEq, false_iff, not_and]
      intro h
      exact absurd h hty

/-- C23: whether Validate accepts does not depend on the order in which the
repositories and the deployments are visited. For two forges with the same default
settings whose repositories and whose deployments are the same entries in another order,
Validate returns nil on one if and only if it returns nil on the other, and so an error
on one if and only if an error on the other. `SetInternalRelApp` acts on the repository
that receives it, whatever it does there. -/
theorem Validate_order_independent (X : Collaborators) (f g : Forge)
    (hs : g.yaml.ForjCore.ForjSettings.Default = f.yaml.ForjCore.ForjSettings.Default)
    (hr : g.yaml.ForjCore.Repos.entries.Perm f.yaml.ForjCore.Repos.entries)
    (hd : g.yaml.Deployments.entries.Perm f.yaml.Deployments.entries) :
    ((g.Validate X).2 = none ↔ (f.Validate X).2 = none) ∧
    ((∃ e, (g.Validate X).2 = some e) ↔ (∃ e, (f.Validate X).2 = some e)) := by
  have key : (g.Validate X).2 = none ↔ (f.Validate X).2 = none := by
    rw [Validate_none_iff, Validate_none_iff, hs, hd.countP_eq]
    have h1 : (∀ e ∈ g.yaml.ForjCore.Repos.entries, ∀ bs, e.2.Apps = some bs →
        (validateRepoApps X e.2 bs).2 = none) ↔
        (∀ e ∈ f.yaml.ForjCore.Repos.entries, ∀ bs, e.2.Apps = some bs →
          (validateRepoApps X e.2 bs).2 = none) :=
      ⟨fun h e he => h e (hr.mem_iff.mpr he), fun h e he => h e (hr.mem_iff.mp he)⟩
    have h2 : (∀ e ∈ g.yaml.Deployments.entries, e.2.Type_ ≠ "") ↔
        (∀ e ∈ f.yaml.Deployments.entries, e.2.Type_ ≠ "") :=
      ⟨fun h e he => h e (hd.mem_iff.mpr he), fun h e he => h e (hd.mem_iff.mp he)⟩
    have h3 : g.yaml.Deployments.entries.any (fun e => decide (e.2.Type_ = DevDeployType ∧
          X.getDevDeploy f.yaml.ForjCore.ForjSettings.Default = e.2.name)) =
        f.yaml.Deployments.entries.any (fun e => decide (e.2.Type_ = DevDeployType ∧
          X.getDevDeploy f.yaml.ForjCore.ForjSettings.Default = e.2.name)) := by
      rw [Bool.eq_iff_iff, List.any_eq_true, List.any_eq_true]
      exact ⟨fun ⟨e, he, hp⟩ => ⟨e, hd.mem_iff.mp he, hp⟩,
        fun ⟨e, he, hp⟩ => ⟨e, hd.mem_iff.mpr he, hp⟩⟩
    rw [h1, h2, h3]
  refine ⟨key, ?_⟩
  rw [← Option.isSome_iff_exists, ← Option.isSome_iff_exists, ← Option.not_isSome_iff_eq_none,
    ← Option.not_isSome_iff_eq_none] at *
  · exact not_iff_not.mp key

theorem Validate_order_independent_witness :
    ((sampleForge (some [("b", sampleDeployment "b" "PRO"),
      ("a", sampleDeployment "a" "PRO")]) none).Validate sampleCollaborators).2 ≠
    ((sampleForge (some [("a", sampleDeployment "a" "PRO"),
      ("b", sampleDeployment "b" "PRO")]) none).Validate sampleCollaborators).2 ∧
    (((sampleForge (some [("b", sampleDeployment "b" "PRO"),
      ("a", sampleDeployment "a" "PRO")]) none).Validate sampleCollaborators).2 = none ↔
    ((sampleForge (some [("a", sampleDeployment "a" "PRO"),
      ("b", sampleDeployment "b" "PRO")]) none).Validate sampleCollaborators).2 = none) ∧
    ((sampleForge (some [("prod", sampleDeployment "prod" "PRO"),
      ("dev", sampleDeployment "dev" "DEV")]) none).Validate sampleCollaborators).2 = none :=
  ⟨by decide,
    (Validate_order_independent sampleCollaborators
      (sampleForge (some [("a", sampleDeployment "a" "PRO"),
        ("b", sampleDeployment "b" "PRO")]) none)
      (sampleForge (some [("b", sampleDeployment "b" "PRO"),
        ("a", sampleDeployment "a" "PRO")]) none) rfl (List.Perm.refl _)
      (List.Perm.swap _ _ _)).1,
    (Validate_order_independent sampleCollaborators
      (sampleForge (some [("dev", sampleDeployment "dev" "DEV"),
        ("prod", sampleDeployment "prod" "PRO")]) none)
      (sampleForge (some [("prod", sampleDeployment "prod" "PRO"),
        ("dev", sampleDeployment "dev" "DEV")]) none) rfl (List.Perm.refl _)
      (List.Perm.swap _ _ _)).1.mpr (by decide)⟩

/-! ## Inference of the default dev-deploy -/

/-- Once the default dev-deploy reads as set, the loop of `defineDefaults` changes
nothing. -/
theorem defineDefaultsLoop_set (X : Collaborators) :
    ∀ (l : List (String × DeploymentStruct)) (f : ForgeYaml),
      X.getDevDeploy f.ForjCore.ForjSettings.Default ≠ "" → defineDefaultsLoop X l f = f := by
  intro l
  induction l with
  | nil => intro f _; rfl
  | cons hd tl ih =>
    intro f h
    obtain ⟨name, deploy⟩ := hd
    unfold defineDefaultsLoop
    rw [if_neg (fun hh => h hh.2)]
    exact ih f h

/-- The loop of `defineDefaults` over two lists in a row. -/
theorem defineDefaultsLoop_append (X : Collaborators) :
    ∀ (l1 l2 : List (String × DeploymentStruct)) (f : ForgeYaml),
      defineDefaultsLoop X (l1 ++ l2) f = defineDefaultsLoop X l2 (defineDefaultsLoop X l1 f) := by
  intro l1
  induction l1 with
  | nil => intro l2 f; rfl
  | cons hd tl ih =>
    intro l2 f
    obtain ⟨name, deploy⟩ := hd
    simp only [List.cons_append, defineDefaultsLoop]
    split
    · exact ih _ _
    · exact ih _ _

/-- With an empty `dev-deploy` entry, the loop of `defineDefaults` changes nothing as long
as it meets no deployment of type `DEV` with a key that is not empty. -/
theorem defineDefaultsLoop_skip (X : Collaborators) :
    ∀ (l : List (String × DeploymentStruct)) (f : ForgeYaml),
      f.ForjCore.ForjSettings.Default.More.get? "dev-deploy" = some "" →
      (∀ e ∈ l, ¬ (e.2.Type_ = "DEV" ∧ e.1 ≠ "")) → defineDefaultsLoop X l f = f := by
  intro l
  induction l with
  | nil => intro f _ _; rfl
  | cons hd tl ih =>
    intro f h hno
    obtain ⟨name, deploy⟩ := hd
    have hrest := ih f h (fun e he => hno e (List.mem_cons_of_mem _ he))
    unfold defineDefaultsLoop
    split
    · rename_i hg
      have hname : name = "" := by
        by_contra hn
        exact hno (name, deploy) (List.mem_cons_self _ _) ⟨hg.1, hn⟩
      have hset : f.ForjCore.ForjSettings.Default.Set "dev-deploy" name =
          (f.ForjCore.ForjSettings.Default, false) := by
        unfold DefaultSettingsStruct.Set
        rw [if_neg (by decide), if_neg (by decide), h, hname]
        simp
      simp only [hset, ForgeYaml.dirty, Bool.false_and]
      exact hrest
    · exact hrest

/-- With an empty `dev-deploy` entry that `getDevDeploy` reads, the loop of
`defineDefaults` stores the key of the first deployment of type `DEV` that it meets with a
key that is not empty. -/
theorem defineDefaultsLoop_first (X : Collaborators)
    (hget : ∀ s : DefaultSettingsStruct, X.getDevDeploy s = (s.More.get? "dev-deploy").getD "")
    (pre post : List (String × DeploymentStruct)) (k : String) (d : DeploymentStruct)
    (f : ForgeYaml)
    (h : f.ForjCore.ForjSettings.Default.More.get? "dev-deploy" = some "")
    (hno : ∀ e ∈ pre, ¬ (e.2.Type_ = "DEV" ∧ e.1 ≠ ""))
    (hd : d.Type_ = "DEV") (hk : k ≠ "") :
    (defineDefaultsLoop X (pre ++ (k, d) :: post) f).ForjCore.ForjSettings.Default.More.get?
      "dev-deploy" = some k := by
  rw [defineDefaultsLoop_append, defineDefaultsLoop_skip X pre f h hno]
  have hg : d.Type_ = DevDeployType ∧ X.getDevDeploy f.ForjCore.ForjSettings.Default = "" :=
    ⟨hd, by rw [hget, h]; rfl⟩
  have hset : f.ForjCore.ForjSettings.Default.Set "dev-deploy" k =
      ({ f.ForjCore.ForjSettings.Default with
          More := some (setKey "dev-deploy" k f.ForjCore.ForjSettings.Default.More.entries) },
        true) := by
    unfold DefaultSettingsStruct.Set
    rw [if_neg (by decide), if_neg (by decide), h]
    have hne : ("" : String) ≠ k := fun e => hk e.symm
    simp [hne]
  unfold defineDefaultsLoop
  rw [if_pos hg]
  simp only [hset]
  have hstored : ∀ ptr : Bool,
      ((ForgeYaml.dirty { f with ForjCore := { f.ForjCore with
          ForjSettings := { f.ForjCore.ForjSettings with
            Default := { f.ForjCore.ForjSettings.Default with
              More := some (setKey "dev-deploy" k
                f.ForjCore.ForjSettings.Default.More.entries) } } } }
        true ptr).ForjCore.ForjSettings.Default.More.get? "dev-deploy") = some k := by
    intro ptr
    rw [(dirty_fields _ true ptr).1]
    simp [GoMap.get?, GoMap.entries, lookupKey_setKey]
  rw [defineDefaultsLoop_set X post _ (by rw [hget, hstored]; exact hk)]
  exact hstored _

/-- The first element of a list that has a given property. -/
theorem exists_first {α : Type} (p : α → Prop) [DecidablePred p] :
    ∀ l : List α, (∃ a ∈ l, p a) →
      ∃ pre a post, l = pre ++ a :: post ∧ (∀ b ∈ pre, ¬ p b) ∧ p a := by
  intro l
  induction l with
  | nil => rintro ⟨a, ha, _⟩; simp at ha
  | cons hd tl ih =>
    rintro ⟨a, ha, hp⟩
    by_cases h : p hd
    · exact ⟨[], hd, tl, rfl, by simp, h⟩
    · have hin : a ∈ tl := by
        rcases List.mem_cons.mp ha with heq | hin
        · exact absurd (heq ▸ hp) h
        · exact hin
      obtain ⟨pre, b, post, hl, hpre, hb⟩ := ih ⟨a, hin, hp⟩
      refine ⟨hd :: pre, b, post, by rw [hl]; rfl, ?_, hb⟩
      intro c hc
      rcases List.mem_cons.mp hc with heq | hin2
      · rw [heq]; exact h
      · exact hpre c hin2

/-- C19 as stated fails: the deployments `dev1` and `dev2` are both of type `DEV` and the
default settings hold a `dev-deploy` entry without value, which `defineDefaults` takes
for unset (`getDevDeploy() == ""`); `defineDefaults` stores `dev1`, the first of the two
that it visits, and the default dev-deploy reads back as `dev1` afterwards. -/
theorem defineDefaults_picks_first_DEV :
    sampleCollaborators.getDevDeploy
      (sampleForge (some [("dev1", sampleDeployment "dev1" "DEV"),
        ("dev2", sampleDeployment "dev2" "DEV")])
        (some [("dev-deploy", "")])).yaml.ForjCore.ForjSettings.Default = "" ∧
    ((sampleForge (some [("dev1", sampleDeployment "dev1" "DEV"),
        ("dev2", sampleDeployment "dev2" "DEV")])
        (some [("dev-deploy", "")])).yaml.defineDefaults sampleCollaborators
          true).ForjCore.ForjSettings.Get "default" "dev-deploy" = ("dev1", true) ∧
    sampleCollaborators.getDevDeploy
      ((sampleForge (some [("dev1", sampleDeployment "dev1" "DEV"),
        ("dev2", sampleDeployment "dev2" "DEV")])
        (some [("dev-deploy", "")])).yaml.defineDefaults sampleCollaborators
          true).ForjCore.ForjSettings.Default = "dev1" := by
  decide

/-- C19, amended: on a tree that declares two deployments of type `DEV` (or more),
`defineDefaults` infers no default when the default settings hold no `dev-deploy` entry
at all: the tree is left as it is, the default dev-deploy still reads back as not found,
and `defineDefaults` has no error to return. When the entry is there without value, and
`getDevDeploy` reads that entry, `defineDefaults` stores a default: the key of the first
deployment of type `DEV` that it visits (keys that are empty apart), which then reads
back as the default dev-deploy. -/
theorem defineDefaults_two_DEV (X : Collaborators) (f : ForgeYaml) (warn : Bool)
    (k1 k2 : String) (d1 d2 : DeploymentStruct) (hne : k1 ≠ k2)
    (h1 : (k1, d1) ∈ f.Deployments.entries) (h2 : (k2, d2) ∈ f.Deployments.entries)
    (ht1 : d1.Type_ = "DEV") (ht2 : d2.Type_ = "DEV") :
    (f.ForjCore.ForjSettings.Default.More.get? "dev-deploy" = none →
      f.defineDefaults X warn = f ∧
      ((f.defineDefaults X warn).ForjCore.ForjSettings.Get "default" "dev-deploy").2 = false) ∧
    (f.ForjCore.ForjSettings.Default.More.get? "dev-deploy" = some "" →
      (∀ s : DefaultSettingsStruct, X.getDevDeploy s = (s.More.get? "dev-deploy").getD "") →
      ∃ pre k d post, f.Deployments.entries = pre ++ (k, d) :: post ∧
        (∀ e ∈ pre, ¬ (e.2.Type_ = "DEV" ∧ e.1 ≠ "")) ∧ d.Type_ = "DEV" ∧ k ≠ "" ∧
        (f.defineDefaults X warn).ForjCore.ForjSettings.Get "default" "dev-deploy" =
          (k, true)) := by
  constructor
  · intro hunset
    have hd : f.defineDefaults X warn = f := defineDefaultsLoop_absent X _ f hunset
    rw [hd]
    exact ⟨rfl, (Get_devDeploy_found _).mpr hunset⟩
  · intro hempty hget
    have hex : ∃ e ∈ f.Deployments.entries, e.2.Type_ = "DEV" ∧ e.1 ≠ "" := by
      by_cases hk1 : k1 = ""
      · exact ⟨(k2, d2), h2, ht2, fun hk2 => hne (hk1.trans hk2.symm)⟩
      · exact ⟨(k1, d1), h1, ht1, hk1⟩
    obtain ⟨pre, ⟨k, d⟩, post, hl, hpre, hd, hk⟩ :=
      exists_first (fun e : String × DeploymentStruct => e.2.Type_ = "DEV" ∧ e.1 ≠ "") _ hex
    refine ⟨pre, k, d, post, hl, hpre, hd, hk, ?_⟩
    have hstored := defineDefaultsLoop_first X hget pre post k d f hempty hpre hd hk
    unfold ForgeYaml.defineDefaults
    rw [hl]
    unfold ForjSettingsStruct.Get DefaultSettingsStruct.Get
    rw [if_pos rfl, if_neg (by decide), if_neg (by decide), hstored]

/-- Witness of C19 (amended): deployments `dev1` and `dev2`, both of type `DEV`, and no
`dev-deploy` entry in the default settings. -/
theorem defineDefaults_two_DEV_witness :
    (sampleForge (some [("dev1", sampleDeployment "dev1" "DEV"),
        ("dev2", sampleDeployment "dev2" "DEV")]) none).yaml.defineDefaults
        sampleCollaborators true =
      (sampleForge (some [("dev1", sampleDeployment "dev1" "DEV"),
        ("dev2", sampleDeployment "dev2" "DEV")]) none).yaml ∧
    (((sampleForge (some [("dev1", sampleDeployment "dev1" "DEV"),
        ("dev2", sampleDeployment "dev2" "DEV")]) none).yaml.defineDefaults
        sampleCollaborators true).ForjCore.ForjSettings.Get "default" "dev-deploy").2 = false :=
  (defineDefaults_two_DEV sampleCollaborators _ true "dev1" "dev2"
    (sampleDeployment "dev1" "DEV") (sampleDeployment "dev2" "DEV") (by decide)
    (by simp [sampleForge, GoMap.entries]) (by simp [sampleForge, GoMap.entries]) rfl rfl).1 rfl

/-! ## The first binding that does not resolve -/

/-- The loop over the bindings of a repository keeps what `GetString("name")` gives, when
`SetInternalRelApp` does. -/
theorem validateRepoApps_name (X : Collaborators)
    (hname : ∀ r role app,
      X.RepoGetString (X.SetInternalRelApp r role app).1 "name" = X.RepoGetString r "name") :
    ∀ (bs : List (String × String)) (repo : RepoStruct),
      X.RepoGetString (validateRepoApps X repo bs).1 "name" = X.RepoGetString repo "name" := by
  intro bs
  induction bs with
  | nil => intro repo; rfl
  | cons hd tl ih =>
    intro repo
    obtain ⟨role, app⟩ := hd
    have h1 := hname repo role app
    unfold validateRepoApps
    rcases hs : X.SetInternalRelApp repo role app with ⟨r1, _ | err⟩
    · rw [hs] at h1
      simp only
      rw [ih r1]
      exact h1
    · rw [hs] at h1
      exact h1

/-- An error of the loop over the bindings of a repository is the error of the first
binding for which `SetInternalRelApp` returns one, the bindings before it having passed. -/
theorem validateRepoApps_first_error (X : Collaborators) :
    ∀ (bs : List (String × String)) (repo : RepoStruct) (e : String),
      (validateRepoApps X repo bs).2 = some e →
      ∃ bpre role app bpost r r1 err, bs = bpre ++ (role, app) :: bpost ∧
        validateRepoApps X repo bpre = (r, none) ∧
        X.SetInternalRelApp r role app = (r1, some err) ∧
        e = "Repo '" ++ X.RepoGetString r1 "name" ++
          "' has an invalid Application reference '" ++ role ++ ": " ++ app ++ "'. " ++ err := by
  intro bs
  induction bs with
  | nil => intro repo e h; simp [validateRepoApps] at h
  | cons hd tl ih =>
    intro repo e h
    obtain ⟨role, app⟩ := hd
    unfold validateRepoApps at h
    rcases hs : X.SetInternalRelApp repo role app with ⟨r1, _ | err⟩
    · rw [hs] at h
      obtain ⟨bpre, role1, app1, bpost, r, r2, err, hl, hpre, hfail, he⟩ := ih r1 e h
      refine ⟨(role, app) :: bpre, role1, app1, bpost, r, r2, err, by rw [hl]; rfl, ?_, hfail, he⟩
      simp only [validateRepoApps, hs]
      exact hpre
    · rw [hs] at h
      simp only [Option.some.injEq] at h
      exact ⟨[], role, app, tl, repo, r1, err, rfl, rfl, hs, h.symm⟩

/-- An error of the loop over the repositories is the error of the first repository whose
bindings do not pass, the repositories before it having passed. -/
theorem validateRepos_first_error (X : Collaborators) :
    ∀ (l : List (String × RepoStruct)) (e : String), (validateRepos X l).2 = some e →
      ∃ pre k repo post bs, l = pre ++ (k, repo) :: post ∧
        (∀ p ∈ pre, ∀ bs0, p.2.Apps = some bs0 → (validateRepoApps X p.2 bs0).2 = none) ∧
        repo.Apps = some bs ∧ (validateRepoApps X repo bs).2 = some e := by
  intro l
  induction l with
  | nil => intro e h; simp [validateRepos] at h
  | cons hd tl ih =>
    intro e h
    obtain ⟨k, repo⟩ := hd
    cases ha : repo.Apps with
    | none =>
      simp only [validateRepos, ha] at h
      obtain ⟨pre, k1, repo1, post, bs, hl, hpre, hap, he⟩ := ih e h
      refine ⟨(k, repo) :: pre, k1, repo1, post, bs, by rw [hl]; rfl, ?_, hap, he⟩
      intro p hp bs0 hb
      rcases List.mem_cons.mp hp with heq | hin
      · rw [heq] at hb
        rw [ha] at hb
        exact Option.noConfusion hb
      · exact hpre p hin bs0 hb
    | some bindings =>
      simp only [validateRepos, ha] at h
      rcases hv : validateRepoApps X repo bindings with ⟨repo1, _ | e0⟩
      · rw [hv] at h
        obtain ⟨pre, k1, repo2, post, bs, hl, hpre, hap, he⟩ := ih e h
        refine ⟨(k, repo) :: pre, k1, repo2, post, bs, by rw [hl]; rfl, ?_, hap, he⟩
        intro p hp bs0 hb
        rcases List.mem_cons.mp hp with heq | hin
        · rw [heq] at hb ⊢
          rw [ha] at hb
          cases hb
          rw [hv]
        · exact hpre p hin bs0 hb
      · rw [hv] at h
        simp only [Option.some.injEq] at h
        refine ⟨[], k, repo, tl, bindings, rfl, by simp, ha, ?_⟩
        rw [hv, ← h]

/-- C11, amended: when some repository declares an application binding that does not
resolve (`SetInternalRelApp` returns an error for it), `Forge.Validate` returns an error,
and that error is the one of the first binding that Validate meets and for which
`SetInternalRelApp` returns an error: the repositories visited before have passed, the
bindings of that repository visited before have passed, and the text names that
repository and the application of that binding. It names the given repository and
application when no other binding fails to resolve. (`SetInternalRelApp` is taken not to
change what `GetString("name")` gives for the repository.) -/
theorem Validate_rejects_unresolved_binding (X : Collaborators) (f : Forge)
    (hname : ∀ r role app,
      X.RepoGetString (X.SetInternalRelApp r role app).1 "name" = X.RepoGetString r "name")
    (k : String) (repo : RepoStruct) (bs : List (String × String)) (role app : String)
    (hrepo : (k, repo) ∈ f.yaml.ForjCore.Repos.entries) (happs : repo.Apps = some bs)
    (hbind : (role, app) ∈ bs) (hfail : ∀ r, (X.SetInternalRelApp r role app).2 ≠ none) :
    ∃ msg pre k1 repo1 post bs1 bpre role1 app1 bpost r r1 err,
      (f.Validate X).2 = some msg ∧
      f.yaml.ForjCore.Repos.entries = pre ++ (k1, repo1) :: post ∧
      (∀ p ∈ pre, ∀ bs0, p.2.Apps = some bs0 → (validateRepoApps X p.2 bs0).2 = none) ∧
      repo1.Apps = some bs1 ∧ bs1 = bpre ++ (role1, app1) :: bpost ∧
      validateRepoApps X repo1 bpre = (r, none) ∧
      X.SetInternalRelApp r role1 app1 = (r1, some err) ∧
      msg = "Repo '" ++ X.RepoGetString repo1 "name" ++
        "' has an invalid Application reference '" ++ role1 ++ ": " ++ app1 ++ "'. " ++ err ∧
      Mentions msg (X.RepoGetString repo1 "name") ∧ Mentions msg app1 ∧
      ((∀ k2 repo2 bs2 role2 app2 r2, (k2, repo2) ∈ f.yaml.ForjCore.Repos.entries →
          repo2.Apps = some bs2 → (role2, app2) ∈ bs2 →
          (X.SetInternalRelApp r2 role2 app2).2 ≠ none → repo2 = repo ∧ app2 = app) →
        Mentions msg (X.RepoGetString repo "name") ∧ Mentions msg app) := by
  have herr := (validateRepos_error X hname f.yaml.ForjCore.Repos.entries).2
    ⟨k, repo, bs, role, app, hrepo, happs, hbind, hfail⟩
  obtain ⟨e, he⟩ := Option.ne_none_iff_exists'.mp herr
  obtain ⟨pre, k1, repo1, post, bs1, hl, hpre, hap, hv⟩ :=
    validateRepos_first_error X _ e he
  obtain ⟨bpre, role1, app1, bpost, r, r1, err, hbs, hbpre, hset, hmsg⟩ :=
    validateRepoApps_first_error X bs1 repo1 e hv
  have hn : X.RepoGetString r1 "name" = X.RepoGetString repo1 "name" := by
    have h1 := hname r role1 app1
    rw [hset] at h1
    have h2 := validateRepoApps_name X hname bpre repo1
    rw [hbpre] at h2
    exact h1.trans h2
  rw [hn] at hmsg
  have hm := invalid_reference_mentions (X.RepoGetString repo1 "name") role1 app1 err
  rw [← hmsg] at hm
  refine ⟨e, pre, k1, repo1, post, bs1, bpre, role1, app1, bpost, r, r1, err, ?_, hl, hpre,
    hap, hbs, hbpre, hset, hmsg, hm.1, hm.2, ?_⟩
  · unfold Forge.Validate
    simp [he]
  · intro honly
    have hin1 : (k1, repo1) ∈ f.yaml.ForjCore.Repos.entries := by
      rw [hl]; simp
    have hin2 : (role1, app1) ∈ bs1 := by
      rw [hbs]; simp
    have hf : (X.SetInternalRelApp r role1 app1).2 ≠ none := by
      rw [hset]; simp
    obtain ⟨hr, ha⟩ := honly k1 repo1 bs1 role1 app1 r hin1 hap hin2 hf
    rw [← hr, ← ha]
    exact hm

/-- Witness of C11 (amended): the repository `alpha` binds `upstream` to `git1`, and no
application is declared. -/
theorem Validate_rejects_unresolved_binding_witness :
    ∃ msg, (((sampleForge none none).withRepos
        (some [("alpha", sampleRepo "alpha" (some [("upstream", "git1")]))])).Validate
        (appsCollaborators [])).2 = some msg ∧
      Mentions msg "alpha" ∧ Mentions msg "git1" := by
  obtain ⟨msg, _, _, _, _, _, _, _, _, _, _, _, _, hv, _, _, _, _, _, _, _, _, _, honly⟩ :=
    Validate_rejects_unresolved_binding (appsCollaborators [])
      ((sampleForge none none).withRepos
        (some [("alpha", sampleRepo "alpha" (some [("upstream", "git1")]))]))
      (by intro r role app; simp only [appsCollaborators]; split <;> rfl)
      "alpha" (sampleRepo "alpha" (some [("upstream", "git1")])) [("upstream", "git1")]
      "upstream" "git1" (by simp [Forge.withRepos, GoMap.entries]) rfl (by simp)
      (by intro r; simp [appsCollaborators])
  refine ⟨msg, hv, honly ?_⟩
  intro k2 repo2 bs2 role2 app2 r2 hm ha hb _
  simp only [Forge.withRepos, GoMap.entries, Option.getD_some, List.mem_singleton,
    Prod.mk.injEq] at hm
  obtain ⟨_, hrepo2⟩ := hm
  rw [hrepo2] at ha
  simp only [sampleRepo, Option.some.injEq] at ha
  rw [← ha] at hb
  simp only [List.mem_singleton, Prod.mk.injEq] at hb
  exact ⟨hrepo2, hb.2⟩

end Forjj
